import Mathlib

/-!
Verification of the segmented LRU cache (`LruCache` in `lru_test.cpp`).

The cache is modelled as a shallow embedding: the intrusive doubly linked
list is a heap `Nat → Node` (node id `0` is the sentinel `dummy`), the
`unordered_map` is an association list from keys to node ids, and the two
callbacks are modelled by an optional factory function together with a
flag for the eviction observer; observer invocations are reported as
events.  Every operation mirrors the C++ source statement by statement,
with pointer writes as sequential heap updates.
-/

namespace LruModel

/-- `LruNodeBase::State`. -/
inductive St where
  | NOMINATED
  | ADDED
  | REUSED
  | DETACHED
deriving DecidableEq, Repr

/-- One list node: `next`/`prev` links (node ids) and the state tag. -/
structure Node where
  next : Nat
  prev : Nat
  state : St
deriving DecidableEq, Repr

/-- The heap of nodes; id `0` is the sentinel `dummy`. -/
def Heap : Type := Nat → Node

/-- Write the `next` field of node `i`. -/
def updNext (h : Heap) (i v : Nat) : Heap :=
  fun j => if j = i then { h j with next := v } else h j

/-- Write the `prev` field of node `i`. -/
def updPrev (h : Heap) (i v : Nat) : Heap :=
  fun j => if j = i then { h j with prev := v } else h j

/-- Write the `state` field of node `i`. -/
def updState (h : Heap) (i : Nat) (s : St) : Heap :=
  fun j => if j = i then { h j with state := s } else h j

/-- Events observable through the callbacks of the cache. -/
inductive Event where
  | create (k : Int)
  | evict (k v : Int)
deriving DecidableEq, Repr

/-- The whole cache state (`LruCache<int,int>`).  `values`/`keys` give the
payload and map key stored in each node; `map` is the key → node-id map;
`has_evict` records whether an eviction observer is configured. -/
structure Cache where
  h : Heap
  inlet : Nat
  nomination : Nat
  cache_limit : Nat
  nominated_limit : Nat
  added_limit : Nat
  cache_size : Nat
  map : List (Int × Nat)
  values : Nat → Int
  keys : Nat → Int
  on_create : Option (Int → Int)
  has_evict : Bool
  nextId : Nat

/-- Association-list lookup of `map.find(key)`. -/
def lookupId : List (Int × Nat) → Int → Option Nat
  | [], _ => none
  | (k, i) :: rest, key => if key = k then some i else lookupId rest key

/-- `map.erase` of the (unique) entry with the given key. -/
def eraseKey : List (Int × Nat) → Int → List (Int × Nat)
  | [], _ => []
  | (k, i) :: rest, key => if key = k then rest else (k, i) :: eraseKey rest key

/-- `LruCache::remove_`:
`n->next->prev = n->prev; n->prev->next = n->next;`. -/
def remove_ (h : Heap) (n : Nat) : Heap :=
  let h1 := updPrev h (h n).next (h n).prev
  updNext h1 (h1 n).prev (h1 n).next

/-- `LruCache::insert_before_`:
`n->next = at; n->prev = at->prev; n->prev->next = n; at->prev = n;`. -/
def insert_before_ (h : Heap) (at_ n : Nat) : Heap :=
  let h1 := updNext h n at_
  let h2 := updPrev h1 n (h1 at_).prev
  let h3 := updNext h2 (h2 n).prev n
  updPrev h3 at_ n

/-- The boundary cascade inside `use_` (the body guarded by
`nomination->state == ADDED`, including that guard). -/
def boundaryCascadeUse (c : Cache) : Cache :=
  if (c.h c.nomination).state = St.ADDED then
    let h1 := updState c.h c.nomination St.NOMINATED
    let nom' := (h1 c.nomination).next
    if (h1 c.inlet).state = St.REUSED then
      let h2 := updState h1 c.inlet St.ADDED
      { c with h := h2, nomination := nom', inlet := (h2 c.inlet).next }
    else
      { c with h := h1, nomination := nom' }
  else c

/-- `LruCache::use_`. -/
def use_ (c : Cache) (n : Nat) : Cache :=
  if (c.h n).state ≠ St.NOMINATED then c
  else
    let h1 := remove_ c.h n
    let h2 := insert_before_ h1 0 n
    let h3 := updState h2 n St.REUSED
    boundaryCascadeUse { c with h := h3 }

/-- The boundary cascade inside the steady-state branch of `add_`
(`nomination->state = NOMINATED; nomination = nomination->next;`). -/
def boundaryCascadeAdd (c : Cache) : Cache :=
  let h1 := updState c.h c.nomination St.NOMINATED
  { c with h := h1, nomination := (h1 c.nomination).next }

/-- `LruCache::add_`.  Returns the new cache state together with the
events emitted (an eviction report when the observer is configured). -/
def add_ (c : Cache) (n : Nat) : Cache × List Event :=
  if (c.h n).state ≠ St.DETACHED then (c, [])
  else
    let h0 := updState c.h n St.ADDED
    if c.cache_size ≥ c.cache_limit then
      let ntr := (h0 0).next
      let h1 := remove_ h0 ntr
      let val_to_remove := c.values ntr
      let key_to_remove := c.keys ntr
      let map' := eraseKey c.map key_to_remove
      let h2 := insert_before_ h1 c.inlet n
      let c1 := boundaryCascadeAdd { c with h := h2, map := map' }
      (c1, if c.has_evict then [Event.evict key_to_remove val_to_remove] else [])
    else
      if c.cache_size < c.nominated_limit then
        let h1 := updState h0 n St.NOMINATED
        ({ c with h := insert_before_ h1 c.inlet n,
                  cache_size := c.cache_size + 1 }, [])
      else if c.cache_size = c.nominated_limit then
        ({ c with h := insert_before_ h0 c.inlet n, nomination := n,
                  cache_size := c.cache_size + 1 }, [])
      else
        let inl1 := (h0 c.inlet).prev
        let nom1 := if c.nomination = inl1 then n else c.nomination
        let h1 := updState h0 inl1 St.REUSED
        ({ c with h := insert_before_ h1 inl1 n, nomination := nom1,
                  inlet := inl1, cache_size := c.cache_size + 1 }, [])

/-- The miss path of `operator[]` before `add_`: construct the new node
(`LruNode` constructor: self-linked, `DETACHED`, value from the factory or
`V(key)`), insert it into the map and set its back-reference. -/
def insertNewNode (c : Cache) (k : Int) : Cache :=
  let v := match c.on_create with
    | some f => f k
    | none => k
  let i := c.nextId
  { c with h := fun j => if j = i then ⟨i, i, St.DETACHED⟩ else c.h j,
           values := fun j => if j = i then v else c.values j,
           keys := fun j => if j = i then k else c.keys j,
           map := (k, i) :: c.map,
           nextId := i + 1 }

/-- The factory-invocation event of a miss (emitted when a factory is
configured). -/
def createEvents (c : Cache) (k : Int) : List Event :=
  match c.on_create with
  | some _ => [Event.create k]
  | none => []

/-- `LruCache::operator[]`: fetch-or-create.  Returns the new state, the
value returned by reference, and the emitted events. -/
def fetch (c : Cache) (k : Int) : Cache × Int × List Event :=
  match lookupId c.map k with
  | some i =>
      let c1 := use_ c i
      (c1, c1.values i, [])
  | none =>
      let i := c.nextId
      let r := add_ (insertNewNode c k) i
      (r.1, r.1.values i, createEvents c k ++ r.2)

/-- The state after a fetch-or-create. -/
def fetchState (c : Cache) (k : Int) : Cache := (fetch c k).1

/-- The value returned by a fetch-or-create. -/
def fetchVal (c : Cache) (k : Int) : Int := (fetch c k).2.1

/-- The events emitted by a fetch-or-create. -/
def fetchEvents (c : Cache) (k : Int) : List Event := (fetch c k).2.2

/-- The cache constructor: sentinel self-linked and `DETACHED`, both
markers at the sentinel, default limits as in the source
(`size/2` and `nominated_limit + size/4`) when the arguments are zero. -/
def initCache (size : Nat) (on_create : Option (Int → Int))
    (has_evict : Bool) (nominated_size added_size : Nat) : Cache :=
  let nl := if nominated_size ≠ 0 then nominated_size else size / 2
  let al := if added_size ≠ 0 then added_size else nl + size / 4
  { h := fun _ => ⟨0, 0, St.DETACHED⟩
    inlet := 0
    nomination := 0
    cache_limit := size
    nominated_limit := nl
    added_limit := al
    cache_size := 0
    map := []
    values := fun _ => 0
    keys := fun _ => 0
    on_create := on_create
    has_evict := has_evict
    nextId := 1 }

/-- Run a sequence of fetch-or-create operations. -/
def run (c : Cache) : List Int → Cache
  | [] => c
  | k :: ks => run (fetchState c k) ks

/-! ## The circular list as a path predicate -/

/-- `pathFrom h a L b`: starting at node `a`, following `next` pointers
visits exactly the nodes of `L` and then reaches `b`, with all `prev`
pointers consistent along the way. -/
def pathFrom (h : Heap) : Nat → List Nat → Nat → Prop
  | a, [], b => (h a).next = b ∧ (h b).prev = a
  | a, x :: xs, b => (h a).next = x ∧ (h x).prev = a ∧ pathFrom h x xs b

instance pathFromDec (h : Heap) : (a : Nat) → (L : List Nat) → (b : Nat) →
    Decidable (pathFrom h a L b)
  | _, [], _ => inferInstanceAs (Decidable (_ ∧ _))
  | _, x :: xs, b =>
      have : Decidable (pathFrom h x xs b) := pathFromDec h x xs b
      inferInstanceAs (Decidable (_ ∧ _ ∧ _))

/-- The circular list through the sentinel `0` consists exactly of the
nodes of `L`, tail (sentinel successor) first. -/
def chainOk (h : Heap) (L : List Nat) : Prop := pathFrom h 0 L 0

/-- The zone decomposition claimed by invariants I1–I3: walking the list
from the sentinel's successor to the sentinel visits first exactly the
Nominated nodes (ending at the `nomination` marker), then exactly the
Added nodes (ending at `inlet`), then exactly the Reused nodes. -/
def zoneDecomp (c : Cache) : Prop :=
  ∃ LN LA LR : List Nat,
    chainOk c.h (LN ++ LA ++ LR) ∧
    (∀ x ∈ LN ++ LA ++ LR, x ≠ 0) ∧
    (∀ x ∈ LN, (c.h x).state = St.NOMINATED) ∧
    (∀ x ∈ LA, (c.h x).state = St.ADDED) ∧
    (∀ x ∈ LR, (c.h x).state = St.REUSED) ∧
    c.nomination = (LA ++ LR).headD 0 ∧
    c.inlet = LR.headD 0

/-! ## Concrete example states used as witnesses -/

/-- Capacity-4 cache with eviction observer, no factory
(`nominated_limit = 2`, `added_limit = 3`). -/
def eg0 : Cache := initCache 4 none true 0 0

/-- Fully warmed-up state: zones `N:[0,1] A:[3] R:[2]`
(node ids: key 0 ↦ 1, 1 ↦ 2, 2 ↦ 3, 3 ↦ 4). -/
def egFull : Cache := run eg0 [0, 1, 2, 3]

/-- Partially warmed-up state: zones `N:[0,1] A:[2]`, `inlet` still at the
sentinel. -/
def egW : Cache := run eg0 [0, 1, 2]

/-- The state reached by inserting key 0, touching it (promoting it to
Reused) and then filling the cache with keys 1,2,3.  Its tail-most node
is the Reused entry of key 0. -/
def egPre : Cache := run eg0 [0, 0, 0, 0, 1, 2, 3]

/-- A cache holding the single Nominated entry of key 0. -/
def egOne : Cache := run eg0 [0]

/-- The proviso of the amended invariant claim: the fetch of `k` is either
a miss, a hit on a non-Nominated node, or a hit on a Nominated node while
the node at `inlet` is in Reused state (a nonempty Reused zone). -/
def provisoOk (c : Cache) (k : Int) : Bool :=
  match lookupId c.map k with
  | some i =>
      decide ((c.h i).state = St.NOMINATED → (c.h c.inlet).state = St.REUSED)
  | none => true

/-- Run a sequence of fetch-or-create operations, failing when a step
violates the proviso. -/
def runP (c : Cache) : List Int → Option Cache
  | [] => some c
  | k :: ks => if provisoOk c k then runP (fetchState c k) ks else none

/-- Consistency of the key → node map with the list `L` of live nodes:
as many entries as nodes, every entry points to a live node carrying that
key, map keys are distinct, and every live node's key is mapped to it. -/
def MapOk (c : Cache) (L : List Nat) : Prop :=
  c.map.length = L.length ∧
  (∀ p ∈ c.map, p.2 ∈ L ∧ c.keys p.2 = p.1) ∧
  (c.map.map Prod.fst).Nodup ∧
  (∀ i ∈ L, (c.keys i, i) ∈ c.map)

/-- The full inductive invariant of a proviso-respecting run: the zone
decomposition of I1–I3 together with well-formedness of the heap, the
map, the counters and the warm-up phase structure. -/
def WInv (c : Cache) : Prop :=
  ∃ LN LA LR : List Nat,
    chainOk c.h (LN ++ LA ++ LR) ∧
    (0 :: (LN ++ LA ++ LR)).Nodup ∧
    (∀ x ∈ LN ++ LA ++ LR, x < c.nextId) ∧
    (∀ x ∈ LN, (c.h x).state = St.NOMINATED) ∧
    (∀ x ∈ LA, (c.h x).state = St.ADDED) ∧
    (∀ x ∈ LR, (c.h x).state = St.REUSED) ∧
    c.nomination = (LA ++ LR).headD 0 ∧
    c.inlet = LR.headD 0 ∧
    (c.h 0).state = St.DETACHED ∧
    MapOk c (LN ++ LA ++ LR) ∧
    c.cache_size = (LN ++ LA ++ LR).length ∧
    c.cache_size ≤ c.cache_limit ∧
    0 < c.nextId ∧
    0 < c.nominated_limit ∧
    c.nominated_limit < c.cache_limit ∧
    ((LA = [] ∧ LR = [] ∧ c.cache_size ≤ c.nominated_limit) ∨
      (LN.length = c.nominated_limit ∧ LA.length = 1))

/-! ## Basic framing lemmas -/

theorem cascadeUse_values (c : Cache) :
    (boundaryCascadeUse c).values = c.values := by
  unfold boundaryCascadeUse
  dsimp only
  split
  · split <;> rfl
  · rfl

theorem cascadeUse_keys (c : Cache) :
    (boundaryCascadeUse c).keys = c.keys := by
  unfold boundaryCascadeUse
  dsimp only
  split
  · split <;> rfl
  · rfl

theorem cascadeUse_map (c : Cache) :
    (boundaryCascadeUse c).map = c.map := by
  unfold boundaryCascadeUse
  dsimp only
  split
  · split <;> rfl
  · rfl

theorem cascadeUse_cache_size (c : Cache) :
    (boundaryCascadeUse c).cache_size = c.cache_size := by
  unfold boundaryCascadeUse
  dsimp only
  split
  · split <;> rfl
  · rfl

theorem use_values (c : Cache) (n : Nat) : (use_ c n).values = c.values := by
  unfold use_
  split
  · rfl
  · exact cascadeUse_values _

theorem use_keys (c : Cache) (n : Nat) : (use_ c n).keys = c.keys := by
  unfold use_
  split
  · rfl
  · exact cascadeUse_keys _

theorem use_map (c : Cache) (n : Nat) : (use_ c n).map = c.map := by
  unfold use_
  split
  · rfl
  · exact cascadeUse_map _

theorem use_cache_size (c : Cache) (n : Nat) :
    (use_ c n).cache_size = c.cache_size := by
  unfold use_
  split
  · rfl
  · exact cascadeUse_cache_size _

theorem add_values (c : Cache) (n : Nat) : ((add_ c n).1).values = c.values := by
  unfold add_ boundaryCascadeAdd
  dsimp only
  split
  · rfl
  · split
    · rfl
    · split
      · rfl
      · split <;> rfl

/-- On a hit, `operator[]` runs `use_` and reads the stored value. -/
theorem fetch_hit (c : Cache) (k : Int) (i : Nat)
    (hlk : lookupId c.map k = some i) :
    fetch c k = (use_ c i, (use_ c i).values i, []) := by
  unfold fetch
  rw [hlk]

/-- On a miss, `operator[]` builds the new node and runs `add_`. -/
theorem fetch_miss (c : Cache) (k : Int)
    (hmiss : lookupId c.map k = none) :
    fetch c k = ((add_ (insertNewNode c k) c.nextId).1,
      (add_ (insertNewNode c k) c.nextId).1.values c.nextId,
      createEvents c k ++ (add_ (insertNewNode c k) c.nextId).2) := by
  unfold fetch
  rw [hmiss]

/-! ## Pointwise effects of the heap updates -/

theorem updNext_next_self (h : Heap) (i v : Nat) :
    ((updNext h i v) i).next = v := by simp [updNext]

theorem updNext_next_ne (h : Heap) (i v j : Nat) (hj : j ≠ i) :
    ((updNext h i v) j).next = (h j).next := by simp [updNext, hj]

theorem updNext_prev (h : Heap) (i v j : Nat) :
    ((updNext h i v) j).prev = (h j).prev := by
  unfold updNext; by_cases hj : j = i <;> simp [hj]

theorem updNext_state (h : Heap) (i v j : Nat) :
    ((updNext h i v) j).state = (h j).state := by
  unfold updNext; by_cases hj : j = i <;> simp [hj]

theorem updPrev_prev_self (h : Heap) (i v : Nat) :
    ((updPrev h i v) i).prev = v := by simp [updPrev]

theorem updPrev_prev_ne (h : Heap) (i v j : Nat) (hj : j ≠ i) :
    ((updPrev h i v) j).prev = (h j).prev := by simp [updPrev, hj]

theorem updPrev_next (h : Heap) (i v j : Nat) :
    ((updPrev h i v) j).next = (h j).next := by
  unfold updPrev; by_cases hj : j = i <;> simp [hj]

theorem updPrev_state (h : Heap) (i v j : Nat) :
    ((updPrev h i v) j).state = (h j).state := by
  unfold updPrev; by_cases hj : j = i <;> simp [hj]

theorem updState_state_self (h : Heap) (i : Nat) (s : St) :
    ((updState h i s) i).state = s := by simp [updState]

theorem updState_state_ne (h : Heap) (i : Nat) (s : St) (j : Nat)
    (hj : j ≠ i) : ((updState h i s) j).state = (h j).state := by
  simp [updState, hj]

theorem updState_next (h : Heap) (i : Nat) (s : St) (j : Nat) :
    ((updState h i s) j).next = (h j).next := by
  unfold updState; by_cases hj : j = i <;> simp [hj]

theorem updState_prev (h : Heap) (i : Nat) (s : St) (j : Nat) :
    ((updState h i s) j).prev = (h j).prev := by
  unfold updState; by_cases hj : j = i <;> simp [hj]

theorem remove_state (h : Heap) (n j : Nat) :
    ((remove_ h n) j).state = (h j).state := by
  unfold remove_
  rw [updNext_state, updPrev_state]

theorem insert_before_state (h : Heap) (at_ n j : Nat) :
    ((insert_before_ h at_ n) j).state = (h j).state := by
  unfold insert_before_
  rw [updPrev_state, updNext_state, updPrev_state, updNext_state]

theorem eraseKey_cons_ne (k key : Int) (i : Nat) (rest : List (Int × Nat))
    (hk : key ≠ k) :
    eraseKey ((k, i) :: rest) key = (k, i) :: eraseKey rest key := by
  simp only [eraseKey]
  rw [if_neg hk]

theorem lookupId_cons_self (k : Int) (i : Nat) (rest : List (Int × Nat)) :
    lookupId ((k, i) :: rest) k = some i := by
  simp [lookupId]

theorem cascadeUse_next (c : Cache) (j : Nat) :
    ((boundaryCascadeUse c).h j).next = (c.h j).next := by
  unfold boundaryCascadeUse
  dsimp only
  split
  · split
    · dsimp only; rw [updState_next, updState_next]
    · dsimp only; rw [updState_next]
  · rfl

theorem cascadeUse_prev (c : Cache) (j : Nat) :
    ((boundaryCascadeUse c).h j).prev = (c.h j).prev := by
  unfold boundaryCascadeUse
  dsimp only
  split
  · split
    · dsimp only; rw [updState_prev, updState_prev]
    · dsimp only; rw [updState_prev]
  · rfl

/-! ## C7: promotion is a no-op on Added/Reused nodes -/

/-- C7: for every node whose state is Added or Reused, the promotion
operation `use_` is a no-op: the whole cache state (list positions, state
tags, boundary markers) is unchanged. -/
theorem C7_use_noop (c : Cache) (n : Nat)
    (h : (c.h n).state = St.ADDED ∨ (c.h n).state = St.REUSED) :
    use_ c n = c := by
  unfold use_
  rcases h with h | h <;> simp [h]

/-- Witness for C7 at a concrete state: node 4 of `egFull` is Added and
promoting it changes nothing. -/
theorem C7_use_noop_witness :
    ((egFull.h 4).state = St.ADDED ∨ (egFull.h 4).state = St.REUSED) ∧
      use_ egFull 4 = egFull :=
  ⟨Or.inl (by decide), C7_use_noop egFull 4 (Or.inl (by decide))⟩

/-! ## C5: the two boundary cascades are different transformations -/

/-- C5 counterexample: at the concrete (reachable) state `egFull`, where
the nomination node is Added and the inlet node is Reused, the insertion
cascade and the promotion cascade produce different states: the promotion
cascade moves the `inlet` marker, the insertion cascade does not. -/
theorem C5_counterexample :
    ¬ boundaryCascadeAdd egFull = boundaryCascadeUse egFull := by
  intro h
  have h2 := congrArg Cache.inlet h
  revert h2
  decide

/-- C5 amended: the steady-state insertion runs only the unconditional
nomination relabel-and-advance and never moves `inlet`; it coincides with
the §4.2 promotion cascade exactly on states where the nomination node is
in Added state and the inlet node is not in Reused state. -/
theorem C5_amended (c : Cache)
    (h1 : (c.h c.nomination).state = St.ADDED)
    (h2 : (c.h c.inlet).state ≠ St.REUSED) :
    boundaryCascadeAdd c = boundaryCascadeUse c := by
  unfold boundaryCascadeAdd boundaryCascadeUse
  rw [if_pos h1, if_neg]
  intro hcon
  by_cases he : c.inlet = c.nomination
  · rw [he] at hcon
    simp [updState] at hcon
  · simp [updState, he] at hcon
    exact h2 hcon

/-- Witness for C5 amended at the concrete state `egW` (nomination node
Added, inlet at the sentinel which is Detached). -/
theorem C5_amended_witness :
    (egW.h egW.nomination).state = St.ADDED ∧
      (egW.h egW.inlet).state ≠ St.REUSED ∧
      boundaryCascadeAdd egW = boundaryCascadeUse egW :=
  ⟨by decide, by decide, C5_amended egW (by decide) (by decide)⟩

/-! ## C6: the no-factory miss value is built from the key, not default -/

/-- C6 counterexample: on a cache constructed without a value factory,
fetching the missing key 5 stores and returns the value 5 (the value
`V(key)` constructed from the key), not the default value 0 of the value
type. -/
theorem C6_counterexample :
    fetchVal eg0 5 = 5 ∧ (fetchState eg0 5).values 1 = 5 ∧
      fetchVal eg0 5 ≠ (default : Int) := by
  refine ⟨by decide, by decide, ?_⟩
  decide

/-- C6 amended: on a miss with no factory configured, the value stored
(and returned) for the key is the value constructed from the key — for the
integer instantiation, the key itself. -/
theorem C6_amended (c : Cache) (k : Int)
    (hnone : c.on_create = none)
    (hmiss : lookupId c.map k = none) :
    fetchVal c k = k ∧ (fetchState c k).values c.nextId = k := by
  have hm := fetch_miss c k hmiss
  constructor
  · show (fetch c k).2.1 = k
    rw [hm]
    dsimp only
    rw [add_values]
    simp [insertNewNode, hnone]
  · show (fetch c k).1.values c.nextId = k
    rw [hm]
    dsimp only
    rw [add_values]
    simp [insertNewNode, hnone]

/-- Witness for C6 amended: key 7 on the fresh factoryless cache. -/
theorem C6_amended_witness :
    eg0.on_create = none ∧ lookupId eg0.map 7 = none ∧
      fetchVal eg0 7 = 7 ∧ (fetchState eg0 7).values eg0.nextId = 7 := by
  refine ⟨rfl, by decide, ?_, ?_⟩
  · exact (C6_amended eg0 7 rfl (by decide)).1
  · exact (C6_amended eg0 7 rfl (by decide)).2

/-! ## C9: a hit is frame-preserving on the map and the stored data -/

/-- C9: fetching a key already present in the map invokes neither the
factory nor the eviction observer (no events) and leaves the set of
tracked entries, every stored value and every stored key unchanged. -/
theorem C9_hit_frame (c : Cache) (k : Int) (i : Nat)
    (hlk : lookupId c.map k = some i) :
    fetchEvents c k = [] ∧ (fetchState c k).map = c.map ∧
      (fetchState c k).values = c.values ∧
      (fetchState c k).keys = c.keys := by
  unfold fetchEvents fetchState
  rw [fetch_hit c k i hlk]
  exact ⟨rfl, use_map c i, use_values c i, use_keys c i⟩

/-- Witness for C9: fetching the present key 2 of the warmed-up cache. -/
theorem C9_hit_frame_witness :
    lookupId egFull.map 2 = some 3 ∧
      fetchEvents egFull 2 = [] ∧ (fetchState egFull 2).map = egFull.map ∧
      (fetchState egFull 2).values = egFull.values ∧
      (fetchState egFull 2).keys = egFull.keys :=
  ⟨by decide, C9_hit_frame egFull 2 3 (by decide)⟩

/-! ## C10: a warm-up miss adds one entry and removes none -/

/-- `add_` in the warm-up phase: map untouched, counter incremented,
nothing emitted. -/
theorem add_warm (c : Cache) (n : Nat)
    (hdet : (c.h n).state = St.DETACHED)
    (hlt : c.cache_size < c.cache_limit) :
    (add_ c n).1.map = c.map ∧ (add_ c n).1.cache_size = c.cache_size + 1 ∧
      (add_ c n).2 = [] := by
  unfold add_
  rw [if_neg (by simp [hdet])]
  dsimp only
  rw [if_neg (not_le.mpr hlt)]
  split
  · exact ⟨rfl, rfl, rfl⟩
  · split
    · exact ⟨rfl, rfl, rfl⟩
    · exact ⟨rfl, rfl, rfl⟩

/-- C10: a fetch of a missing key while the tracked count is strictly
below capacity removes no entry, never invokes the eviction observer, and
increases the tracked count by exactly one. -/
theorem C10_warm_miss (c : Cache) (k : Int)
    (hmiss : lookupId c.map k = none)
    (hlt : c.cache_size < c.cache_limit) :
    (fetchState c k).map = (k, c.nextId) :: c.map ∧
      (fetchState c k).cache_size = c.cache_size + 1 ∧
      (fetchState c k).map.length = c.map.length + 1 ∧
      ∀ a b, Event.evict a b ∉ fetchEvents c k := by
  have hm := fetch_miss c k hmiss
  have hdet : ((insertNewNode c k).h c.nextId).state = St.DETACHED := by
    simp [insertNewNode]
  have hlt2 : (insertNewNode c k).cache_size < (insertNewNode c k).cache_limit := hlt
  obtain ⟨w1, w2, w3⟩ := add_warm (insertNewNode c k) c.nextId hdet hlt2
  have hmap : (fetchState c k).map = (k, c.nextId) :: c.map := by
    unfold fetchState
    rw [hm]
    dsimp only
    rw [w1]
    rfl
  refine ⟨hmap, ?_, ?_, ?_⟩
  · unfold fetchState
    rw [hm]
    dsimp only
    rw [w2]
    rfl
  · rw [hmap]
    rfl
  · intro a b
    unfold fetchEvents
    rw [hm]
    dsimp only
    rw [w3]
    unfold createEvents
    cases hc : c.on_create <;> simp

/-- Witness for C10: inserting the missing key 9 into the (non-full)
warm-up state `egW`. -/
theorem C10_warm_miss_witness :
    lookupId egW.map 9 = none ∧ egW.cache_size < egW.cache_limit ∧
      (fetchState egW 9).map = (9, egW.nextId) :: egW.map ∧
      (fetchState egW 9).cache_size = egW.cache_size + 1 ∧
      (fetchState egW 9).map.length = egW.map.length + 1 ∧
      ∀ a b, Event.evict a b ∉ fetchEvents egW 9 :=
  ⟨by decide, by decide, C10_warm_miss egW 9 (by decide) (by decide)⟩

/-! ## C3: eviction takes the tail-most node (of whatever state) -/

/-- C3 counterexample: a fetch of the missing key 4 at capacity evicts the
tail-most entry (key 0), whose state is Reused — not a Nominated-state
entry as the claim asserts. -/
theorem C3_counterexample :
    lookupId egPre.map 4 = none ∧
      egPre.cache_size ≥ egPre.cache_limit ∧
      egPre.keys ((egPre.h 0).next) = 0 ∧
      (egPre.h ((egPre.h 0).next)).state = St.REUSED ∧
      (egPre.h ((egPre.h 0).next)).state ≠ St.NOMINATED ∧
      fetchEvents egPre 4 = [Event.evict 0 0] := by
  refine ⟨by decide, by decide, by decide, by decide, by decide, by decide⟩

/-- `add_` in the steady state: the entry of the tail-most node is erased
from the map, the observer (when configured) receives exactly that node's
key and value, and the counter is unchanged. -/
theorem add_steady (c : Cache) (n : Nat)
    (hdet : (c.h n).state = St.DETACHED)
    (hge : c.cache_size ≥ c.cache_limit) :
    (add_ c n).1.map = eraseKey c.map (c.keys ((c.h 0).next)) ∧
      (add_ c n).2 = (if c.has_evict then
        [Event.evict (c.keys ((c.h 0).next)) (c.values ((c.h 0).next))]
        else []) ∧
      (add_ c n).1.cache_size = c.cache_size := by
  unfold add_
  rw [if_neg (by simp [hdet])]
  dsimp only
  rw [if_pos hge]
  dsimp only
  rw [updState_next]
  exact ⟨rfl, rfl, rfl⟩

/-- C3 amended: a fetch of a missing key at capacity removes exactly the
entry of the node at the tail-most position (the sentinel's successor) at
the moment of insertion — whatever its state — and the eviction observer,
if configured, is invoked with exactly that entry's key and value. -/
theorem C3_amended (c : Cache) (k : Int)
    (hmiss : lookupId c.map k = none)
    (hge : c.cache_size ≥ c.cache_limit)
    (hne : c.keys ((c.h 0).next) ≠ k)
    (hid : (c.h 0).next ≠ c.nextId)
    (h0id : c.nextId ≠ 0) :
    (fetchState c k).map =
        (k, c.nextId) :: eraseKey c.map (c.keys ((c.h 0).next)) ∧
      fetchEvents c k = createEvents c k ++
        (if c.has_evict then
          [Event.evict (c.keys ((c.h 0).next)) (c.values ((c.h 0).next))]
          else []) := by
  have hm := fetch_miss c k hmiss
  have hdet : ((insertNewNode c k).h c.nextId).state = St.DETACHED := by
    simp [insertNewNode]
  have htail : ((insertNewNode c k).h 0).next = (c.h 0).next := by
    simp [insertNewNode, h0id.symm]
  have hkeys : (insertNewNode c k).keys ((insertNewNode c k).h 0).next
      = c.keys ((c.h 0).next) := by
    rw [htail]
    simp [insertNewNode, hid]
  have hvals : (insertNewNode c k).values ((insertNewNode c k).h 0).next
      = c.values ((c.h 0).next) := by
    rw [htail]
    simp [insertNewNode, hid]
  obtain ⟨w1, w2, w3⟩ := add_steady (insertNewNode c k) c.nextId hdet hge
  constructor
  · unfold fetchState
    rw [hm]
    dsimp only
    rw [w1, hkeys]
    show eraseKey ((k, c.nextId) :: c.map) (c.keys ((c.h 0).next)) = _
    rw [eraseKey_cons_ne _ _ _ _ hne]
  · unfold fetchEvents
    rw [hm]
    dsimp only
    rw [w2, hkeys, hvals]
    rfl

/-- Witness for C3 amended: inserting the missing key 4 at the full state
`egPre` removes the tail entry (key 0) and reports it. -/
theorem C3_amended_witness :
    lookupId egPre.map 4 = none ∧
      (fetchState egPre 4).map =
        (4, egPre.nextId) :: eraseKey egPre.map (egPre.keys ((egPre.h 0).next)) ∧
      fetchEvents egPre 4 = createEvents egPre 4 ++
        (if egPre.has_evict then
          [Event.evict (egPre.keys ((egPre.h 0).next))
            (egPre.values ((egPre.h 0).next))]
          else []) :=
  ⟨by decide,
    C3_amended egPre 4 (by decide) (by decide) (by decide) (by decide) (by decide)⟩

/-! ## C8: insert-then-fetch round trip -/

/-- C8: after a fetch-or-create of a missing key, the key is tracked; an
immediate second fetch of the same key returns the same value, emits no
events (no factory call, no eviction), and removes no entry. -/
theorem C8_roundtrip (c : Cache) (k : Int)
    (hmiss : lookupId c.map k = none)
    (hne : c.keys ((c.h 0).next) ≠ k)
    (hid : (c.h 0).next ≠ c.nextId)
    (h0id : c.nextId ≠ 0) :
    lookupId (fetchState c k).map k = some c.nextId ∧
      fetchVal (fetchState c k) k = fetchVal c k ∧
      fetchEvents (fetchState c k) k = [] ∧
      (fetchState (fetchState c k) k).map = (fetchState c k).map := by
  have hm := fetch_miss c k hmiss
  have hdet : ((insertNewNode c k).h c.nextId).state = St.DETACHED := by
    simp [insertNewNode]
  have hlook : lookupId (fetchState c k).map k = some c.nextId := by
    by_cases hful : c.cache_size ≥ c.cache_limit
    · obtain ⟨w1, _, _⟩ := add_steady (insertNewNode c k) c.nextId hdet hful
      unfold fetchState
      rw [hm]
      dsimp only
      rw [w1]
      have htail : ((insertNewNode c k).h 0).next = (c.h 0).next := by
        simp [insertNewNode, h0id.symm]
      have hkeys : (insertNewNode c k).keys ((insertNewNode c k).h 0).next
          = c.keys ((c.h 0).next) := by
        rw [htail]
        simp [insertNewNode, hid]
      rw [hkeys]
      show lookupId (eraseKey ((k, c.nextId) :: c.map) (c.keys ((c.h 0).next))) k
        = some c.nextId
      rw [eraseKey_cons_ne _ _ _ _ hne, lookupId_cons_self]
    · obtain ⟨w1, _, _⟩ := add_warm (insertNewNode c k) c.nextId hdet
        (not_le.mp hful)
      unfold fetchState
      rw [hm]
      dsimp only
      rw [w1]
      show lookupId ((k, c.nextId) :: c.map) k = some c.nextId
      rw [lookupId_cons_self]
  have h2 := fetch_hit (fetchState c k) k c.nextId hlook
  have hv : (fetchState c k).values = (insertNewNode c k).values := by
    unfold fetchState
    rw [hm]
    dsimp only
    rw [add_values]
  refine ⟨hlook, ?_, ?_, ?_⟩
  · have e1 : (fetch (fetchState c k) k).2.1
        = (insertNewNode c k).values c.nextId := by
      rw [h2]
      dsimp only
      rw [use_values, hv]
    have e2 : (fetch c k).2.1 = (insertNewNode c k).values c.nextId := by
      rw [hm]
      dsimp only
      rw [add_values]
    exact e1.trans e2.symm
  · show (fetch (fetchState c k) k).2.2 = []
    rw [h2]
  · show (fetch (fetchState c k) k).1.map = (fetchState c k).map
    rw [h2]
    dsimp only
    rw [use_map]

/-- Witness for C8: key 4 inserted at the full state `egPre`, then fetched
again. -/
theorem C8_roundtrip_witness :
    lookupId egPre.map 4 = none ∧
      lookupId (fetchState egPre 4).map 4 = some egPre.nextId ∧
      fetchVal (fetchState egPre 4) 4 = fetchVal egPre 4 ∧
      fetchEvents (fetchState egPre 4) 4 = [] ∧
      (fetchState (fetchState egPre 4) 4).map = (fetchState egPre 4).map :=
  ⟨by decide,
    C8_roundtrip egPre 4 (by decide) (by decide) (by decide) (by decide)⟩

/-! ## C2: promotion of a Nominated node -/

/-- C2 counterexample: promoting the Nominated node of key 0 in the
single-entry cache `egOne` moves it to the head and makes it Reused, but
relabels no node at all to Nominated (afterwards no node is Nominated) —
so the promotion does not always relabel exactly one other node to
Nominated. -/
theorem C2_counterexample :
    (egOne.h 1).state = St.NOMINATED ∧
      ((fetchState egOne 0).h 0).prev = 1 ∧
      ((fetchState egOne 0).h 1).state = St.REUSED ∧
      ∀ y < (fetchState egOne 0).nextId,
        ((fetchState egOne 0).h y).state ≠ St.NOMINATED := by
  refine ⟨by decide, by decide, by decide, by decide⟩

/-- C2 amended: whenever the accessed node `x` is Nominated (and the list
around it is not degenerate), `use_` moves `x` adjacent to the sentinel on
the head side, sets its state to Reused, and the set of nodes that end up
Nominated is: the previously Nominated nodes, plus the node at the
nomination marker exactly when that node was in Added state (the cascade
condition); otherwise no node is relabeled Nominated. -/
theorem C2_amended (c : Cache) (x : Nat)
    (hst : (c.h x).state = St.NOMINATED)
    (_hx0 : x ≠ 0)
    (hinl : c.inlet ≠ x)
    (hsane1 : (c.h x).next = 0 → (c.h x).prev ≠ x)
    (hsane2 : (c.h x).next ≠ 0 → (c.h 0).prev ≠ x) :
    ((use_ c x).h 0).prev = x ∧ ((use_ c x).h x).next = 0 ∧
      ((use_ c x).h x).state = St.REUSED ∧
      ∀ y, y ≠ x →
        (((use_ c x).h y).state = St.NOMINATED ↔
          ((c.h y).state = St.NOMINATED ∨
            (y = c.nomination ∧ (c.h c.nomination).state = St.ADDED))) := by
  have huse : use_ c x = boundaryCascadeUse
      { c with h := updState (insert_before_ (remove_ c.h x) 0 x) x St.REUSED } := by
    unfold use_
    rw [if_neg (by simp [hst])]
  set h1 : Heap := remove_ c.h x with hh1
  set h2 : Heap := insert_before_ h1 0 x with hh2
  set h3 : Heap := updState h2 x St.REUSED with hh3
  -- the sentinel's prev after removal is not x
  have hF0 : (h1 0).prev ≠ x := by
    rw [hh1]
    unfold remove_
    rw [updNext_prev]
    by_cases hc : (0 : Nat) = (c.h x).next
    · rw [← hc, updPrev_prev_self]
      exact hsane1 hc.symm
    · rw [updPrev_prev_ne _ _ _ _ (fun he => hc he)]
      exact hsane2 (fun he => hc he.symm)
  -- pointer facts after re-insertion at the head
  have hF1 : (h2 x).next = 0 := by
    rw [hh2]
    unfold insert_before_
    rw [updPrev_next, updNext_next_ne, updPrev_next, updNext_next_self]
    rw [updPrev_prev_self, updNext_prev]
    exact Ne.symm hF0
  have hF2 : (h2 0).prev = x := by
    rw [hh2]
    unfold insert_before_
    rw [updPrev_prev_self]
  have hstate3x : (h3 x).state = St.REUSED := by
    rw [hh3, updState_state_self]
  have hstate3ne : ∀ y, y ≠ x → (h3 y).state = (c.h y).state := by
    intro y hy
    rw [hh3, updState_state_ne _ _ _ _ hy, hh2, insert_before_state, hh1,
      remove_state]
  rw [huse]
  refine ⟨?_, ?_, ?_, ?_⟩
  · rw [cascadeUse_prev]
    show (h3 0).prev = x
    rw [hh3, updState_prev, hF2]
  · rw [cascadeUse_next]
    show (h3 x).next = 0
    rw [hh3, updState_next, hF1]
  · -- state of the promoted node stays Reused through the cascade
    unfold boundaryCascadeUse
    dsimp only
    split
    · next hguard =>
      have hnx : c.nomination ≠ x := by
        intro he
        rw [he, hstate3x] at hguard
        exact absurd hguard (by decide)
      split
      · dsimp only
        rw [updState_state_ne _ _ _ _ (fun he => hinl he.symm),
          updState_state_ne _ _ _ _ (fun he => hnx he.symm), hstate3x]
      · dsimp only
        rw [updState_state_ne _ _ _ _ (fun he => hnx he.symm), hstate3x]
    · exact hstate3x
  · intro y hy
    unfold boundaryCascadeUse
    dsimp only
    by_cases hnx : c.nomination = x
    · -- the promoted node was the nomination target: guard is false
      rw [if_neg (by rw [hnx, hstate3x]; decide)]
      rw [hstate3ne y hy]
      constructor
      · exact Or.inl
      · rintro (h | ⟨he, _⟩)
        · exact h
        · exact absurd hnx (fun hc => hy (by rw [he, hc]))
    · have hg3 : (h3 c.nomination).state = (c.h c.nomination).state :=
        hstate3ne c.nomination hnx
      by_cases hguard : (c.h c.nomination).state = St.ADDED
      · rw [if_pos (by rw [hg3]; exact hguard)]
        by_cases hny : y = c.nomination
        · -- the nomination node is relabeled Nominated
          subst hny
          split
          · next hin =>
            dsimp only
            have hin2 : c.inlet ≠ c.nomination := by
              intro he
              rw [he, updState_state_self] at hin
              exact absurd hin (by decide)
            rw [updState_state_ne _ _ _ _ (fun he => hin2 he.symm),
              updState_state_self]
            exact ⟨fun _ => Or.inr ⟨rfl, hguard⟩, fun _ => rfl⟩
          · dsimp only
            rw [updState_state_self]
            exact ⟨fun _ => Or.inr ⟨rfl, hguard⟩, fun _ => rfl⟩
        · -- any other node keeps its state (or is relabeled Added, not
          -- Nominated, when it is the inlet node)
          split
          · next hin =>
            dsimp only
            by_cases hiy : y = c.inlet
            · subst hiy
              rw [updState_state_self]
              rw [updState_state_ne _ _ _ _ (fun he => hny he)] at hin
              rw [hstate3ne c.inlet hy] at hin
              constructor
              · intro hcon
                exact absurd hcon (by decide)
              · rintro (h | ⟨he, _⟩)
                · rw [hin] at h
                  exact absurd h (by decide)
                · exact absurd he hny
            · rw [updState_state_ne _ _ _ _ (fun he => hiy he),
                updState_state_ne _ _ _ _ (fun he => hny he),
                hstate3ne y hy]
              constructor
              · exact Or.inl
              · rintro (h | ⟨he, _⟩)
                · exact h
                · exact absurd he hny
          · dsimp only
            rw [updState_state_ne _ _ _ _ (fun he => hny he),
              hstate3ne y hy]
            constructor
            · exact Or.inl
            · rintro (h | ⟨he, _⟩)
              · exact h
              · exact absurd he hny
      · rw [if_neg (by rw [hg3]; exact hguard)]
        rw [hstate3ne y hy]
        constructor
        · exact Or.inl
        · rintro (h | ⟨_, he⟩)
          · exact h
          · exact absurd he hguard

/-! ## Chain surgery lemmas -/

theorem pathFrom_append (h : Heap) (a y b : Nat) (xs ys : List Nat) :
    pathFrom h a (xs ++ y :: ys) b ↔ pathFrom h a xs y ∧ pathFrom h y ys b := by
  induction xs generalizing a with
  | nil =>
      simp only [List.nil_append, pathFrom]
      tauto
  | cons z zs ih =>
      simp only [List.cons_append, List.append_eq, pathFrom]
      rw [ih]
      tauto

theorem pathFrom_next_head (h : Heap) (a b : Nat) (L : List Nat)
    (hp : pathFrom h a L b) : (h a).next = L.headD b := by
  cases L with
  | nil => exact hp.1
  | cons z zs => exact hp.1

theorem pathFrom_prev_last (h : Heap) (a b : Nat) (L : List Nat)
    (hp : pathFrom h a L b) : (h b).prev = L.getLastD a := by
  induction L generalizing a with
  | nil => exact hp.2
  | cons z zs ih =>
      rw [List.getLastD_cons]
      exact ih z hp.2.2

theorem pathFrom_congr2 (h1 h2 : Heap) (a b : Nat) (L : List Nat)
    (hn : ∀ z, z = a ∨ z ∈ L → (h1 z).next = (h2 z).next)
    (hp : ∀ z, z ∈ L ∨ z = b → (h1 z).prev = (h2 z).prev) :
    pathFrom h1 a L b → pathFrom h2 a L b := by
  induction L generalizing a with
  | nil =>
      intro hq
      refine ⟨?_, ?_⟩
      · rw [← hn a (Or.inl rfl)]
        exact hq.1
      · rw [← hp b (Or.inr rfl)]
        exact hq.2
  | cons z zs ih =>
      intro hq
      refine ⟨?_, ?_, ?_⟩
      · rw [← hn a (Or.inl rfl)]
        exact hq.1
      · rw [← hp z (Or.inl (List.mem_cons_self z zs))]
        exact hq.2.1
      · exact ih z
          (fun w hw => hn w (by
            rcases hw with hw | hw
            · exact Or.inr (by rw [hw]; exact List.mem_cons_self z zs)
            · exact Or.inr (List.mem_cons_of_mem z hw)))
          (fun w hw => hp w (by
            rcases hw with hw | hw
            · exact Or.inl (List.mem_cons_of_mem z hw)
            · exact Or.inr hw))
          hq.2.2

theorem pathFrom_updState (h : Heap) (i : Nat) (s : St) (a b : Nat)
    (L : List Nat) (hq : pathFrom h a L b) :
    pathFrom (updState h i s) a L b :=
  pathFrom_congr2 h (updState h i s) a b L
    (fun z _ => (updState_next h i s z).symm)
    (fun z _ => (updState_prev h i s z).symm) hq

theorem pathFrom_retarget (h : Heap) (a y x : Nat) (A : List Nat)
    (hp : pathFrom h a A x) (hna : a ∉ A) (hnd : A.Nodup) (hy : y ∉ A) :
    pathFrom (updNext (updPrev h y (A.getLastD a)) (A.getLastD a) y) a A y := by
  induction A generalizing a with
  | nil =>
      refine ⟨?_, ?_⟩
      · exact updNext_next_self _ _ _
      · rw [updNext_prev]
        exact updPrev_prev_self _ _ _
  | cons z zs ih =>
      obtain ⟨e1, e2, e3⟩ := hp
      rw [List.getLastD_cons]
      have hzmem : zs.getLastD z ∈ z :: zs := List.getLastD_mem_cons zs z
      refine ⟨?_, ?_, ?_⟩
      · rw [updNext_next_ne _ _ _ _ (fun he => hna (by rw [he]; exact hzmem)),
          updPrev_next]
        exact e1
      · rw [updNext_prev,
          updPrev_prev_ne _ _ _ _
            (fun he => hy (by rw [← he]; exact List.mem_cons_self z zs))]
        exact e2
      · exact ih z e3 (List.nodup_cons.mp hnd).1 (List.nodup_cons.mp hnd).2
          (fun hc => hy (List.mem_cons_of_mem z hc))

/-- Pointwise reads of the four-write heap produced by `insert_before_`
(with `p` the old predecessor of the insertion point). -/
theorem ins4_next (h : Heap) (p at_ n z : Nat) (hzp : z ≠ p) (hzn : z ≠ n) :
    ((updPrev (updNext (updPrev (updNext h n at_) n p) p n) at_ n) z).next
      = (h z).next := by
  rw [updPrev_next, updNext_next_ne _ _ _ _ hzp, updPrev_next,
    updNext_next_ne _ _ _ _ hzn]

theorem ins4_next_self (h : Heap) (p at_ n : Nat) (hnp : n ≠ p) :
    ((updPrev (updNext (updPrev (updNext h n at_) n p) p n) at_ n) n).next
      = at_ := by
  rw [updPrev_next, updNext_next_ne _ _ _ _ hnp, updPrev_next,
    updNext_next_self]

theorem ins4_next_p (h : Heap) (p at_ n : Nat) :
    ((updPrev (updNext (updPrev (updNext h n at_) n p) p n) at_ n) p).next
      = n := by
  rw [updPrev_next, updNext_next_self]

theorem ins4_prev (h : Heap) (p at_ n z : Nat) (hza : z ≠ at_) (hzn : z ≠ n) :
    ((updPrev (updNext (updPrev (updNext h n at_) n p) p n) at_ n) z).prev
      = (h z).prev := by
  rw [updPrev_prev_ne _ _ _ _ hza, updNext_prev,
    updPrev_prev_ne _ _ _ _ hzn, updNext_prev]

theorem ins4_prev_at (h : Heap) (p at_ n : Nat) :
    ((updPrev (updNext (updPrev (updNext h n at_) n p) p n) at_ n) at_).prev
      = n :=
  updPrev_prev_self _ _ _

theorem ins4_prev_n (h : Heap) (p at_ n : Nat) (hna : n ≠ at_) :
    ((updPrev (updNext (updPrev (updNext h n at_) n p) p n) at_ n) n).prev
      = p := by
  rw [updPrev_prev_ne _ _ _ _ hna, updNext_prev, updPrev_prev_self]

/-- Pointwise reads of the two-write heap used by `pathFrom_retarget`. -/
theorem ret2_next (h : Heap) (p y z : Nat) (hzp : z ≠ p) :
    ((updNext (updPrev h y p) p y) z).next = (h z).next := by
  rw [updNext_next_ne _ _ _ _ hzp, updPrev_next]

theorem ret2_prev (h : Heap) (p y z : Nat) (hzy : z ≠ y) :
    ((updNext (updPrev h y p) p y) z).prev = (h z).prev := by
  rw [updNext_prev, updPrev_prev_ne _ _ _ _ hzy]

theorem ret2_prev_y (h : Heap) (p y : Nat) :
    ((updNext (updPrev h y p) p y) y).prev = p := by
  rw [updNext_prev, updPrev_prev_self]

/-- `use_` is the identity on non-Nominated nodes. -/
theorem use_noop (c : Cache) (n : Nat)
    (h : (c.h n).state ≠ St.NOMINATED) : use_ c n = c := by
  unfold use_
  rw [if_pos h]

theorem use_cache_limit (c : Cache) (n : Nat) :
    (use_ c n).cache_limit = c.cache_limit := by
  unfold use_ boundaryCascadeUse
  dsimp only
  split
  · rfl
  · split
    · split <;> rfl
    · rfl

theorem use_nominated_limit (c : Cache) (n : Nat) :
    (use_ c n).nominated_limit = c.nominated_limit := by
  unfold use_ boundaryCascadeUse
  dsimp only
  split
  · rfl
  · split
    · split <;> rfl
    · rfl

theorem use_nextId (c : Cache) (n : Nat) :
    (use_ c n).nextId = c.nextId := by
  unfold use_ boundaryCascadeUse
  dsimp only
  split
  · rfl
  · split
    · split <;> rfl
    · rfl

/-- The successor of a chain node is the head of what follows it. -/
theorem chain_next_at (h : Heap) (X Y : List Nat) (p : Nat)
    (hch : chainOk h (X ++ p :: Y)) : (h p).next = Y.headD 0 := by
  obtain ⟨_, hp⟩ := (pathFrom_append h 0 p 0 X Y).mp hch
  exact pathFrom_next_head h p 0 Y hp

/-- The sentinel's successor is the head of the chain. -/
theorem chain_head (h : Heap) (L : List Nat) (hch : chainOk h L) :
    (h 0).next = L.headD 0 :=
  pathFrom_next_head h 0 0 L hch

/-- The predecessor of a chain node is the last of what precedes it. -/
theorem chain_prev_at (h : Heap) (X Y : List Nat) (p : Nat)
    (hch : chainOk h (X ++ p :: Y)) : (h p).prev = X.getLastD 0 := by
  obtain ⟨hp, _⟩ := (pathFrom_append h 0 p 0 X Y).mp hch
  exact pathFrom_prev_last h 0 p X hp

/-- The sentinel's predecessor is the last of the chain. -/
theorem chain_last (h : Heap) (L : List Nat) (hch : chainOk h L) :
    (h 0).prev = L.getLastD 0 :=
  pathFrom_prev_last h 0 0 L hch

theorem getLastD_append_singleton (X : List Nat) (a d : Nat) :
    (X ++ [a]).getLastD d = a := by
  induction X generalizing d with
  | nil => rfl
  | cons z zs ih =>
      rw [List.cons_append, List.getLastD_cons]
      exact ih z

/-! ## Association-list facts -/

theorem lookupId_mem (m : List (Int × Nat)) (k : Int) (i : Nat)
    (h : lookupId m k = some i) : (k, i) ∈ m := by
  induction m with
  | nil => exact absurd h (by simp [lookupId])
  | cons p rest ih =>
      unfold lookupId at h
      by_cases hk : k = p.1
      · rw [if_pos hk] at h
        have h2 : p.2 = i := Option.some_inj.mp h
        rw [hk, ← h2, Prod.mk.eta]
        exact List.mem_cons_self p rest
      · rw [if_neg hk] at h
        exact List.mem_cons_of_mem p (ih h)

theorem lookupId_none (m : List (Int × Nat)) (k : Int)
    (h : lookupId m k = none) : ∀ p ∈ m, p.1 ≠ k := by
  induction m with
  | nil => intro p hp; exact absurd hp (List.not_mem_nil p)
  | cons q rest ih =>
      unfold lookupId at h
      by_cases hk : k = q.1
      · rw [if_pos hk] at h
        exact absurd h (by simp)
      · rw [if_neg hk] at h
        intro p hp
        rcases List.mem_cons.mp hp with hp | hp
        · intro he
          exact hk (by rw [← he, hp])
        · exact ih h p hp

theorem eraseKey_length (m : List (Int × Nat)) (k : Int) (i : Nat)
    (h : (k, i) ∈ m) : (eraseKey m k).length + 1 = m.length := by
  induction m with
  | nil => exact absurd h (List.not_mem_nil _)
  | cons q rest ih =>
      unfold eraseKey
      by_cases hk : k = q.1
      · rw [if_pos hk]
        rfl
      · rw [if_neg hk]
        rcases List.mem_cons.mp h with hq | hq
        · exact absurd (congrArg Prod.fst hq) hk
        · rw [List.length_cons, List.length_cons, ih hq]

theorem eraseKey_sublist (m : List (Int × Nat)) (k : Int) :
    (eraseKey m k).Sublist m := by
  induction m with
  | nil => exact List.Sublist.refl []
  | cons q rest ih =>
      unfold eraseKey
      by_cases hk : k = q.1
      · rw [if_pos hk]
        exact List.sublist_cons_self q rest
      · rw [if_neg hk]
        exact List.Sublist.cons₂ q ih

theorem mem_eraseKey_of_ne (m : List (Int × Nat)) (k : Int)
    (p : Int × Nat) (hp : p ∈ m) (hne : p.1 ≠ k) : p ∈ eraseKey m k := by
  induction m with
  | nil => exact absurd hp (List.not_mem_nil _)
  | cons q rest ih =>
      unfold eraseKey
      by_cases hk : k = q.1
      · rw [if_pos hk]
        rcases List.mem_cons.mp hp with hq | hq
        · exact absurd (by rw [hq, hk]) hne
        · exact hq
      · rw [if_neg hk]
        rcases List.mem_cons.mp hp with hq | hq
        · rw [hq]
          exact List.mem_cons_self q _
        · exact List.mem_cons_of_mem q (ih hq)

theorem eraseKey_key_gone (m : List (Int × Nat)) (k : Int)
    (hnd : (m.map Prod.fst).Nodup) :
    ∀ p ∈ eraseKey m k, p.1 ≠ k := by
  induction m with
  | nil => intro p hp; exact absurd hp (List.not_mem_nil p)
  | cons q rest ih =>
      rw [List.map_cons, List.nodup_cons] at hnd
      unfold eraseKey
      by_cases hk : k = q.1
      · rw [if_pos hk]
        intro p hp he
        exact hnd.1 (by
          rw [← hk, ← he]
          exact List.mem_map_of_mem Prod.fst hp)
      · rw [if_neg hk]
        intro p hp
        rcases List.mem_cons.mp hp with hq | hq
        · rw [hq]
          exact fun he => hk he.symm
        · exact ih hnd.2 p hq

theorem keys_nodup_inj (m : List (Int × Nat)) (k : Int) (i j : Nat)
    (hnd : (m.map Prod.fst).Nodup)
    (hi : (k, i) ∈ m) (hj : (k, j) ∈ m) : i = j := by
  induction m with
  | nil => exact absurd hi (List.not_mem_nil _)
  | cons q rest ih =>
      rw [List.map_cons, List.nodup_cons] at hnd
      rcases List.mem_cons.mp hi with hq1 | hq1
      · rcases List.mem_cons.mp hj with hq2 | hq2
        · rw [← hq1] at hq2
          exact (Prod.mk.injEq _ _ _ _).mp hq2.symm |>.2
        · exfalso
          apply hnd.1
          have hk1 : q.1 = k := by rw [← hq1]
          rw [hk1]
          exact List.mem_map_of_mem Prod.fst hq2
      · rcases List.mem_cons.mp hj with hq2 | hq2
        · exfalso
          apply hnd.1
          have hk1 : q.1 = k := by rw [← hq2]
          rw [hk1]
          exact List.mem_map_of_mem Prod.fst hq1
        · exact ih hnd.2 hq1 hq2

/-- `MapOk` only depends on the list of live nodes up to permutation. -/
theorem mapOk_perm (c : Cache) (L L2 : List Nat) (hp : L.Perm L2)
    (hm : MapOk c L) : MapOk c L2 := by
  obtain ⟨h1, h2, h3, h4⟩ := hm
  exact ⟨h1.trans hp.length_eq, fun p hp2 => ⟨hp.mem_iff.mp (h2 p hp2).1,
    (h2 p hp2).2⟩, h3, fun i hi => h4 i (hp.mem_iff.mpr hi)⟩

/-- `MapOk` is insensitive to the parts of the cache it does not read. -/
theorem mapOk_of_eq (c c2 : Cache) (L : List Nat)
    (hmap : c2.map = c.map) (hkeys : ∀ i ∈ L, c2.keys i = c.keys i)
    (hm : MapOk c L) : MapOk c2 L := by
  obtain ⟨h1, h2, h3, h4⟩ := hm
  refine ⟨by rw [hmap, h1], ?_, by rw [hmap]; exact h3, ?_⟩
  · intro p hp
    rw [hmap] at hp
    exact ⟨(h2 p hp).1, by rw [hkeys p.2 (h2 p hp).1]; exact (h2 p hp).2⟩
  · intro i hi
    rw [hmap, hkeys i hi]
    exact h4 i hi

/-- Unlinking a list node (`remove_`) removes it from the chain. -/
theorem chain_remove (h : Heap) (A B : List Nat) (x : Nat)
    (hch : chainOk h (A ++ x :: B)) (hnd : (0 :: (A ++ x :: B)).Nodup) :
    chainOk (remove_ h x) (A ++ B) := by
  obtain ⟨h0, hnd2⟩ := List.nodup_cons.mp hnd
  rw [List.mem_append, List.mem_cons] at h0
  push_neg at h0
  obtain ⟨h0A, h0x, h0B⟩ := h0
  obtain ⟨hAnd, hxBnd, hdisj⟩ := List.nodup_append.mp hnd2
  obtain ⟨hxB, hBnd⟩ := List.nodup_cons.mp hxBnd
  obtain ⟨hA, hB⟩ := (pathFrom_append h 0 x 0 A B).mp hch
  have hpx : (h x).prev = A.getLastD 0 := pathFrom_prev_last h 0 x A hA
  have hnx : (h x).next = B.headD 0 := pathFrom_next_head h x 0 B hB
  have hxnx : x ≠ (h x).next := by
    rw [hnx]
    cases B with
    | nil => exact fun he => h0x he.symm
    | cons r B2 =>
        intro he
        rw [List.headD_cons] at he
        rw [he] at hxB
        exact hxB (List.mem_cons_self r B2)
  have hre : remove_ h x
      = updNext (updPrev h (h x).next (h x).prev) (h x).prev (h x).next := by
    unfold remove_
    dsimp only
    rw [updPrev_prev_ne _ _ _ _ hxnx, updPrev_next]
  unfold chainOk
  rw [hre, hpx, hnx]
  cases B with
  | nil =>
      rw [List.append_nil]
      simp only [List.headD_nil]
      exact pathFrom_retarget h 0 0 x A hA h0A hAnd h0A
  | cons r B2 =>
      simp only [List.headD_cons]
      have hgl : A.getLastD 0 ∈ 0 :: A := List.getLastD_mem_cons A 0
      refine (pathFrom_append _ 0 r 0 A B2).mpr ⟨?_, ?_⟩
      · exact pathFrom_retarget h 0 r x A hA h0A hAnd
          (fun hc => hdisj hc (List.mem_cons_of_mem x (List.mem_cons_self r B2)))
      · obtain ⟨_, _, hB2⟩ := hB
        refine pathFrom_congr2 h _ r 0 B2 ?_ ?_ hB2
        · intro z hz
          have hne : z ≠ A.getLastD 0 := by
            intro he
            have hzB : z ∈ x :: r :: B2 := by
              rcases hz with hz | hz
              · rw [hz]
                exact List.mem_cons_of_mem x (List.mem_cons_self r B2)
              · exact List.mem_cons_of_mem x (List.mem_cons_of_mem r hz)
            rcases List.mem_cons.mp (he ▸ hgl) with hc0 | hcA
            · rw [hc0] at hzB
              rcases List.mem_cons.mp hzB with h1 | h1
              · exact h0x h1
              · exact h0B h1
            · exact hdisj hcA hzB
          exact (ret2_next h _ r z hne).symm
        · intro z hz
          have hne : z ≠ r := by
            rcases hz with hz | hz
            · intro he
              exact (List.nodup_cons.mp hBnd).1 (he ▸ hz)
            · rw [hz]
              intro he
              rw [← he] at h0B
              exact h0B (List.mem_cons_self 0 B2)
          exact (ret2_prev h _ r z hne).symm

/-- `insert_before_` at the sentinel appends a fresh node at the head end
of the chain. -/
theorem chain_insert_end (h : Heap) (L : List Nat) (n : Nat)
    (hch : chainOk h L) (hnd : (0 :: L).Nodup) (hn : n ∉ L) (hn0 : n ≠ 0) :
    chainOk (insert_before_ h 0 n) (L ++ [n]) := by
  obtain ⟨h0L, hLnd⟩ := List.nodup_cons.mp hnd
  have hp : (h 0).prev = L.getLastD 0 := pathFrom_prev_last h 0 0 L hch
  have hglmem : L.getLastD 0 ∈ 0 :: L := List.getLastD_mem_cons L 0
  have hpn : L.getLastD 0 ≠ n := by
    intro he
    have hm := hglmem
    rw [he] at hm
    rcases List.mem_cons.mp hm with h1 | h1
    · exact hn0 h1
    · exact hn h1
  have hie : insert_before_ h 0 n =
      updPrev (updNext (updPrev (updNext h n 0) n (L.getLastD 0))
        (L.getLastD 0) n) 0 n := by
    unfold insert_before_
    dsimp only
    rw [updNext_prev, hp, updPrev_prev_self]
  unfold chainOk
  rw [hie]
  refine (pathFrom_append _ 0 n 0 L []).mpr ⟨?_, ?_, ?_⟩
  · have hr := pathFrom_retarget h 0 n 0 L hch h0L hLnd hn
    refine pathFrom_congr2 _ _ 0 n L ?_ ?_ hr
    · intro z hz
      have hzn : z ≠ n := by
        intro he
        rcases hz with hz | hz
        · exact hn0 (by rw [← he, hz])
        · exact hn (he ▸ hz)
      by_cases hzp : z = L.getLastD 0
      · rw [hzp, updNext_next_self, ins4_next_p]
      · rw [ret2_next h _ n z hzp, ins4_next h _ 0 n z hzp hzn]
    · intro z hz
      have hz0 : z ≠ 0 := by
        rcases hz with hz | hz
        · intro he
          exact h0L (he ▸ hz)
        · rw [hz]
          exact hn0
      by_cases hzn : z = n
      · rw [hzn, ret2_prev_y, ins4_prev_n h _ 0 n hn0]
      · rw [ret2_prev h _ n z hzn, ins4_prev h _ 0 n z hz0 hzn]
  · exact ins4_next_self h _ 0 n (fun he => hpn he.symm)
  · exact ins4_prev_at h _ 0 n

/-- `insert_before_` at a chain node splices a fresh node right before
it. -/
theorem chain_insert_mid (h : Heap) (A B : List Nat) (at_ n : Nat)
    (hch : chainOk h (A ++ at_ :: B)) (hnd : (0 :: (A ++ at_ :: B)).Nodup)
    (hn : n ∉ 0 :: (A ++ at_ :: B)) :
    chainOk (insert_before_ h at_ n) (A ++ n :: at_ :: B) := by
  obtain ⟨h0, hnd2⟩ := List.nodup_cons.mp hnd
  rw [List.mem_append, List.mem_cons] at h0
  push_neg at h0
  obtain ⟨h0A, h0at, h0B⟩ := h0
  obtain ⟨hAnd, hatBnd, hdisj⟩ := List.nodup_append.mp hnd2
  obtain ⟨hatB, hBnd⟩ := List.nodup_cons.mp hatBnd
  rw [List.mem_cons, List.mem_append, List.mem_cons] at hn
  push_neg at hn
  obtain ⟨hn0, hnA, hnat, hnB⟩ := hn
  have hatA : at_ ∉ A := fun hc => hdisj hc (List.mem_cons_self at_ B)
  obtain ⟨hA, hB⟩ := (pathFrom_append h 0 at_ 0 A B).mp hch
  have hp : (h at_).prev = A.getLastD 0 := pathFrom_prev_last h 0 at_ A hA
  have hglmem : A.getLastD 0 ∈ 0 :: A := List.getLastD_mem_cons A 0
  have hpn : A.getLastD 0 ≠ n := by
    intro he
    have hm := hglmem
    rw [he] at hm
    rcases List.mem_cons.mp hm with h1 | h1
    · exact hn0 h1
    · exact hnA h1
  have hie : insert_before_ h at_ n =
      updPrev (updNext (updPrev (updNext h n at_) n (A.getLastD 0))
        (A.getLastD 0) n) at_ n := by
    unfold insert_before_
    dsimp only
    rw [updNext_prev, hp, updPrev_prev_self]
  unfold chainOk
  rw [hie]
  refine (pathFrom_append _ 0 n 0 A (at_ :: B)).mpr ⟨?_, ?_, ?_, ?_⟩
  · have hr := pathFrom_retarget h 0 n at_ A hA h0A hAnd hnA
    refine pathFrom_congr2 _ _ 0 n A ?_ ?_ hr
    · intro z hz
      have hzn : z ≠ n := by
        intro he
        rcases hz with hz | hz
        · exact hn0 (by rw [← hz, he])
        · exact hnA (he ▸ hz)
      by_cases hzp : z = A.getLastD 0
      · rw [hzp, updNext_next_self, ins4_next_p]
      · rw [ret2_next h _ n z hzp, ins4_next h _ at_ n z hzp hzn]
    · intro z hz
      have hzat : z ≠ at_ := by
        rcases hz with hz | hz
        · intro he
          exact hatA (he ▸ hz)
        · rw [hz]
          exact hnat
      by_cases hzn : z = n
      · rw [hzn, ret2_prev_y, ins4_prev_n h _ at_ n hnat]
      · rw [ret2_prev h _ n z hzn, ins4_prev h _ at_ n z hzat hzn]
  · exact ins4_next_self h _ at_ n (fun he => hpn he.symm)
  · exact ins4_prev_at h _ at_ n
  · refine pathFrom_congr2 h _ at_ 0 B ?_ ?_ hB
    · intro z hz
      have hzB : z ∈ at_ :: B := by
        rcases hz with hz | hz
        · rw [hz]
          exact List.mem_cons_self at_ B
        · exact List.mem_cons_of_mem at_ hz
      have hzn : z ≠ n := by
        intro he
        rcases List.mem_cons.mp hzB with h1 | h1
        · exact hnat (by rw [← he, h1])
        · exact hnB (he ▸ h1)
      have hzp : z ≠ A.getLastD 0 := by
        intro he
        rcases List.mem_cons.mp (he ▸ hglmem) with h1 | h1
        · rcases List.mem_cons.mp hzB with h2 | h2
          · exact h0at (by rw [← h1, h2])
          · rw [h1] at h2
            exact h0B h2
        · exact hdisj h1 hzB
      exact (ins4_next h _ at_ n z hzp hzn).symm
    · intro z hz
      have hzat : z ≠ at_ := by
        rcases hz with hz | hz
        · intro he
          exact hatB (he ▸ hz)
        · rw [hz]
          intro he
          exact h0at he
      have hzn : z ≠ n := by
        rcases hz with hz | hz
        · intro he
          exact hnB (he ▸ hz)
        · rw [hz]
          exact fun he => hn0 he.symm
      exact (ins4_prev h _ at_ n z hzat hzn).symm

/-- Effect of `use_` on a Nominated node `i` of a well-formed cache whose
list is `P ++ i :: Q ++ a :: r :: LR2` with `nomination = a` (Added) and
`inlet = r` (Reused): `i` moves to the head as Reused, `a` becomes
Nominated, `r` becomes Added, and both markers advance. -/
theorem use_nominated_w (c : Cache) (i a r : Nat) (P Q LR2 : List Nat)
    (hch : chainOk c.h (P ++ i :: (Q ++ a :: r :: LR2)))
    (hnd : (0 :: (P ++ i :: (Q ++ a :: r :: LR2))).Nodup)
    (hsti : (c.h i).state = St.NOMINATED)
    (hsta : (c.h a).state = St.ADDED)
    (hstr : (c.h r).state = St.REUSED)
    (hnom : c.nomination = a) (hinl : c.inlet = r) :
    chainOk (use_ c i).h (P ++ (Q ++ a :: r :: (LR2 ++ [i]))) ∧
      (use_ c i).nomination = r ∧
      (use_ c i).inlet = (LR2 ++ [i]).headD 0 ∧
      ((use_ c i).h i).state = St.REUSED ∧
      ((use_ c i).h a).state = St.NOMINATED ∧
      ((use_ c i).h r).state = St.ADDED ∧
      (∀ y, y ≠ i → y ≠ a → y ≠ r →
        ((use_ c i).h y).state = (c.h y).state) := by
  obtain ⟨h0L, hLnd⟩ := List.nodup_cons.mp hnd
  obtain ⟨hPnd, hiMnd, hPdisj⟩ := List.nodup_append.mp hLnd
  obtain ⟨hiM, hMnd⟩ := List.nodup_cons.mp hiMnd
  have hi0 : i ≠ 0 := by
    intro he
    exact h0L (by rw [← he]; simp)
  have haM : a ∈ Q ++ a :: r :: LR2 := by simp
  have hrM : r ∈ Q ++ a :: r :: LR2 := by simp
  have hai : a ≠ i := fun he => hiM (he ▸ haM)
  have hri : r ≠ i := fun he => hiM (he ▸ hrM)
  have hra : r ≠ a := by
    obtain ⟨_, harnd, _⟩ := List.nodup_append.mp hMnd
    obtain ⟨hanr, _⟩ := List.nodup_cons.mp harnd
    intro he
    exact hanr (by rw [← he]; simp)
  -- the promotion path of use_
  have hne : ¬((c.h i).state ≠ St.NOMINATED) := by simp [hsti]
  have huse : use_ c i = boundaryCascadeUse
      { c with
        h := updState (insert_before_ (remove_ c.h i) 0 i) i St.REUSED } := by
    unfold use_
    rw [if_neg hne]
  -- surgery on the chain
  have hch1 : chainOk (remove_ c.h i) (P ++ (Q ++ a :: r :: LR2)) :=
    chain_remove c.h P _ i hch hnd
  have hnd1 : (0 :: (P ++ (Q ++ a :: r :: LR2))).Nodup := by
    refine List.Nodup.sublist ?_ hnd
    exact List.Sublist.cons₂ 0
      (List.Sublist.append_left (List.sublist_cons_self i _) P)
  have hiP : i ∉ P ++ (Q ++ a :: r :: LR2) := by
    intro hc
    rcases List.mem_append.mp hc with hc | hc
    · exact hPdisj hc (List.mem_cons_self i _)
    · exact hiM hc
  have hch2 : chainOk (insert_before_ (remove_ c.h i) 0 i)
      ((P ++ (Q ++ a :: r :: LR2)) ++ [i]) := by
    refine chain_insert_end _ _ i ?_ hnd1 hiP hi0
    exact hch1
  have hch2' : chainOk (insert_before_ (remove_ c.h i) 0 i)
      (P ++ (Q ++ a :: r :: (LR2 ++ [i]))) := by
    have := hch2
    simpa [List.append_assoc] using this
  -- state reads after the pointer surgery
  have hst2 : ∀ y, ((insert_before_ (remove_ c.h i) 0 i) y).state
      = (c.h y).state := by
    intro y
    rw [insert_before_state, remove_state]
  -- successors of `a` and `r` in the new chain
  have hnexta : ((insert_before_ (remove_ c.h i) 0 i) a).next = r := by
    have hsh : chainOk (insert_before_ (remove_ c.h i) 0 i)
        ((P ++ Q) ++ a :: (r :: (LR2 ++ [i]))) := by
      have := hch2'
      simpa [List.append_assoc] using this
    rw [chain_next_at _ _ _ _ hsh]
    rfl
  have hnextr : ((insert_before_ (remove_ c.h i) 0 i) r).next
      = (LR2 ++ [i]).headD 0 := by
    have hsh : chainOk (insert_before_ (remove_ c.h i) 0 i)
        (((P ++ Q) ++ [a]) ++ r :: (LR2 ++ [i])) := by
      have := hch2'
      simpa [List.append_assoc] using this
    exact chain_next_at _ _ _ _ hsh
  rw [huse]
  unfold boundaryCascadeUse
  dsimp only
  rw [if_pos (by rw [hnom, updState_state_ne _ _ _ _ hai, hst2 a]; exact hsta)]
  rw [if_pos (by rw [hinl, hnom,
    updState_state_ne _ _ _ _ (fun he => hra he),
    updState_state_ne _ _ _ _ hri, hst2 r]; exact hstr)]
  refine ⟨?_, ?_, ?_, ?_, ?_, ?_, ?_⟩
  · show chainOk
      (updState (updState (updState (insert_before_ (remove_ c.h i) 0 i) i
        St.REUSED) c.nomination St.NOMINATED) c.inlet St.ADDED)
      (P ++ (Q ++ a :: r :: (LR2 ++ [i])))
    exact pathFrom_updState _ _ _ _ _ _
      (pathFrom_updState _ _ _ _ _ _
        (pathFrom_updState _ _ _ _ _ _ hch2'))
  · show (updState (updState (insert_before_ (remove_ c.h i) 0 i) i
        St.REUSED) c.nomination St.NOMINATED c.nomination).next = r
    rw [hnom, updState_next, updState_next, hnexta]
  · show (updState (updState (updState (insert_before_ (remove_ c.h i) 0 i) i
        St.REUSED) c.nomination St.NOMINATED) c.inlet St.ADDED c.inlet).next
      = (LR2 ++ [i]).headD 0
    rw [hinl, hnom, updState_next, updState_next, updState_next, hnextr]
  · show (updState (updState (updState (insert_before_ (remove_ c.h i) 0 i) i
        St.REUSED) c.nomination St.NOMINATED) c.inlet St.ADDED i).state
      = St.REUSED
    rw [hinl, hnom, updState_state_ne _ _ _ _ (fun he => hri he.symm),
      updState_state_ne _ _ _ _ (fun he => hai he.symm), updState_state_self]
  · show (updState (updState (updState (insert_before_ (remove_ c.h i) 0 i) i
        St.REUSED) c.nomination St.NOMINATED) c.inlet St.ADDED a).state
      = St.NOMINATED
    rw [hinl, hnom, updState_state_ne _ _ _ _ (fun he => hra he.symm),
      updState_state_self]
  · show (updState (updState (updState (insert_before_ (remove_ c.h i) 0 i) i
        St.REUSED) c.nomination St.NOMINATED) c.inlet St.ADDED r).state
      = St.ADDED
    rw [hinl, updState_state_self]
  · intro y hyi hya hyr
    show (updState (updState (updState (insert_before_ (remove_ c.h i) 0 i) i
        St.REUSED) c.nomination St.NOMINATED) c.inlet St.ADDED y).state
      = (c.h y).state
    rw [hinl, hnom, updState_state_ne _ _ _ _ hyr,
      updState_state_ne _ _ _ _ hya, updState_state_ne _ _ _ _ hyi, hst2 y]
theorem C2_amended_witness :
    (egFull.h 1).state = St.NOMINATED ∧
      (((use_ egFull 1).h 0).prev = 1 ∧ ((use_ egFull 1).h 1).next = 0 ∧
        ((use_ egFull 1).h 1).state = St.REUSED ∧
        ∀ y, y ≠ 1 →
          (((use_ egFull 1).h y).state = St.NOMINATED ↔
            ((egFull.h y).state = St.NOMINATED ∨
              (y = egFull.nomination ∧
                (egFull.h egFull.nomination).state = St.ADDED)))) :=
  ⟨by decide,
    C2_amended egFull 1 (by decide) (by decide) (by decide) (by decide)
      (by decide)⟩

/-- Effect of `add_` on a fresh Detached node `n` at capacity, for a
well-formed cache whose list is `e :: LN2 ++ a :: LR` with
`nomination = a` and `inlet` the head of `LR`: the tail node `e` is
evicted (its entry erased, its key and value reported), `n` is inserted
as Added before `inlet`, and `a` is relabeled Nominated with the marker
advancing to `n`. -/
theorem add_steady_w (c : Cache) (n e a : Nat) (LN2 LR : List Nat)
    (hch : chainOk c.h (e :: (LN2 ++ a :: LR)))
    (hnd : (0 :: e :: (LN2 ++ a :: LR)).Nodup)
    (hstn : (c.h n).state = St.DETACHED)
    (hfresh : n ∉ 0 :: e :: (LN2 ++ a :: LR))
    (hge : c.cache_size ≥ c.cache_limit)
    (hnom : c.nomination = a)
    (hinl : c.inlet = LR.headD 0) :
    chainOk (add_ c n).1.h (LN2 ++ a :: n :: LR) ∧
      (add_ c n).1.nomination = n ∧
      (add_ c n).1.inlet = c.inlet ∧
      ((add_ c n).1.h a).state = St.NOMINATED ∧
      ((add_ c n).1.h n).state = St.ADDED ∧
      (∀ y, y ≠ a → y ≠ n → ((add_ c n).1.h y).state = (c.h y).state) ∧
      (add_ c n).1.map = eraseKey c.map (c.keys e) ∧
      (add_ c n).1.cache_size = c.cache_size ∧
      (add_ c n).1.cache_limit = c.cache_limit ∧
      (add_ c n).1.nominated_limit = c.nominated_limit ∧
      (add_ c n).1.nextId = c.nextId ∧
      (add_ c n).1.keys = c.keys ∧
      (add_ c n).2 = (if c.has_evict then
        [Event.evict (c.keys e) (c.values e)] else []) := by
  rw [List.mem_cons, List.mem_cons] at hfresh
  push_neg at hfresh
  obtain ⟨hn0, hne2, hnM⟩ := hfresh
  have haM : a ∈ LN2 ++ a :: LR := by simp
  have hna : n ≠ a := fun he => hnM (he ▸ haM)
  -- the evicted node is the chain head
  have hntr : (updState c.h n St.ADDED 0).next = e := by
    rw [updState_next]
    have hhd := chain_head c.h (e :: (LN2 ++ a :: LR)) hch
    rw [List.headD_cons] at hhd
    exact hhd
  -- chain after evicting `e` and inserting `n` before `inlet`
  have hch0 : chainOk (updState c.h n St.ADDED) (e :: (LN2 ++ a :: LR)) :=
    pathFrom_updState _ _ _ _ _ _ hch
  have hch1 : chainOk (remove_ (updState c.h n St.ADDED) e)
      (LN2 ++ a :: LR) := by
    have hrem := chain_remove (updState c.h n St.ADDED) [] (LN2 ++ a :: LR)
      e (by simpa using hch0) (by simpa using hnd)
    simpa using hrem
  have hnd1 : (0 :: (LN2 ++ a :: LR)).Nodup := by
    refine List.Nodup.sublist ?_ hnd
    exact List.Sublist.cons₂ 0 (List.sublist_cons_self e _)
  have hch2 : chainOk (insert_before_ (remove_ (updState c.h n St.ADDED) e)
      c.inlet n) (LN2 ++ a :: n :: LR) := by
    rcases LR with _ | ⟨r, LR2⟩
    · rw [show c.inlet = 0 from hinl]
      have hend := chain_insert_end _ (LN2 ++ [a]) n hch1 hnd1 hnM hn0
      simpa using hend
    · rw [show c.inlet = r from hinl]
      have hb : chainOk (remove_ (updState c.h n St.ADDED) e)
          ((LN2 ++ [a]) ++ r :: LR2) := by
        simpa using hch1
      have hnd2 : (0 :: ((LN2 ++ [a]) ++ r :: LR2)).Nodup := by
        simpa using hnd1
      have hn3 : n ∉ 0 :: ((LN2 ++ [a]) ++ r :: LR2) := by
        have heq : (LN2 ++ [a]) ++ r :: LR2 = LN2 ++ a :: r :: LR2 := by
          simp
        rw [heq]
        intro hc
        rcases List.mem_cons.mp hc with hc | hc
        · exact hn0 hc
        · exact hnM hc
      have hmid := chain_insert_mid _ (LN2 ++ [a]) LR2 r n hb hnd2 hn3
      simpa using hmid
  -- successor of `a` after the insertion
  have hnexta : ((insert_before_ (remove_ (updState c.h n St.ADDED) e)
      c.inlet n) a).next = n := by
    have hnx := chain_next_at _ LN2 (n :: LR) a hch2
    rw [hnx]
    rfl
  -- states after the surgery
  have hst2 : ∀ y, y ≠ n →
      ((insert_before_ (remove_ (updState c.h n St.ADDED) e)
        c.inlet n) y).state = (c.h y).state := by
    intro y hy
    rw [insert_before_state, remove_state, updState_state_ne _ _ _ _ hy]
  have hstn2 : ((insert_before_ (remove_ (updState c.h n St.ADDED) e)
      c.inlet n) n).state = St.ADDED := by
    rw [insert_before_state, remove_state, updState_state_self]
  -- unfold add_ on the steady branch
  unfold add_
  rw [if_neg (by simp [hstn])]
  dsimp only
  rw [if_pos hge]
  dsimp only
  rw [hntr]
  unfold boundaryCascadeAdd
  dsimp only
  refine ⟨?_, ?_, ?_, ?_, ?_, ?_, ?_, ?_, ?_, ?_, ?_, ?_, ?_⟩
  · show chainOk (updState (insert_before_ (remove_ (updState c.h n
      St.ADDED) e) c.inlet n) c.nomination St.NOMINATED)
      (LN2 ++ a :: n :: LR)
    exact pathFrom_updState _ _ _ _ _ _ hch2
  · show (updState (insert_before_ (remove_ (updState c.h n St.ADDED) e)
      c.inlet n) c.nomination St.NOMINATED c.nomination).next = n
    rw [updState_next, hnom, hnexta]
  · rfl
  · show (updState (insert_before_ (remove_ (updState c.h n St.ADDED) e)
      c.inlet n) c.nomination St.NOMINATED a).state = St.NOMINATED
    rw [hnom, updState_state_self]
  · show (updState (insert_before_ (remove_ (updState c.h n St.ADDED) e)
      c.inlet n) c.nomination St.NOMINATED n).state = St.ADDED
    rw [hnom, updState_state_ne _ _ _ _ hna, hstn2]
  · intro y hya hyn
    show (updState (insert_before_ (remove_ (updState c.h n St.ADDED) e)
      c.inlet n) c.nomination St.NOMINATED y).state = (c.h y).state
    rw [hnom, updState_state_ne _ _ _ _ hya, hst2 y hyn]
  · rfl
  · rfl
  · rfl
  · rfl
  · rfl
  · rfl
  · rfl

/-! ## The miss path: effect of `insertNewNode` and the warm-up branches -/

theorem insertNewNode_h_self (c : Cache) (k : Int) :
    (insertNewNode c k).h c.nextId = ⟨c.nextId, c.nextId, St.DETACHED⟩ := by
  simp [insertNewNode]

theorem insertNewNode_h_ne (c : Cache) (k : Int) (j : Nat)
    (hj : j ≠ c.nextId) : (insertNewNode c k).h j = c.h j := by
  simp [insertNewNode, hj]

theorem insertNewNode_keys_self (c : Cache) (k : Int) :
    (insertNewNode c k).keys c.nextId = k := by
  simp [insertNewNode]

theorem insertNewNode_keys_ne (c : Cache) (k : Int) (j : Nat)
    (hj : j ≠ c.nextId) : (insertNewNode c k).keys j = c.keys j := by
  simp [insertNewNode, hj]

/-- The fresh node does not disturb the chain of live nodes. -/
theorem insertNewNode_chain (c : Cache) (k : Int) (L : List Nat)
    (h0 : 0 < c.nextId) (hfr : ∀ x ∈ L, x < c.nextId)
    (hch : chainOk c.h L) : chainOk (insertNewNode c k).h L := by
  refine pathFrom_congr2 c.h (insertNewNode c k).h 0 0 L ?_ ?_ hch
  · intro z hz
    have hzne : z ≠ c.nextId := by
      rcases hz with hz | hz
      · rw [hz]; exact Nat.ne_of_lt h0
      · exact Nat.ne_of_lt (hfr z hz)
    rw [insertNewNode_h_ne c k z hzne]
  · intro z hz
    have hzne : z ≠ c.nextId := by
      rcases hz with hz | hz
      · exact Nat.ne_of_lt (hfr z hz)
      · rw [hz]; exact Nat.ne_of_lt h0
    rw [insertNewNode_h_ne c k z hzne]

/-- Inserting a fresh element in the middle preserves distinctness. -/
theorem nodup_mid (X Y : List Nat) (z n : Nat)
    (hnd : (z :: (X ++ Y)).Nodup) (hn : n ∉ z :: (X ++ Y)) :
    (z :: (X ++ n :: Y)).Nodup := by
  have hp : (z :: (X ++ n :: Y)).Perm (n :: z :: (X ++ Y)) :=
    (List.Perm.cons z List.perm_middle).trans (List.Perm.swap n z _)
  exact hp.nodup_iff.mpr (List.nodup_cons.mpr ⟨hn, hnd⟩)

/-- `MapOk` after a warm-up insertion: the new key is prepended to the map
and the fresh node appended to the chain. -/
theorem mapOk_step_warm (c c2 : Cache) (k : Int) (n : Nat) (L : List Nat)
    (hM : MapOk c L) (hmiss : lookupId c.map k = none)
    (hfresh : n ∉ L)
    (hmap2 : c2.map = (k, n) :: c.map)
    (hkn : c2.keys n = k)
    (hko : ∀ j, j ≠ n → c2.keys j = c.keys j) :
    MapOk c2 (L ++ [n]) := by
  obtain ⟨h1, h2, h3, h4⟩ := hM
  refine ⟨?_, ?_, ?_, ?_⟩
  · rw [hmap2]
    simp [h1]
  · intro p hp
    rw [hmap2] at hp
    rcases List.mem_cons.mp hp with hp | hp
    · rw [hp]
      exact ⟨by simp, hkn⟩
    · obtain ⟨hm, hk⟩ := h2 p hp
      refine ⟨List.mem_append_left _ hm, ?_⟩
      rw [hko p.2 (fun he => hfresh (he ▸ hm))]
      exact hk
  · rw [hmap2, List.map_cons]
    refine List.nodup_cons.mpr ⟨?_, h3⟩
    intro hk
    obtain ⟨p, hp, hpk⟩ := List.mem_map.mp hk
    exact lookupId_none c.map k hmiss p hp hpk
  · intro i hi
    rw [hmap2]
    rcases List.mem_append.mp hi with hi | hi
    · have hin : i ≠ n := fun he => hfresh (he ▸ hi)
      rw [hko i hin]
      exact List.mem_cons_of_mem _ (h4 i hi)
    · have hin : i = n := List.mem_singleton.mp hi
      rw [hin, hkn]
      exact List.mem_cons_self _ _

/-- `MapOk` after a steady-state insertion: the tail node's entry is
erased, the new key prepended, the fresh node inserted into the chain. -/
theorem mapOk_step_steady (c c2 : Cache) (k : Int) (n e : Nat)
    (M : List Nat)
    (hM : MapOk c (e :: M)) (hnd : (e :: M).Nodup)
    (hmiss : lookupId c.map k = none)
    (hfreshM : n ∉ M)
    (hmap2 : c2.map = (k, n) :: eraseKey c.map (c.keys e))
    (hkn : c2.keys n = k)
    (hko : ∀ j, j ≠ n → c2.keys j = c.keys j) :
    MapOk c2 (M ++ [n]) := by
  obtain ⟨h1, h2, h3, h4⟩ := hM
  obtain ⟨heM, hMnd⟩ := List.nodup_cons.mp hnd
  have heE : (c.keys e, e) ∈ c.map := h4 e (List.mem_cons_self e M)
  have hlen := eraseKey_length c.map (c.keys e) e heE
  refine ⟨?_, ?_, ?_, ?_⟩
  · rw [hmap2]
    rw [List.length_cons] at h1 ⊢
    rw [List.length_append, List.length_singleton]
    omega
  · intro p hp
    rw [hmap2] at hp
    rcases List.mem_cons.mp hp with hp | hp
    · rw [hp]
      exact ⟨by simp, hkn⟩
    · have hpm : p ∈ c.map := (eraseKey_sublist c.map (c.keys e)).subset hp
      obtain ⟨hm, hk⟩ := h2 p hpm
      have hpe : p.2 ≠ e := by
        intro he
        exact eraseKey_key_gone c.map (c.keys e) h3 p hp (by rw [← hk, he])
      have hpM : p.2 ∈ M := by
        rcases List.mem_cons.mp hm with hm | hm
        · exact absurd hm hpe
        · exact hm
      refine ⟨List.mem_append_left _ hpM, ?_⟩
      rw [hko p.2 (fun he => hfreshM (he ▸ hpM))]
      exact hk
  · rw [hmap2, List.map_cons]
    refine List.nodup_cons.mpr ⟨?_, ?_⟩
    · intro hk
      obtain ⟨p, hp, hpk⟩ := List.mem_map.mp hk
      exact lookupId_none c.map k hmiss p
        ((eraseKey_sublist c.map (c.keys e)).subset hp) hpk
    · exact h3.sublist ((eraseKey_sublist c.map (c.keys e)).map Prod.fst)
  · intro i hi
    rw [hmap2]
    rcases List.mem_append.mp hi with hi | hi
    · have hie : i ≠ e := fun he => heM (he ▸ hi)
      have hin : i ≠ n := fun he => hfreshM (he ▸ hi)
      rw [hko i hin]
      have him : (c.keys i, i) ∈ c.map := h4 i (List.mem_cons_of_mem e hi)
      have hkne : c.keys i ≠ c.keys e := by
        intro he
        exact hie (keys_nodup_inj c.map (c.keys e) i e h3 (he ▸ him) heE)
      exact List.mem_cons_of_mem _
        (mem_eraseKey_of_ne c.map (c.keys e) (c.keys i, i) him hkne)
    · have hin : i = n := List.mem_singleton.mp hi
      rw [hin, hkn]
      exact List.mem_cons_self _ _

/-- Effect of `add_` in the first warm-up phase (count below the nominated
limit): the fresh node is appended at the end in Nominated state and no
marker moves. -/
theorem add_warm1_w (c : Cache) (n : Nat) (L : List Nat)
    (hch : chainOk c.h L) (hnd : (0 :: L).Nodup)
    (hstn : (c.h n).state = St.DETACHED)
    (hfresh : n ∉ 0 :: L)
    (hlt : c.cache_size < c.cache_limit)
    (hlt2 : c.cache_size < c.nominated_limit)
    (hinl : c.inlet = 0) :
    chainOk (add_ c n).1.h (L ++ [n]) ∧
      ((add_ c n).1.h n).state = St.NOMINATED ∧
      (∀ y, y ≠ n → ((add_ c n).1.h y).state = (c.h y).state) ∧
      (add_ c n).1.nomination = c.nomination ∧
      (add_ c n).1.inlet = c.inlet ∧
      (add_ c n).1.map = c.map ∧
      (add_ c n).1.cache_size = c.cache_size + 1 ∧
      (add_ c n).1.cache_limit = c.cache_limit ∧
      (add_ c n).1.nominated_limit = c.nominated_limit ∧
      (add_ c n).1.nextId = c.nextId ∧
      (add_ c n).1.keys = c.keys ∧
      (add_ c n).2 = [] := by
  rw [List.mem_cons] at hfresh
  push_neg at hfresh
  obtain ⟨hn0, hnL⟩ := hfresh
  have hch1 : chainOk (updState (updState c.h n St.ADDED) n St.NOMINATED)
      L :=
    pathFrom_updState _ _ _ _ _ _ (pathFrom_updState _ _ _ _ _ _ hch)
  have hend := chain_insert_end _ L n hch1 hnd hnL hn0
  unfold add_
  rw [if_neg (by simp [hstn])]
  dsimp only
  rw [if_neg (not_le.mpr hlt)]
  rw [if_pos hlt2]
  dsimp only
  rw [hinl]
  refine ⟨hend, ?_, ?_, rfl, rfl, rfl, rfl, rfl, rfl, rfl, rfl, rfl⟩
  · show ((insert_before_ (updState (updState c.h n St.ADDED) n
      St.NOMINATED) 0 n) n).state = St.NOMINATED
    rw [insert_before_state, updState_state_self]
  · intro y hy
    show ((insert_before_ (updState (updState c.h n St.ADDED) n
      St.NOMINATED) 0 n) y).state = (c.h y).state
    rw [insert_before_state, updState_state_ne _ _ _ _ hy,
      updState_state_ne _ _ _ _ hy]

/-- Effect of `add_` at the moment the count reaches the nominated limit:
the fresh node is appended at the end in Added state and becomes the
nomination target. -/
theorem add_warm2_w (c : Cache) (n : Nat) (L : List Nat)
    (hch : chainOk c.h L) (hnd : (0 :: L).Nodup)
    (hstn : (c.h n).state = St.DETACHED)
    (hfresh : n ∉ 0 :: L)
    (hlt : c.cache_size < c.cache_limit)
    (heq : c.cache_size = c.nominated_limit)
    (hinl : c.inlet = 0) :
    chainOk (add_ c n).1.h (L ++ [n]) ∧
      ((add_ c n).1.h n).state = St.ADDED ∧
      (∀ y, y ≠ n → ((add_ c n).1.h y).state = (c.h y).state) ∧
      (add_ c n).1.nomination = n ∧
      (add_ c n).1.inlet = c.inlet ∧
      (add_ c n).1.map = c.map ∧
      (add_ c n).1.cache_size = c.cache_size + 1 ∧
      (add_ c n).1.cache_limit = c.cache_limit ∧
      (add_ c n).1.nominated_limit = c.nominated_limit ∧
      (add_ c n).1.nextId = c.nextId ∧
      (add_ c n).1.keys = c.keys ∧
      (add_ c n).2 = [] := by
  rw [List.mem_cons] at hfresh
  push_neg at hfresh
  obtain ⟨hn0, hnL⟩ := hfresh
  have hch1 : chainOk (updState c.h n St.ADDED) L :=
    pathFrom_updState _ _ _ _ _ _ hch
  have hend := chain_insert_end _ L n hch1 hnd hnL hn0
  unfold add_
  rw [if_neg (by simp [hstn])]
  dsimp only
  rw [if_neg (not_le.mpr hlt)]
  rw [if_neg (by omega)]
  rw [if_pos heq]
  dsimp only
  rw [hinl]
  refine ⟨hend, ?_, ?_, rfl, rfl, rfl, rfl, rfl, rfl, rfl, rfl, rfl⟩
  · show ((insert_before_ (updState c.h n St.ADDED) 0 n) n).state =
      St.ADDED
    rw [insert_before_state, updState_state_self]
  · intro y hy
    show ((insert_before_ (updState c.h n St.ADDED) 0 n) y).state =
      (c.h y).state
    rw [insert_before_state, updState_state_ne _ _ _ _ hy]

/-- Effect of `add_` in the late warm-up phase (count strictly between the
nominated limit and capacity), for a well-formed cache with
`nomination = a` the predecessor of `inlet`: the inlet node `a` is
reclaimed as Reused, the fresh node is inserted before it in Added state,
and both markers retarget. -/
theorem add_warm3_w (c : Cache) (n a : Nat) (X LR : List Nat)
    (hch : chainOk c.h (X ++ a :: LR))
    (hnd : (0 :: (X ++ a :: LR)).Nodup)
    (hstn : (c.h n).state = St.DETACHED)
    (hfresh : n ∉ 0 :: (X ++ a :: LR))
    (hlt : c.cache_size < c.cache_limit)
    (hgt : ¬ c.cache_size < c.nominated_limit)
    (hne : ¬ c.cache_size = c.nominated_limit)
    (hnom : c.nomination = a)
    (hinl : c.inlet = LR.headD 0) :
    chainOk (add_ c n).1.h (X ++ n :: a :: LR) ∧
      ((add_ c n).1.h n).state = St.ADDED ∧
      ((add_ c n).1.h a).state = St.REUSED ∧
      (∀ y, y ≠ n → y ≠ a → ((add_ c n).1.h y).state = (c.h y).state) ∧
      (add_ c n).1.nomination = n ∧
      (add_ c n).1.inlet = a ∧
      (add_ c n).1.map = c.map ∧
      (add_ c n).1.cache_size = c.cache_size + 1 ∧
      (add_ c n).1.cache_limit = c.cache_limit ∧
      (add_ c n).1.nominated_limit = c.nominated_limit ∧
      (add_ c n).1.nextId = c.nextId ∧
      (add_ c n).1.keys = c.keys ∧
      (add_ c n).2 = [] := by
  have haM : a ∈ X ++ a :: LR := by simp
  rw [List.mem_cons] at hfresh
  push_neg at hfresh
  obtain ⟨hn0, hnL⟩ := hfresh
  have hna : n ≠ a := fun he => hnL (he ▸ haM)
  -- the predecessor of the inlet marker is the nomination node `a`
  have hinl1 : (updState c.h n St.ADDED c.inlet).prev = a := by
    rw [updState_prev]
    rcases LR with _ | ⟨r, LR2⟩
    · rw [show c.inlet = 0 from hinl]
      have hl := chain_last c.h (X ++ [a]) hch
      rw [hl, getLastD_append_singleton]
    · rw [show c.inlet = r from hinl]
      have hb : chainOk c.h ((X ++ [a]) ++ r :: LR2) := by
        simpa using hch
      have hpr := chain_prev_at c.h (X ++ [a]) LR2 r hb
      rw [hpr, getLastD_append_singleton]
  have hch1 : chainOk (updState (updState c.h n St.ADDED) a St.REUSED)
      (X ++ a :: LR) :=
    pathFrom_updState _ _ _ _ _ _ (pathFrom_updState _ _ _ _ _ _ hch)
  have hmid := chain_insert_mid _ X LR a n hch1 hnd
    (by
      rw [List.mem_cons]
      push_neg
      exact ⟨hn0, hnL⟩)
  unfold add_
  rw [if_neg (by simp [hstn])]
  dsimp only
  rw [if_neg (not_le.mpr hlt)]
  rw [if_neg hgt]
  rw [if_neg hne]
  dsimp only
  rw [hinl1]
  rw [if_pos hnom]
  refine ⟨hmid, ?_, ?_, ?_, rfl, rfl, rfl, rfl, rfl, rfl, rfl, rfl, rfl⟩
  · show ((insert_before_ (updState (updState c.h n St.ADDED) a
      St.REUSED) a n) n).state = St.ADDED
    rw [insert_before_state, updState_state_ne _ _ _ _ hna,
      updState_state_self]
  · show ((insert_before_ (updState (updState c.h n St.ADDED) a
      St.REUSED) a n) a).state = St.REUSED
    rw [insert_before_state, updState_state_self]
  · intro y hyn hya
    show ((insert_before_ (updState (updState c.h n St.ADDED) a
      St.REUSED) a n) y).state = (c.h y).state
    rw [insert_before_state, updState_state_ne _ _ _ _ hya,
      updState_state_ne _ _ _ _ hyn]

/-! ## Preservation of the full invariant -/

/-- A proviso-respecting hit preserves the full invariant. -/
theorem winv_hit (c : Cache) (k : Int) (i : Nat) (hW : WInv c)
    (hlk : lookupId c.map k = some i)
    (hprov : provisoOk c k = true) : WInv (use_ c i) := by
  have hWc := hW
  obtain ⟨LN, LA, LR, hch, hnd, hfr, hsN, hsA, hsR, hnom, hinl, hs0, hmok,
    hsz, hszle, hnx0, hnl0, hnll, hphase⟩ := hW
  by_cases hni : (c.h i).state = St.NOMINATED
  case neg =>
    rw [use_noop c i hni]
    exact hWc
  case pos =>
    have hiM : i ∈ LN ++ LA ++ LR :=
      (hmok.2.1 (k, i) (lookupId_mem _ _ _ hlk)).1
    have hiLN : i ∈ LN := by
      rw [List.append_assoc, List.mem_append] at hiM
      rcases hiM with h | h
      · exact h
      · rcases List.mem_append.mp h with h | h
        · exact absurd (hsA i h) (by rw [hni]; decide)
        · exact absurd (hsR i h) (by rw [hni]; decide)
    have hpr : (c.h c.inlet).state = St.REUSED := by
      unfold provisoOk at hprov
      rw [hlk] at hprov
      exact (of_decide_eq_true hprov) hni
    rcases LR with _ | ⟨r, LR2⟩
    · exfalso
      rw [show c.inlet = 0 from hinl, hs0] at hpr
      exact absurd hpr (by decide)
    · rcases hphase with ⟨_, hcon, _⟩ | ⟨hlnlen, hla1⟩
      · exact absurd hcon (List.cons_ne_nil r LR2)
      · rcases LA with _ | ⟨a, LA2⟩
        · exact absurd hla1 (by decide)
        · have hLA2 : LA2 = [] := by simpa using hla1
          subst hLA2
          obtain ⟨P, Q, hPQ⟩ := List.append_of_mem hiLN
          subst hPQ
          have he : ((P ++ i :: Q) ++ [a]) ++ r :: LR2 =
              P ++ i :: (Q ++ a :: r :: LR2) := by simp
          rw [he] at hch hnd hfr hsz
          have hsta : (c.h a).state = St.ADDED :=
            hsA a (List.mem_cons_self a [])
          have hstr : (c.h r).state = St.REUSED :=
            hsR r (List.mem_cons_self r LR2)
          have hnomA : c.nomination = a := hnom
          have hinlr : c.inlet = r := hinl
          obtain ⟨w1, w2, w3, w4, w5, w6, w7⟩ :=
            use_nominated_w c i a r P Q LR2 hch hnd hni hsta hstr hnomA
              hinlr
          -- distinctness facts
          obtain ⟨h0M, hnd2⟩ := List.nodup_cons.mp hnd
          rw [List.mem_append, List.mem_cons] at h0M
          push_neg at h0M
          obtain ⟨h0P, h0i, h0X⟩ := h0M
          obtain ⟨hndP, hndiX, hdisjP⟩ := List.nodup_append.mp hnd2
          obtain ⟨hiX, hndX⟩ := List.nodup_cons.mp hndiX
          obtain ⟨hndQ, hndY, hdisjQ⟩ := List.nodup_append.mp hndX
          obtain ⟨haY, hndY2⟩ := List.nodup_cons.mp hndY
          obtain ⟨hrLR2, hndLR2⟩ := List.nodup_cons.mp hndY2
          -- the permutation between the old and the new chain
          have hpermM : ((((P ++ Q) ++ [a]) ++ [r]) ++ (LR2 ++ [i])).Perm
              (P ++ i :: (Q ++ a :: r :: LR2)) := by
            have e1 : (((P ++ Q) ++ [a]) ++ [r]) ++ (LR2 ++ [i]) =
                (P ++ (Q ++ a :: r :: LR2)) ++ [i] := by simp
            rw [e1]
            exact (List.perm_append_singleton i _).trans
              List.perm_middle.symm
          have hpermC : (0 :: ((((P ++ Q) ++ [a]) ++ [r]) ++
              (LR2 ++ [i]))).Perm
              (0 :: (P ++ i :: (Q ++ a :: r :: LR2))) := hpermM.cons 0
          have hLeq : (((P ++ Q) ++ [a]) ++ [r]) ++ (LR2 ++ [i]) =
              P ++ (Q ++ a :: r :: (LR2 ++ [i])) := by simp
          refine ⟨(P ++ Q) ++ [a], [r], LR2 ++ [i], ?_, ?_, ?_, ?_, ?_,
            ?_, ?_, ?_, ?_, ?_, ?_, ?_, ?_, ?_, ?_, ?_⟩
          · rw [hLeq]
            exact w1
          · exact hpermC.nodup_iff.mpr hnd
          · intro x hx
            rw [use_nextId]
            exact hfr x (hpermM.subset hx)
          · intro x hx
            rcases List.mem_append.mp hx with hx | hx
            · have hxi : x ≠ i := by
                intro heq
                subst heq
                rcases List.mem_append.mp hx with hx | hx
                · exact hdisjP hx (List.mem_cons_self x _)
                · exact hiX (List.mem_append_left _ hx)
              have hxN : (c.h x).state = St.NOMINATED := by
                rcases List.mem_append.mp hx with hx | hx
                · exact hsN x (List.mem_append_left _ hx)
                · exact hsN x (List.mem_append_right _
                    (List.mem_cons_of_mem i hx))
              have hxa : x ≠ a := by
                intro heq
                rw [heq, hsta] at hxN
                exact absurd hxN (by decide)
              have hxr : x ≠ r := by
                intro heq
                rw [heq, hstr] at hxN
                exact absurd hxN (by decide)
              rw [w7 x hxi hxa hxr]
              exact hxN
            · rw [List.mem_singleton.mp hx]
              exact w5
          · intro x hx
            rw [List.mem_singleton.mp hx]
            exact w6
          · intro x hx
            rcases List.mem_append.mp hx with hx | hx
            · have hxi : x ≠ i := fun heq =>
                hiX (List.mem_append_right _ (List.mem_cons_of_mem a
                  (List.mem_cons_of_mem r (heq ▸ hx))))
              have hxa : x ≠ a := fun heq =>
                haY (List.mem_cons_of_mem r (heq ▸ hx))
              have hxr : x ≠ r := fun heq => hrLR2 (heq ▸ hx)
              rw [w7 x hxi hxa hxr]
              exact hsR x (List.mem_cons_of_mem r hx)
            · rw [List.mem_singleton.mp hx]
              exact w4
          · exact w2
          · exact w3
          · have h0i2 : (0 : Nat) ≠ i := h0i
            have h0a : (0 : Nat) ≠ a := by
              intro heq
              rw [← heq, hs0] at hsta
              exact absurd hsta (by decide)
            have h0r : (0 : Nat) ≠ r := by
              intro heq
              rw [← heq, hs0] at hstr
              exact absurd hstr (by decide)
            rw [w7 0 h0i2 h0a h0r]
            exact hs0
          · have hm1 : MapOk (use_ c i) (P ++ i :: (Q ++ a :: r :: LR2))
                := by
              refine mapOk_of_eq c (use_ c i) _ (use_map c i) ?_ ?_
              · intro j _
                rw [use_keys c i]
              · rw [← he]
                exact hmok
            exact mapOk_perm (use_ c i) _ _ hpermM.symm hm1
          · rw [use_cache_size, hpermM.length_eq]
            exact hsz
          · rw [use_cache_size, use_cache_limit]
            exact hszle
          · rw [use_nextId]
            exact hnx0
          · rw [use_nominated_limit]
            exact hnl0
          · rw [use_nominated_limit, use_cache_limit]
            exact hnll
          · refine Or.inr ⟨?_, rfl⟩
            rw [use_nominated_limit]
            simp only [List.length_append, List.length_cons,
              List.length_nil] at hlnlen ⊢
            omega

/-- A miss (always proviso-respecting) preserves the full invariant. -/
theorem winv_miss (c : Cache) (k : Int) (hW : WInv c)
    (hlk : lookupId c.map k = none) :
    WInv (add_ (insertNewNode c k) c.nextId).1 := by
  obtain ⟨LN, LA, LR, hch, hnd, hfr, hsN, hsA, hsR, hnom, hinl, hs0, hmok,
    hsz, hszle, hnx0, hnl0, hnll, hphase⟩ := hW
  have hstn : ((insertNewNode c k).h c.nextId).state = St.DETACHED := by
    rw [insertNewNode_h_self]
  have hfreshM : c.nextId ∉ LN ++ LA ++ LR :=
    fun hm => absurd (hfr _ hm) (lt_irrefl _)
  have hfresh0 : c.nextId ∉ 0 :: (LN ++ LA ++ LR) := by
    rw [List.mem_cons]
    push_neg
    exact ⟨Nat.pos_iff_ne_zero.mp hnx0, hfreshM⟩
  have hch2 : chainOk (insertNewNode c k).h (LN ++ LA ++ LR) :=
    insertNewNode_chain c k _ hnx0 hfr hch
  have hst2 : ∀ j, j ≠ c.nextId →
      ((insertNewNode c k).h j).state = (c.h j).state := by
    intro j hj
    rw [insertNewNode_h_ne c k j hj]
  have hs02 : ((insertNewNode c k).h 0).state = St.DETACHED := by
    rw [hst2 0 (Ne.symm (Nat.pos_iff_ne_zero.mp hnx0))]
    exact hs0
  by_cases hge : c.cache_limit ≤ c.cache_size
  · -- steady state: evict the tail, insert before the inlet, cascade
    rcases hphase with ⟨hla, hlr, hle⟩ | ⟨hlnlen, hla1⟩
    · exact absurd hge (by omega)
    · rcases LA with _ | ⟨a, LA2⟩
      · exact absurd hla1 (by decide)
      have hLA2 : LA2 = [] := by simpa using hla1
      subst hLA2
      rcases LN with _ | ⟨e, LN2⟩
      · exfalso
        simp only [List.length_nil] at hlnlen
        omega
      have he : ((e :: LN2) ++ [a]) ++ LR = e :: (LN2 ++ a :: LR) := by
        simp
      rw [he] at hch2 hnd hfr hsz hmok hfreshM hfresh0
      obtain ⟨s1, s2, s3, s4, s5, s6, s7, s8, s9, s10, s11, s12, s13⟩ :=
        add_steady_w (insertNewNode c k) c.nextId e a LN2 LR hch2 hnd
          hstn hfresh0 hge hnom hinl
      -- distinctness bookkeeping
      obtain ⟨h0all, hndE⟩ := List.nodup_cons.mp hnd
      obtain ⟨heM2, hndM2⟩ := List.nodup_cons.mp hndE
      obtain ⟨hndLN2, hndAL, hdisj2⟩ := List.nodup_append.mp hndM2
      obtain ⟨haLR, hndLR⟩ := List.nodup_cons.mp hndAL
      rw [List.mem_cons] at h0all
      push_neg at h0all
      obtain ⟨h0e, h0M2⟩ := h0all
      rw [List.mem_append, List.mem_cons] at h0M2
      push_neg at h0M2
      obtain ⟨h0LN2, h0a, h0LR⟩ := h0M2
      rw [List.mem_cons, List.mem_cons] at hfresh0
      push_neg at hfresh0
      obtain ⟨hn0, hne2, hnM2⟩ := hfresh0
      rw [List.mem_append, List.mem_cons] at hnM2
      push_neg at hnM2
      obtain ⟨hnLN2, hna, hnLR⟩ := hnM2
      have hLeq : ((LN2 ++ [a]) ++ [c.nextId]) ++ LR =
          LN2 ++ a :: c.nextId :: LR := by simp
      have hperm2 : ((LN2 ++ a :: LR) ++ [c.nextId]).Perm
          (LN2 ++ a :: c.nextId :: LR) := by
        have base : ((LN2 ++ [a]) ++ c.nextId :: LR).Perm
            (c.nextId :: ((LN2 ++ [a]) ++ LR)) := List.perm_middle
        have e3 : (LN2 ++ [a]) ++ LR = LN2 ++ a :: LR := by simp
        have e4 : (LN2 ++ [a]) ++ c.nextId :: LR =
            LN2 ++ a :: c.nextId :: LR := by simp
        rw [e3, e4] at base
        exact (List.perm_append_singleton _ _).trans base.symm
      refine ⟨LN2 ++ [a], [c.nextId], LR, ?_, ?_, ?_, ?_, ?_, ?_, ?_, ?_,
        ?_, ?_, ?_, ?_, ?_, ?_, ?_, ?_⟩
      · rw [hLeq]
        exact s1
      · rw [hLeq]
        have hnodupNoE : (0 :: (LN2 ++ a :: LR)).Nodup := by
          refine List.Nodup.sublist ?_ hnd
          exact List.Sublist.cons₂ 0 (List.sublist_cons_self e _)
        have hmid := nodup_mid (LN2 ++ [a]) LR 0 c.nextId
          (by simpa using hnodupNoE)
          (by
            simp only [List.mem_cons, List.mem_append,
              List.mem_singleton]
            push_neg
            exact ⟨hn0, ⟨hnLN2, hna, List.not_mem_nil _⟩, hnLR⟩)
        simpa using hmid
      · rw [hLeq]
        intro x hx
        rw [s11]
        have hnx : (insertNewNode c k).nextId = c.nextId + 1 := rfl
        rw [hnx]
        rcases List.mem_append.mp hx with hx | hx
        · have := hfr x (List.mem_cons_of_mem e
            (List.mem_append_left _ hx))
          omega
        · rcases List.mem_cons.mp hx with hx | hx
          · have := hfr a (List.mem_cons_of_mem e
              (List.mem_append_right _ (List.mem_cons_self a LR)))
            omega
          · rcases List.mem_cons.mp hx with hx | hx
            · omega
            · have := hfr x (List.mem_cons_of_mem e
                (List.mem_append_right _ (List.mem_cons_of_mem a hx)))
              omega
      · intro x hx
        rcases List.mem_append.mp hx with hx | hx
        · have hxa : x ≠ a := fun heq => hdisj2 hx
            (by rw [← heq]; exact List.mem_cons_self x LR)
          have hxn : x ≠ c.nextId := fun heq => hnLN2 (heq ▸ hx)
          rw [s6 x hxa hxn, hst2 x hxn]
          exact hsN x (List.mem_cons_of_mem e hx)
        · rw [List.mem_singleton.mp hx]
          exact s4
      · intro x hx
        rw [List.mem_singleton.mp hx]
        exact s5
      · intro x hx
        have hxa : x ≠ a := fun heq => haLR (heq ▸ hx)
        have hxn : x ≠ c.nextId := fun heq => hnLR (heq ▸ hx)
        rw [s6 x hxa hxn, hst2 x hxn]
        exact hsR x hx
      · exact s2
      · rw [s3]
        exact hinl
      · rw [s6 0 h0a hn0.symm, hst2 0 hn0.symm]
        exact hs0
      · rw [hLeq]
        have hkeyE : (c.keys e, e) ∈ c.map :=
          hmok.2.2.2 e (List.mem_cons_self e _)
        have hkne : c.keys e ≠ k := lookupId_none c.map k hlk _ hkeyE
        have hmap3 : (add_ (insertNewNode c k) c.nextId).1.map =
            (k, c.nextId) :: eraseKey c.map (c.keys e) := by
          rw [s7]
          have hke2 : (insertNewNode c k).keys e = c.keys e :=
            insertNewNode_keys_ne c k e hne2.symm
          rw [hke2]
          show eraseKey ((k, c.nextId) :: c.map) (c.keys e) = _
          rw [eraseKey_cons_ne k (c.keys e) c.nextId c.map hkne]
        have hm1 := mapOk_step_steady c
          (add_ (insertNewNode c k) c.nextId).1 k c.nextId e
          (LN2 ++ a :: LR) hmok hndE hlk
          (by
            rw [List.mem_append, List.mem_cons]
            push_neg
            exact ⟨hnLN2, hna, hnLR⟩)
          hmap3
          (by rw [s12]; exact insertNewNode_keys_self c k)
          (by
            intro j hj
            rw [s12]
            exact insertNewNode_keys_ne c k j hj)
        exact mapOk_perm _ _ _ hperm2 hm1
      · rw [hLeq, s8]
        show c.cache_size = (LN2 ++ a :: c.nextId :: LR).length
        rw [hsz]
        simp only [List.length_cons, List.length_append]
        omega
      · rw [s8, s9]
        exact hszle
      · rw [s11]
        show 0 < c.nextId + 1
        omega
      · rw [s10]
        exact hnl0
      · rw [s10, s9]
        exact hnll
      · refine Or.inr ⟨?_, rfl⟩
        rw [s10]
        show (LN2 ++ [a]).length = c.nominated_limit
        simp only [List.length_append, List.length_cons,
          List.length_nil] at hlnlen ⊢
        omega
  · -- below capacity: one of the three warm-up branches
    have hlt : c.cache_size < c.cache_limit := not_le.mp hge
    rcases Nat.lt_trichotomy c.cache_size c.nominated_limit with
      hlt2 | heq2 | hgt2
    · -- first warm-up phase: append Nominated at the end
      obtain ⟨hla, hlr, hle⟩ :
          LA = [] ∧ LR = [] ∧ c.cache_size ≤ c.nominated_limit := by
        rcases hphase with h | ⟨hlnlen, hla1⟩
        · exact h
        · exfalso
          rw [hsz] at hlt2
          simp only [List.length_append] at hlt2
          omega
      subst hla
      subst hlr
      have hMeq : (LN ++ ([] : List Nat)) ++ ([] : List Nat) = LN := by
        simp
      rw [hMeq] at hch2 hnd hfr hsz hmok hfreshM hfresh0
      obtain ⟨w1, w2, w3, w4, w5, w6, w7, w8, w9, w10, w11, w12⟩ :=
        add_warm1_w (insertNewNode c k) c.nextId LN hch2 hnd hstn
          hfresh0 hlt hlt2 hinl
      have hLeq : ((LN ++ [c.nextId]) ++ ([] : List Nat)) ++
          ([] : List Nat) = LN ++ [c.nextId] := by simp
      rw [List.mem_cons] at hfresh0
      push_neg at hfresh0
      obtain ⟨hn0, hnLN⟩ := hfresh0
      refine ⟨LN ++ [c.nextId], [], [], ?_, ?_, ?_, ?_, ?_, ?_, ?_, ?_,
        ?_, ?_, ?_, ?_, ?_, ?_, ?_, ?_⟩
      · rw [hLeq]
        exact w1
      · rw [hLeq]
        have hmid := nodup_mid LN [] 0 c.nextId (by simpa using hnd)
          (by
            rw [List.mem_cons]
            push_neg
            exact ⟨hn0, by simpa using hnLN⟩)
        simpa using hmid
      · rw [hLeq]
        intro x hx
        rw [w10]
        have hnx : (insertNewNode c k).nextId = c.nextId + 1 := rfl
        rw [hnx]
        rcases List.mem_append.mp hx with hx | hx
        · have := hfr x hx
          omega
        · rw [List.mem_singleton.mp hx]
          omega
      · intro x hx
        rcases List.mem_append.mp hx with hx | hx
        · have hxn : x ≠ c.nextId := fun heq => hnLN (heq ▸ hx)
          rw [w3 x hxn, hst2 x hxn]
          exact hsN x hx
        · rw [List.mem_singleton.mp hx]
          exact w2
      · intro x hx
        exact absurd hx (List.not_mem_nil x)
      · intro x hx
        exact absurd hx (List.not_mem_nil x)
      · rw [w4]
        exact hnom
      · rw [w5]
        exact hinl
      · rw [w3 0 hn0.symm]
        exact hs02
      · rw [hLeq]
        refine mapOk_step_warm c _ k c.nextId LN hmok hlk hnLN ?_ ?_ ?_
        · rw [w6]
          rfl
        · rw [w11]
          exact insertNewNode_keys_self c k
        · intro j hj
          rw [w11]
          exact insertNewNode_keys_ne c k j hj
      · rw [hLeq, w7]
        show c.cache_size + 1 = (LN ++ [c.nextId]).length
        rw [hsz]
        simp
      · rw [w7, w8]
        show c.cache_size + 1 ≤ c.cache_limit
        omega
      · rw [w10]
        show 0 < c.nextId + 1
        omega
      · rw [w9]
        exact hnl0
      · rw [w9, w8]
        exact hnll
      · refine Or.inl ⟨rfl, rfl, ?_⟩
        rw [w7, w9]
        show c.cache_size + 1 ≤ c.nominated_limit
        omega
    · -- the count reaches the nominated limit: append Added at the end
      obtain ⟨hla, hlr, hle⟩ :
          LA = [] ∧ LR = [] ∧ c.cache_size ≤ c.nominated_limit := by
        rcases hphase with h | ⟨hlnlen, hla1⟩
        · exact h
        · exfalso
          rw [hsz] at heq2
          simp only [List.length_append] at heq2
          omega
      subst hla
      subst hlr
      have hMeq : (LN ++ ([] : List Nat)) ++ ([] : List Nat) = LN := by
        simp
      rw [hMeq] at hch2 hnd hfr hsz hmok hfreshM hfresh0
      obtain ⟨w1, w2, w3, w4, w5, w6, w7, w8, w9, w10, w11, w12⟩ :=
        add_warm2_w (insertNewNode c k) c.nextId LN hch2 hnd hstn
          hfresh0 hlt heq2 hinl
      have hLeq : (LN ++ [c.nextId]) ++ ([] : List Nat) =
          LN ++ [c.nextId] := by simp
      rw [List.mem_cons] at hfresh0
      push_neg at hfresh0
      obtain ⟨hn0, hnLN⟩ := hfresh0
      refine ⟨LN, [c.nextId], [], ?_, ?_, ?_, ?_, ?_, ?_, ?_, ?_, ?_,
        ?_, ?_, ?_, ?_, ?_, ?_, ?_⟩
      · rw [hLeq]
        exact w1
      · rw [hLeq]
        have hmid := nodup_mid LN [] 0 c.nextId (by simpa using hnd)
          (by
            rw [List.mem_cons]
            push_neg
            exact ⟨hn0, by simpa using hnLN⟩)
        simpa using hmid
      · rw [hLeq]
        intro x hx
        rw [w10]
        have hnx : (insertNewNode c k).nextId = c.nextId + 1 := rfl
        rw [hnx]
        rcases List.mem_append.mp hx with hx | hx
        · have := hfr x hx
          omega
        · rw [List.mem_singleton.mp hx]
          omega
      · intro x hx
        have hxn : x ≠ c.nextId := fun heq => hnLN (heq ▸ hx)
        rw [w3 x hxn, hst2 x hxn]
        exact hsN x hx
      · intro x hx
        rw [List.mem_singleton.mp hx]
        exact w2
      · intro x hx
        exact absurd hx (List.not_mem_nil x)
      · exact w4
      · rw [w5]
        exact hinl
      · rw [w3 0 hn0.symm]
        exact hs02
      · rw [hLeq]
        refine mapOk_step_warm c _ k c.nextId LN hmok hlk hnLN ?_ ?_ ?_
        · rw [w6]
          rfl
        · rw [w11]
          exact insertNewNode_keys_self c k
        · intro j hj
          rw [w11]
          exact insertNewNode_keys_ne c k j hj
      · rw [hLeq, w7]
        show c.cache_size + 1 = (LN ++ [c.nextId]).length
        rw [hsz]
        simp
      · rw [w7, w8]
        show c.cache_size + 1 ≤ c.cache_limit
        omega
      · rw [w10]
        show 0 < c.nextId + 1
        omega
      · rw [w9]
        exact hnl0
      · rw [w9, w8]
        exact hnll
      · refine Or.inr ⟨?_, rfl⟩
        rw [w9]
        show LN.length = c.nominated_limit
        omega
    · -- late warm-up: reclaim the inlet predecessor, insert before it
      obtain ⟨hlnlen, hla1⟩ :
          LN.length = c.nominated_limit ∧ LA.length = 1 := by
        rcases hphase with ⟨hla, hlr, hle⟩ | h
        · exact absurd hle (by omega)
        · exact h
      rcases LA with _ | ⟨a, LA2⟩
      · exact absurd hla1 (by decide)
      have hLA2 : LA2 = [] := by simpa using hla1
      subst hLA2
      have he : (LN ++ [a]) ++ LR = LN ++ a :: LR := by simp
      rw [he] at hch2 hnd hfr hsz hmok hfreshM hfresh0
      obtain ⟨w1, w2, w3, w4, w5, w6, w7, w8, w9, w10, w11, w12, w13⟩ :=
        add_warm3_w (insertNewNode c k) c.nextId a LN LR hch2 hnd hstn
          hfresh0 hlt (not_lt.mpr (le_of_lt hgt2)) (ne_of_gt hgt2)
          hnom hinl
      -- distinctness bookkeeping
      obtain ⟨h0all, hndM2⟩ := List.nodup_cons.mp hnd
      obtain ⟨hndLN, hndAL, hdisj2⟩ := List.nodup_append.mp hndM2
      obtain ⟨haLR, hndLR⟩ := List.nodup_cons.mp hndAL
      rw [List.mem_append, List.mem_cons] at h0all
      push_neg at h0all
      obtain ⟨h0LN, h0a, h0LR⟩ := h0all
      rw [List.mem_cons] at hfresh0
      push_neg at hfresh0
      obtain ⟨hn0, hnM2⟩ := hfresh0
      rw [List.mem_append, List.mem_cons] at hnM2
      push_neg at hnM2
      obtain ⟨hnLN, hna, hnLR⟩ := hnM2
      have hLeq : (LN ++ [c.nextId]) ++ a :: LR =
          LN ++ c.nextId :: a :: LR := by simp
      refine ⟨LN, [c.nextId], a :: LR, ?_, ?_, ?_, ?_, ?_, ?_, ?_, ?_,
        ?_, ?_, ?_, ?_, ?_, ?_, ?_, ?_⟩
      · rw [hLeq]
        exact w1
      · rw [hLeq]
        exact nodup_mid LN (a :: LR) 0 c.nextId hnd
          (by
            rw [List.mem_cons, List.mem_append, List.mem_cons]
            push_neg
            exact ⟨hn0, hnLN, hna, hnLR⟩)
      · rw [hLeq]
        intro x hx
        rw [w11]
        have hnx : (insertNewNode c k).nextId = c.nextId + 1 := rfl
        rw [hnx]
        rcases List.mem_append.mp hx with hx | hx
        · have := hfr x (List.mem_append_left _ hx)
          omega
        · rcases List.mem_cons.mp hx with hx | hx
          · omega
          · rcases List.mem_cons.mp hx with hx | hx
            · have := hfr a (List.mem_append_right _
                (List.mem_cons_self a LR))
              omega
            · have := hfr x (List.mem_append_right _
                (List.mem_cons_of_mem a hx))
              omega
      · intro x hx
        have hxa : x ≠ a := fun heq => hdisj2 hx
          (by rw [← heq]; exact List.mem_cons_self x LR)
        have hxn : x ≠ c.nextId := fun heq => hnLN (heq ▸ hx)
        rw [w4 x hxn hxa, hst2 x hxn]
        exact hsN x hx
      · intro x hx
        rw [List.mem_singleton.mp hx]
        exact w2
      · intro x hx
        rcases List.mem_cons.mp hx with hx | hx
        · rw [hx]
          exact w3
        · have hxa : x ≠ a := fun heq => haLR (heq ▸ hx)
          have hxn : x ≠ c.nextId := fun heq => hnLR (heq ▸ hx)
          rw [w4 x hxn hxa, hst2 x hxn]
          exact hsR x hx
      · exact w5
      · exact w6
      · rw [w4 0 hn0.symm h0a]
        exact hs02
      · rw [hLeq]
        have hm1 := mapOk_step_warm c
          (add_ (insertNewNode c k) c.nextId).1 k c.nextId
          (LN ++ a :: LR) hmok hlk
          (by
            rw [List.mem_append, List.mem_cons]
            push_neg
            exact ⟨hnLN, hna, hnLR⟩)
          (by rw [w7]; rfl)
          (by rw [w12]; exact insertNewNode_keys_self c k)
          (by
            intro j hj
            rw [w12]
            exact insertNewNode_keys_ne c k j hj)
        have hpermW : ((LN ++ a :: LR) ++ [c.nextId]).Perm
            (LN ++ c.nextId :: a :: LR) := by
          have base : (LN ++ c.nextId :: (a :: LR)).Perm
              (c.nextId :: (LN ++ a :: LR)) := List.perm_middle
          exact (List.perm_append_singleton _ _).trans base.symm
        exact mapOk_perm _ _ _ hpermW hm1
      · rw [hLeq, w8]
        show c.cache_size + 1 = (LN ++ c.nextId :: a :: LR).length
        rw [hsz]
        simp only [List.length_append, List.length_cons]
        omega
      · rw [w8, w9]
        show c.cache_size + 1 ≤ c.cache_limit
        omega
      · rw [w11]
        show 0 < c.nextId + 1
        omega
      · rw [w10]
        exact hnl0
      · rw [w10, w9]
        exact hnll
      · refine Or.inr ⟨?_, rfl⟩
        rw [w10]
        exact hlnlen

/-- Every proviso-respecting fetch-or-create preserves the invariant. -/
theorem fetch_preserves_WInv (c : Cache) (k : Int) (hW : WInv c)
    (hprov : provisoOk c k = true) : WInv (fetchState c k) := by
  cases hlk : lookupId c.map k with
  | some i =>
      have hfs : fetchState c k = use_ c i := by
        unfold fetchState
        rw [fetch_hit c k i hlk]
      rw [hfs]
      exact winv_hit c k i hW hlk hprov
  | none =>
      have hfs : fetchState c k = (add_ (insertNewNode c k) c.nextId).1
          := by
        unfold fetchState
        rw [fetch_miss c k hlk]
      rw [hfs]
      exact winv_miss c k hW hlk

/-- A freshly constructed cache with valid limits satisfies the
invariant. -/
theorem initCache_WInv (size : Nat) (oc : Option (Int → Int))
    (hev : Bool) (ns as : Nat)
    (h1 : 0 < (initCache size oc hev ns as).nominated_limit)
    (h2 : (initCache size oc hev ns as).nominated_limit <
      (initCache size oc hev ns as).cache_limit) :
    WInv (initCache size oc hev ns as) := by
  refine ⟨[], [], [], ⟨rfl, rfl⟩, ?_, ?_, ?_, ?_, ?_, rfl, rfl, rfl,
    ⟨rfl, ?_, ?_, ?_⟩, rfl, Nat.zero_le _, ?_, h1, h2,
    Or.inl ⟨rfl, rfl, Nat.zero_le _⟩⟩
  · simp
  · intro x hx
    exact absurd hx (List.not_mem_nil x)
  · intro x hx
    exact absurd hx (List.not_mem_nil x)
  · intro x hx
    exact absurd hx (List.not_mem_nil x)
  · intro x hx
    exact absurd hx (List.not_mem_nil x)
  · intro p hp
    exact absurd hp (List.not_mem_nil p)
  · exact List.nodup_nil
  · intro i hi
    exact absurd hi (List.not_mem_nil i)
  · exact Nat.one_pos

/-- The invariant holds after any proviso-respecting run. -/
theorem runP_WInv : ∀ (ks : List Int) (c s : Cache), WInv c →
    runP c ks = some s → WInv s := by
  intro ks
  induction ks with
  | nil =>
      intro c s hW hr
      simp only [runP] at hr
      obtain rfl := Option.some_inj.mp hr
      exact hW
  | cons k ks ih =>
      intro c s hW hr
      simp only [runP] at hr
      by_cases hp : provisoOk c k = true
      · rw [if_pos hp] at hr
        exact ih (fetchState c k) s (fetch_preserves_WInv c k hW hp) hr
      · rw [if_neg hp] at hr
        exact absurd hr (by simp)

/-- The invariant implies the zone decomposition of I1–I3. -/
theorem winv_zoneDecomp (c : Cache) (hW : WInv c) : zoneDecomp c := by
  obtain ⟨LN, LA, LR, hch, hnd, _, hsN, hsA, hsR, hnom, hinl, _, _, _, _,
    _, _, _⟩ := hW
  refine ⟨LN, LA, LR, hch, ?_, hsN, hsA, hsR, hnom, hinl⟩
  intro x hx heq
  exact (List.nodup_cons.mp hnd).1 (heq ▸ hx)

/-- The walk from a node to the sentinel is unique among sentinel-free
pointer paths. -/
theorem pathFrom_unique (h : Heap) : ∀ (L1 : List Nat) (a : Nat)
    (L2 : List Nat), pathFrom h a L1 0 → pathFrom h a L2 0 →
    0 ∉ L1 → 0 ∉ L2 → L1 = L2 := by
  intro L1
  induction L1 with
  | nil =>
      intro a L2 h1 h2 hz1 hz2
      cases L2 with
      | nil => rfl
      | cons y ys =>
          exfalso
          have hy : y = 0 := by rw [← h2.1, h1.1]
          exact hz2 (hy ▸ List.mem_cons_self y ys)
  | cons x xs ih =>
      intro a L2 h1 h2 hz1 hz2
      cases L2 with
      | nil =>
          exfalso
          have hx : x = 0 := by rw [← h1.1, h2.1]
          exact hz1 (hx ▸ List.mem_cons_self x xs)
      | cons y ys =>
          have hxy : x = y := h1.1 ▸ h2.1
          subst hxy
          have hz1' : 0 ∉ xs := fun hm => hz1 (List.mem_cons_of_mem x hm)
          have hz2' : 0 ∉ ys := fun hm => hz2 (List.mem_cons_of_mem x hm)
          exact congrArg (List.cons x) (ih x ys h1.2.2 h2.2.2 hz1' hz2')

/-- The list of chain nodes is determined by the heap. -/
theorem chain_unique (h : Heap) (L1 L2 : List Nat) (hc1 : chainOk h L1)
    (hc2 : chainOk h L2) (hz1 : 0 ∉ L1) (hz2 : 0 ∉ L2) : L1 = L2 :=
  pathFrom_unique h L1 0 L2 hc1 hc2 hz1 hz2

/-- C1 counterexample: after inserting key 0 and immediately fetching it
again (trace `[0, 0]`), the single live node is Reused while both markers
still sit at the sentinel, so no walk of the list matches the claimed
zone order Nominated*, Added*, Reused* with `nomination` and `inlet` at
the zone boundaries. -/
theorem C1_counterexample : ¬ zoneDecomp (run eg0 [0, 0]) := by
  intro hz
  obtain ⟨LN, LA, LR, hch, hnz, hsN, hsA, hsR, hnom, hinl⟩ := hz
  have hch1 : chainOk (run eg0 [0, 0]).h [1] := by
    unfold chainOk
    decide
  have h0M : (0 : Nat) ∉ LN ++ LA ++ LR := fun hm => hnz 0 hm rfl
  have heq : LN ++ LA ++ LR = [1] :=
    chain_unique _ _ _ hch hch1 h0M (by decide)
  have hst1 : ((run eg0 [0, 0]).h 1).state = St.REUSED := by decide
  rcases LN with _ | ⟨x, LN2⟩
  · rcases LA with _ | ⟨y, LA2⟩
    · have hLR : LR = [1] := by simpa using heq
      rw [hLR] at hinl
      have hinl0 : (run eg0 [0, 0]).inlet = 0 := by decide
      rw [hinl0] at hinl
      exact absurd hinl (by decide)
    · simp only [List.nil_append, List.cons_append] at heq
      injection heq with h1 h2
      subst h1
      have hadd := hsA 1 (List.mem_cons_self 1 LA2)
      rw [hst1] at hadd
      exact absurd hadd (by decide)
  · simp only [List.cons_append] at heq
    injection heq with h1 h2
    subst h1
    have hnm := hsN 1 (List.mem_cons_self 1 LN2)
    rw [hst1] at hnm
    exact absurd hnm (by decide)

/-- C1 (amended): for every run of fetch-or-create operations from a
validly constructed cache in which no operation hits a Nominated-state
node while the node at `inlet` is not Reused-state, after each operation
the walk of the circular list from the sentinel's successor visits first
exactly the Nominated nodes, then exactly the Added nodes (from the
`nomination` marker), then exactly the Reused nodes (from the `inlet`
marker). -/
theorem C1_amended (c0 s : Cache) (ks : List Int) (hW : WInv c0)
    (hrun : runP c0 ks = some s) : zoneDecomp s :=
  winv_zoneDecomp s (runP_WInv ks c0 s hW hrun)

/-- Witness for C1 amended: the four-insertion warm-up run on the
capacity-4 cache respects the proviso and ends in a fully zoned state. -/
theorem C1_amended_witness :
    WInv eg0 ∧ runP eg0 [0, 1, 2, 3] = some egFull ∧
      zoneDecomp egFull := by
  have hW : WInv eg0 :=
    ⟨[], [], [], by unfold chainOk; decide, by decide, by decide,
      by decide, by decide,
      by decide, by decide, by decide, by decide,
      ⟨by decide, by decide, by decide, by decide⟩, by decide, by decide,
      by decide, by decide, by decide, Or.inl ⟨rfl, rfl, by decide⟩⟩
  have hr : runP eg0 [0, 1, 2, 3] = some egFull := by rfl
  exact ⟨hW, hr, C1_amended eg0 egFull [0, 1, 2, 3] hW hr⟩

/-! ## Effect lemmas over arbitrary reachable states (for the capacity
invariant) -/

theorem headD_append_cons (X Z : List Nat) (y d : Nat) :
    (X ++ y :: Z).headD d = (X ++ [y]).headD d := by
  cases X <;> rfl

/-- `insert_before_` written as four explicit writes, given the old
predecessor `p` of the insertion point. -/
theorem insert_before_eq (h : Heap) (at_ n p : Nat)
    (hp : (h at_).prev = p) :
    insert_before_ h at_ n =
      updPrev (updNext (updPrev (updNext h n at_) n p) p n) at_ n := by
  unfold insert_before_
  dsimp only
  rw [updNext_prev, hp, updPrev_prev_self]

/-- Effect of `use_` on a Nominated node when the boundary cascade does
not fire (the nomination target is not in Added state): the node moves to
the head as Reused and nothing else changes. -/
theorem use_nocascade (c : Cache) (i : Nat) (A B : List Nat)
    (hch : chainOk c.h (A ++ i :: B))
    (hnd : (0 :: (A ++ i :: B)).Nodup)
    (hsti : (c.h i).state = St.NOMINATED)
    (hgn : (c.h c.nomination).state ≠ St.ADDED)
    (hni : c.nomination ≠ i) :
    chainOk (use_ c i).h ((A ++ B) ++ [i]) ∧
      ((use_ c i).h i).state = St.REUSED ∧
      (∀ y, y ≠ i → ((use_ c i).h y).state = (c.h y).state) ∧
      (use_ c i).nomination = c.nomination ∧
      (use_ c i).inlet = c.inlet := by
  obtain ⟨h0L, hLnd⟩ := List.nodup_cons.mp hnd
  have hi0 : i ≠ 0 := fun he => h0L (by rw [← he]; simp)
  have hiAB : i ∉ A ++ B := by
    obtain ⟨hA, hiB, hd⟩ := List.nodup_append.mp hLnd
    obtain ⟨hiB2, _⟩ := List.nodup_cons.mp hiB
    intro hc
    rcases List.mem_append.mp hc with hc | hc
    · exact hd hc (List.mem_cons_self i B)
    · exact hiB2 hc
  have hch1 : chainOk (remove_ c.h i) (A ++ B) :=
    chain_remove c.h A B i hch hnd
  have hnd1 : (0 :: (A ++ B)).Nodup := by
    refine List.Nodup.sublist ?_ hnd
    exact List.Sublist.cons₂ 0
      (List.Sublist.append_left (List.sublist_cons_self i B) A)
  have hch2 := chain_insert_end _ (A ++ B) i hch1 hnd1 hiAB hi0
  have hst3 : ∀ y, y ≠ i →
      ((updState (insert_before_ (remove_ c.h i) 0 i) i St.REUSED)
        y).state = (c.h y).state := by
    intro y hy
    rw [updState_state_ne _ _ _ _ hy, insert_before_state, remove_state]
  unfold use_
  rw [if_neg (by simp [hsti])]
  dsimp only
  unfold boundaryCascadeUse
  dsimp only
  rw [if_neg (by rw [hst3 c.nomination hni]; exact hgn)]
  refine ⟨?_, ?_, ?_, rfl, rfl⟩
  · show chainOk (updState (insert_before_ (remove_ c.h i) 0 i) i
      St.REUSED) ((A ++ B) ++ [i])
    exact pathFrom_updState _ _ _ _ _ _ hch2
  · show ((updState (insert_before_ (remove_ c.h i) 0 i) i St.REUSED)
      i).state = St.REUSED
    exact updState_state_self _ _ _
  · intro y hy
    exact hst3 y hy

/-- Effect of `use_` on a Nominated node `i` when the cascade fires with
a Reused inlet, with an arbitrary block `M` between the nomination node
`a` and the inlet node `r`. -/
theorem use_promote_g (c : Cache) (i a r : Nat) (P Q M LR2 : List Nat)
    (hch : chainOk c.h (P ++ i :: (Q ++ a :: (M ++ r :: LR2))))
    (hnd : (0 :: (P ++ i :: (Q ++ a :: (M ++ r :: LR2)))).Nodup)
    (hsti : (c.h i).state = St.NOMINATED)
    (hsta : (c.h a).state = St.ADDED)
    (hstr : (c.h r).state = St.REUSED)
    (hnom : c.nomination = a) (hinl : c.inlet = r) :
    chainOk (use_ c i).h (P ++ (Q ++ a :: (M ++ r :: (LR2 ++ [i])))) ∧
      (use_ c i).nomination = (M ++ [r]).headD 0 ∧
      (use_ c i).inlet = (LR2 ++ [i]).headD 0 ∧
      ((use_ c i).h i).state = St.REUSED ∧
      ((use_ c i).h a).state = St.NOMINATED ∧
      ((use_ c i).h r).state = St.ADDED ∧
      (∀ y, y ≠ i → y ≠ a → y ≠ r →
        ((use_ c i).h y).state = (c.h y).state) := by
  obtain ⟨h0L, hLnd⟩ := List.nodup_cons.mp hnd
  obtain ⟨hPnd, hiMnd, hPdisj⟩ := List.nodup_append.mp hLnd
  obtain ⟨hiM, hMnd⟩ := List.nodup_cons.mp hiMnd
  have hi0 : i ≠ 0 := by
    intro he
    exact h0L (by rw [← he]; simp)
  have haM : a ∈ Q ++ a :: (M ++ r :: LR2) := by simp
  have hrM : r ∈ Q ++ a :: (M ++ r :: LR2) := by simp
  have hai : a ≠ i := fun he => hiM (he ▸ haM)
  have hri : r ≠ i := fun he => hiM (he ▸ hrM)
  have hra : r ≠ a := by
    obtain ⟨_, harnd, _⟩ := List.nodup_append.mp hMnd
    obtain ⟨hanr, _⟩ := List.nodup_cons.mp harnd
    intro he
    exact hanr (by rw [← he]; simp)
  have hne : ¬((c.h i).state ≠ St.NOMINATED) := by simp [hsti]
  have huse : use_ c i = boundaryCascadeUse
      { c with
        h := updState (insert_before_ (remove_ c.h i) 0 i) i St.REUSED }
      := by
    unfold use_
    rw [if_neg hne]
  have hch1 : chainOk (remove_ c.h i)
      (P ++ (Q ++ a :: (M ++ r :: LR2))) :=
    chain_remove c.h P _ i hch hnd
  have hnd1 : (0 :: (P ++ (Q ++ a :: (M ++ r :: LR2)))).Nodup := by
    refine List.Nodup.sublist ?_ hnd
    exact List.Sublist.cons₂ 0
      (List.Sublist.append_left (List.sublist_cons_self i _) P)
  have hiP : i ∉ P ++ (Q ++ a :: (M ++ r :: LR2)) := by
    intro hc
    rcases List.mem_append.mp hc with hc | hc
    · exact hPdisj hc (List.mem_cons_self i _)
    · exact hiM hc
  have hch2 : chainOk (insert_before_ (remove_ c.h i) 0 i)
      ((P ++ (Q ++ a :: (M ++ r :: LR2))) ++ [i]) := by
    refine chain_insert_end _ _ i ?_ hnd1 hiP hi0
    exact hch1
  have hch2' : chainOk (insert_before_ (remove_ c.h i) 0 i)
      (P ++ (Q ++ a :: (M ++ r :: (LR2 ++ [i])))) := by
    have hx := hch2
    simpa [List.append_assoc] using hx
  have hst2 : ∀ y, ((insert_before_ (remove_ c.h i) 0 i) y).state
      = (c.h y).state := by
    intro y
    rw [insert_before_state, remove_state]
  have hnexta : ((insert_before_ (remove_ c.h i) 0 i) a).next
      = (M ++ [r]).headD 0 := by
    have hsh : chainOk (insert_before_ (remove_ c.h i) 0 i)
        ((P ++ Q) ++ a :: (M ++ r :: (LR2 ++ [i]))) := by
      have hx := hch2'
      simpa [List.append_assoc] using hx
    rw [chain_next_at _ _ _ _ hsh]
    exact headD_append_cons M (LR2 ++ [i]) r 0
  have hnextr : ((insert_before_ (remove_ c.h i) 0 i) r).next
      = (LR2 ++ [i]).headD 0 := by
    have hsh : chainOk (insert_before_ (remove_ c.h i) 0 i)
        (((P ++ Q) ++ a :: M) ++ r :: (LR2 ++ [i])) := by
      have hx := hch2'
      simpa [List.append_assoc] using hx
    exact chain_next_at _ _ _ _ hsh
  rw [huse]
  unfold boundaryCascadeUse
  dsimp only
  rw [if_pos (by
    rw [hnom, updState_state_ne _ _ _ _ hai, hst2 a]
    exact hsta)]
  rw [if_pos (by
    rw [hinl, hnom, updState_state_ne _ _ _ _ (fun he => hra he),
      updState_state_ne _ _ _ _ hri, hst2 r]
    exact hstr)]
  refine ⟨?_, ?_, ?_, ?_, ?_, ?_, ?_⟩
  · show chainOk
      (updState (updState (updState (insert_before_ (remove_ c.h i) 0 i)
        i St.REUSED) c.nomination St.NOMINATED) c.inlet St.ADDED)
      (P ++ (Q ++ a :: (M ++ r :: (LR2 ++ [i]))))
    exact pathFrom_updState _ _ _ _ _ _
      (pathFrom_updState _ _ _ _ _ _
        (pathFrom_updState _ _ _ _ _ _ hch2'))
  · show (updState (updState (insert_before_ (remove_ c.h i) 0 i) i
        St.REUSED) c.nomination St.NOMINATED c.nomination).next
      = (M ++ [r]).headD 0
    rw [hnom, updState_next, updState_next, hnexta]
  · show (updState (updState (updState (insert_before_ (remove_ c.h i)
        0 i) i St.REUSED) c.nomination St.NOMINATED) c.inlet St.ADDED
        c.inlet).next = (LR2 ++ [i]).headD 0
    rw [hinl, hnom, updState_next, updState_next, updState_next, hnextr]
  · show (updState (updState (updState (insert_before_ (remove_ c.h i)
        0 i) i St.REUSED) c.nomination St.NOMINATED) c.inlet St.ADDED
        i).state = St.REUSED
    rw [hinl, hnom, updState_state_ne _ _ _ _ (fun he => hri he.symm),
      updState_state_ne _ _ _ _ (fun he => hai he.symm),
      updState_state_self]
  · show (updState (updState (updState (insert_before_ (remove_ c.h i)
        0 i) i St.REUSED) c.nomination St.NOMINATED) c.inlet St.ADDED
        a).state = St.NOMINATED
    rw [hinl, hnom, updState_state_ne _ _ _ _ (fun he => hra he.symm),
      updState_state_self]
  · show (updState (updState (updState (insert_before_ (remove_ c.h i)
        0 i) i St.REUSED) c.nomination St.NOMINATED) c.inlet St.ADDED
        r).state = St.ADDED
    rw [hinl, updState_state_self]
  · intro y hyi hya hyr
    show (updState (updState (updState (insert_before_ (remove_ c.h i)
        0 i) i St.REUSED) c.nomination St.NOMINATED) c.inlet St.ADDED
        y).state = (c.h y).state
    rw [hinl, hnom, updState_state_ne _ _ _ _ hyr,
      updState_state_ne _ _ _ _ hya, updState_state_ne _ _ _ _ hyi,
      hst2 y]

/-- Effect of `use_` on a Nominated node `i` when the cascade fires but
the inlet reclaim sub-step does not (inlet at the sentinel): the
nomination node `a` (here the last node) is relabeled and the nomination
marker moves to the promoted node. -/
theorem use_promote_nosub (c : Cache) (i a : Nat) (P Q : List Nat)
    (hch : chainOk c.h (P ++ i :: (Q ++ [a])))
    (hnd : (0 :: (P ++ i :: (Q ++ [a]))).Nodup)
    (hsti : (c.h i).state = St.NOMINATED)
    (hsta : (c.h a).state = St.ADDED)
    (hs0 : (c.h 0).state = St.DETACHED)
    (hnom : c.nomination = a) (hinl : c.inlet = 0) :
    chainOk (use_ c i).h (P ++ (Q ++ a :: [i])) ∧
      (use_ c i).nomination = i ∧
      (use_ c i).inlet = 0 ∧
      ((use_ c i).h i).state = St.REUSED ∧
      ((use_ c i).h a).state = St.NOMINATED ∧
      (∀ y, y ≠ i → y ≠ a →
        ((use_ c i).h y).state = (c.h y).state) := by
  obtain ⟨h0L, hLnd⟩ := List.nodup_cons.mp hnd
  obtain ⟨hPnd, hiMnd, hPdisj⟩ := List.nodup_append.mp hLnd
  obtain ⟨hiM, hMnd⟩ := List.nodup_cons.mp hiMnd
  have hi0 : i ≠ 0 := by
    intro he
    exact h0L (by rw [← he]; simp)
  have haM : a ∈ Q ++ [a] := by simp
  have hai : a ≠ i := fun he => hiM (he ▸ haM)
  have h0a : (0 : Nat) ≠ a := by
    intro he
    exact h0L (by rw [he]; simp)
  have hne : ¬((c.h i).state ≠ St.NOMINATED) := by simp [hsti]
  have huse : use_ c i = boundaryCascadeUse
      { c with
        h := updState (insert_before_ (remove_ c.h i) 0 i) i St.REUSED }
      := by
    unfold use_
    rw [if_neg hne]
  have hch1 : chainOk (remove_ c.h i) (P ++ (Q ++ [a])) :=
    chain_remove c.h P _ i hch hnd
  have hnd1 : (0 :: (P ++ (Q ++ [a]))).Nodup := by
    refine List.Nodup.sublist ?_ hnd
    exact List.Sublist.cons₂ 0
      (List.Sublist.append_left (List.sublist_cons_self i _) P)
  have hiP : i ∉ P ++ (Q ++ [a]) := by
    intro hc
    rcases List.mem_append.mp hc with hc | hc
    · exact hPdisj hc (List.mem_cons_self i _)
    · exact hiM hc
  have hch2 : chainOk (insert_before_ (remove_ c.h i) 0 i)
      ((P ++ (Q ++ [a])) ++ [i]) := by
    refine chain_insert_end _ _ i ?_ hnd1 hiP hi0
    exact hch1
  have hch2' : chainOk (insert_before_ (remove_ c.h i) 0 i)
      (P ++ (Q ++ a :: [i])) := by
    have hx := hch2
    simpa [List.append_assoc] using hx
  have hst2 : ∀ y, ((insert_before_ (remove_ c.h i) 0 i) y).state
      = (c.h y).state := by
    intro y
    rw [insert_before_state, remove_state]
  have hnexta : ((insert_before_ (remove_ c.h i) 0 i) a).next = i := by
    have hsh : chainOk (insert_before_ (remove_ c.h i) 0 i)
        ((P ++ Q) ++ a :: [i]) := by
      have hx := hch2'
      simpa [List.append_assoc] using hx
    rw [chain_next_at _ _ _ _ hsh]
    rfl
  rw [huse]
  unfold boundaryCascadeUse
  dsimp only
  rw [if_pos (by
    rw [hnom, updState_state_ne _ _ _ _ hai, hst2 a]
    exact hsta)]
  rw [if_neg (by
    rw [hinl, hnom, updState_state_ne _ _ _ _ h0a,
      updState_state_ne _ _ _ _ hi0.symm, hst2 0, hs0]
    decide)]
  refine ⟨?_, ?_, ?_, ?_, ?_, ?_⟩
  · show chainOk
      (updState (updState (insert_before_ (remove_ c.h i) 0 i) i
        St.REUSED) c.nomination St.NOMINATED)
      (P ++ (Q ++ a :: [i]))
    exact pathFrom_updState _ _ _ _ _ _
      (pathFrom_updState _ _ _ _ _ _ hch2')
  · show (updState (updState (insert_before_ (remove_ c.h i) 0 i) i
        St.REUSED) c.nomination St.NOMINATED c.nomination).next = i
    rw [hnom, updState_next, updState_next, hnexta]
  · exact hinl
  · show (updState (updState (insert_before_ (remove_ c.h i) 0 i) i
        St.REUSED) c.nomination St.NOMINATED i).state = St.REUSED
    rw [hnom, updState_state_ne _ _ _ _ (fun he => hai he.symm),
      updState_state_self]
  · show (updState (updState (insert_before_ (remove_ c.h i) 0 i) i
        St.REUSED) c.nomination St.NOMINATED a).state = St.NOMINATED
    rw [hnom, updState_state_self]
  · intro y hyi hya
    show (updState (updState (insert_before_ (remove_ c.h i) 0 i) i
        St.REUSED) c.nomination St.NOMINATED y).state = (c.h y).state
    rw [hnom, updState_state_ne _ _ _ _ hya,
      updState_state_ne _ _ _ _ hyi, hst2 y]

/-- Effect of `add_` at capacity when the nomination node `g` is not the
evicted tail: the tail `e` is evicted, `n` inserted Added before the
inlet, `g` relabeled Nominated and the marker advanced to its successor.
-/
theorem add_steady_keep (c : Cache) (n e g r : Nat) (X Z S2 : List Nat)
    (hch : chainOk c.h (e :: (X ++ g :: (Z ++ r :: S2))))
    (hnd : (0 :: (e :: (X ++ g :: (Z ++ r :: S2)))).Nodup)
    (hstn : (c.h n).state = St.DETACHED)
    (hfresh : n ∉ 0 :: e :: (X ++ g :: (Z ++ r :: S2)))
    (hge : c.cache_size ≥ c.cache_limit)
    (hnom : c.nomination = g) (hinl : c.inlet = r) :
    chainOk (add_ c n).1.h (X ++ g :: (Z ++ n :: r :: S2)) ∧
      (add_ c n).1.nomination = (Z ++ [n]).headD 0 ∧
      (add_ c n).1.inlet = c.inlet ∧
      ((add_ c n).1.h g).state = St.NOMINATED ∧
      ((add_ c n).1.h n).state = St.ADDED ∧
      (∀ y, y ≠ g → y ≠ n → ((add_ c n).1.h y).state = (c.h y).state) ∧
      (add_ c n).1.map = eraseKey c.map (c.keys e) ∧
      (add_ c n).1.cache_size = c.cache_size ∧
      (add_ c n).1.cache_limit = c.cache_limit ∧
      (add_ c n).1.nominated_limit = c.nominated_limit ∧
      (add_ c n).1.nextId = c.nextId ∧
      (add_ c n).1.keys = c.keys ∧
      (add_ c n).2 = (if c.has_evict then
        [Event.evict (c.keys e) (c.values e)] else []) := by
  rw [List.mem_cons, List.mem_cons] at hfresh
  push_neg at hfresh
  obtain ⟨hn0, hne2, hnM⟩ := hfresh
  have hgM : g ∈ X ++ g :: (Z ++ r :: S2) := by simp
  have hng : n ≠ g := fun he => hnM (he ▸ hgM)
  have hntr : (updState c.h n St.ADDED 0).next = e := by
    rw [updState_next]
    have hhd := chain_head c.h (e :: (X ++ g :: (Z ++ r :: S2))) hch
    rw [List.headD_cons] at hhd
    exact hhd
  have hch0 : chainOk (updState c.h n St.ADDED)
      (e :: (X ++ g :: (Z ++ r :: S2))) :=
    pathFrom_updState _ _ _ _ _ _ hch
  have hch1 : chainOk (remove_ (updState c.h n St.ADDED) e)
      (X ++ g :: (Z ++ r :: S2)) := by
    have hrem := chain_remove (updState c.h n St.ADDED) []
      (X ++ g :: (Z ++ r :: S2)) e (by simpa using hch0)
      (by simpa using hnd)
    simpa using hrem
  have hnd1 : (0 :: (X ++ g :: (Z ++ r :: S2))).Nodup := by
    refine List.Nodup.sublist ?_ hnd
    exact List.Sublist.cons₂ 0 (List.sublist_cons_self e _)
  have hb : chainOk (remove_ (updState c.h n St.ADDED) e)
      ((X ++ g :: Z) ++ r :: S2) := by
    simpa using hch1
  have hnd2 : (0 :: ((X ++ g :: Z) ++ r :: S2)).Nodup := by
    simpa using hnd1
  have hn3 : n ∉ 0 :: ((X ++ g :: Z) ++ r :: S2) := by
    have hleq : (X ++ g :: Z) ++ r :: S2 = X ++ g :: (Z ++ r :: S2) :=
      by simp
    rw [hleq]
    intro hc
    rcases List.mem_cons.mp hc with hc | hc
    · exact hn0 hc
    · exact hnM hc
  have hmid := chain_insert_mid _ (X ++ g :: Z) S2 r n hb hnd2 hn3
  have hch2 : chainOk (insert_before_
      (remove_ (updState c.h n St.ADDED) e) r n)
      (X ++ g :: (Z ++ n :: r :: S2)) := by
    simpa using hmid
  have hnextg : ((insert_before_ (remove_ (updState c.h n St.ADDED) e)
      r n) g).next = (Z ++ [n]).headD 0 := by
    rw [chain_next_at _ _ _ _ hch2]
    exact headD_append_cons Z (r :: S2) n 0
  have hst2 : ∀ y, y ≠ n →
      ((insert_before_ (remove_ (updState c.h n St.ADDED) e) r n)
        y).state = (c.h y).state := by
    intro y hy
    rw [insert_before_state, remove_state, updState_state_ne _ _ _ _ hy]
  have hstn2 : ((insert_before_ (remove_ (updState c.h n St.ADDED) e)
      r n) n).state = St.ADDED := by
    rw [insert_before_state, remove_state, updState_state_self]
  unfold add_
  rw [if_neg (by simp [hstn])]
  dsimp only
  rw [if_pos hge]
  dsimp only
  rw [hntr, hinl]
  unfold boundaryCascadeAdd
  dsimp only
  refine ⟨?_, ?_, ?_, ?_, ?_, ?_, ?_, ?_, ?_, ?_, ?_, ?_, ?_⟩
  · show chainOk (updState (insert_before_ (remove_ (updState c.h n
      St.ADDED) e) r n) c.nomination St.NOMINATED)
      (X ++ g :: (Z ++ n :: r :: S2))
    exact pathFrom_updState _ _ _ _ _ _ hch2
  · show (updState (insert_before_ (remove_ (updState c.h n St.ADDED) e)
      r n) c.nomination St.NOMINATED c.nomination).next
      = (Z ++ [n]).headD 0
    rw [updState_next, hnom, hnextg]
  · rfl
  · show (updState (insert_before_ (remove_ (updState c.h n St.ADDED) e)
      r n) c.nomination St.NOMINATED g).state = St.NOMINATED
    rw [hnom, updState_state_self]
  · show (updState (insert_before_ (remove_ (updState c.h n St.ADDED) e)
      r n) c.nomination St.NOMINATED n).state = St.ADDED
    rw [hnom, updState_state_ne _ _ _ _ hng, hstn2]
  · intro y hyg hyn
    show (updState (insert_before_ (remove_ (updState c.h n St.ADDED) e)
      r n) c.nomination St.NOMINATED y).state = (c.h y).state
    rw [hnom, updState_state_ne _ _ _ _ hyg, hst2 y hyn]
  · rfl
  · rfl
  · rfl
  · rfl
  · rfl
  · rfl
  · rfl

/-- The successor pointer of an unlinked node is untouched by
`remove_` itself. -/
theorem remove_next_self (h : Heap) (x : Nat) (hxn : x ≠ (h x).next)
    (hx0 : x ≠ (h x).prev) : ((remove_ h x) x).next = (h x).next := by
  unfold remove_
  rw [updPrev_prev_ne _ _ _ _ hxn]
  rw [updNext_next_ne _ _ _ _ hx0]
  rw [updPrev_next]

/-- Effect of `add_` at capacity when the nomination marker sits on the
evicted tail itself: after the eviction the marker is retargeted through
the stale node's unchanged successor pointer, which is the new tail. -/
theorem add_steady_ghost (c : Cache) (n e m1 r : Nat) (M1 S2 : List Nat)
    (hch : chainOk c.h (e :: (m1 :: (M1 ++ r :: S2))))
    (hnd : (0 :: (e :: (m1 :: (M1 ++ r :: S2)))).Nodup)
    (hstn : (c.h n).state = St.DETACHED)
    (hfresh : n ∉ 0 :: e :: (m1 :: (M1 ++ r :: S2)))
    (hge : c.cache_size ≥ c.cache_limit)
    (hnom : c.nomination = e) (hinl : c.inlet = r) :
    chainOk (add_ c n).1.h (m1 :: (M1 ++ n :: r :: S2)) ∧
      (add_ c n).1.nomination = m1 ∧
      (add_ c n).1.inlet = c.inlet ∧
      ((add_ c n).1.h n).state = St.ADDED ∧
      (∀ y, y ≠ e → y ≠ n → ((add_ c n).1.h y).state = (c.h y).state) ∧
      (add_ c n).1.map = eraseKey c.map (c.keys e) ∧
      (add_ c n).1.cache_size = c.cache_size ∧
      (add_ c n).1.cache_limit = c.cache_limit ∧
      (add_ c n).1.nominated_limit = c.nominated_limit ∧
      (add_ c n).1.nextId = c.nextId ∧
      (add_ c n).1.keys = c.keys ∧
      (add_ c n).2 = (if c.has_evict then
        [Event.evict (c.keys e) (c.values e)] else []) := by
  rw [List.mem_cons, List.mem_cons] at hfresh
  push_neg at hfresh
  obtain ⟨hn0, hne2, hnM⟩ := hfresh
  obtain ⟨h0all, hndE⟩ := List.nodup_cons.mp hnd
  obtain ⟨heM, hndM⟩ := List.nodup_cons.mp hndE
  have he0 : e ≠ 0 := by
    intro heq
    exact h0all (by rw [← heq]; simp)
  have hem1 : e ≠ m1 := fun heq => heM (heq ▸ List.mem_cons_self m1 _)
  have hntr : (updState c.h n St.ADDED 0).next = e := by
    rw [updState_next]
    have hhd := chain_head c.h _ hch
    rw [List.headD_cons] at hhd
    exact hhd
  have hch0 : chainOk (updState c.h n St.ADDED)
      (e :: (m1 :: (M1 ++ r :: S2))) :=
    pathFrom_updState _ _ _ _ _ _ hch
  have hch1 : chainOk (remove_ (updState c.h n St.ADDED) e)
      (m1 :: (M1 ++ r :: S2)) := by
    have hrem := chain_remove (updState c.h n St.ADDED) []
      (m1 :: (M1 ++ r :: S2)) e (by simpa using hch0)
      (by simpa using hnd)
    simpa using hrem
  have hnd1 : (0 :: (m1 :: (M1 ++ r :: S2))).Nodup := by
    refine List.Nodup.sublist ?_ hnd
    exact List.Sublist.cons₂ 0 (List.sublist_cons_self e _)
  have hb : chainOk (remove_ (updState c.h n St.ADDED) e)
      ((m1 :: M1) ++ r :: S2) := by
    simpa using hch1
  have hnd2 : (0 :: ((m1 :: M1) ++ r :: S2)).Nodup := by
    simpa using hnd1
  have hn3 : n ∉ 0 :: ((m1 :: M1) ++ r :: S2) := by
    have hleq : (m1 :: M1) ++ r :: S2 = m1 :: (M1 ++ r :: S2) := by simp
    rw [hleq]
    intro hc
    rcases List.mem_cons.mp hc with hc | hc
    · exact hn0 hc
    · exact hnM hc
  have hmid := chain_insert_mid _ (m1 :: M1) S2 r n hb hnd2 hn3
  have hch2 : chainOk (insert_before_
      (remove_ (updState c.h n St.ADDED) e) r n)
      (m1 :: (M1 ++ n :: r :: S2)) := by
    simpa using hmid
  -- the stale successor pointer of the evicted head
  have hprevr : ((remove_ (updState c.h n St.ADDED) e) r).prev =
      (m1 :: M1).getLastD 0 :=
    chain_prev_at _ (m1 :: M1) S2 r hb
  have hqmem : (m1 :: M1).getLastD 0 ∈ m1 :: M1 := by
    rw [List.getLastD_cons]
    exact List.getLastD_mem_cons M1 m1
  have hqe : e ≠ (m1 :: M1).getLastD 0 := by
    intro heq
    apply heM
    rw [heq]
    rcases List.mem_cons.mp hqmem with hq | hq
    · rw [hq]
      exact List.mem_cons_self _ _
    · exact List.mem_cons_of_mem _ (List.mem_append_left _ hq)
  have henx0 : (updState c.h n St.ADDED e).next = m1 := by
    rw [updState_next]
    exact hch.2.2.1
  have hremenx : ((remove_ (updState c.h n St.ADDED) e) e).next = m1
      := by
    rw [remove_next_self]
    · exact henx0
    · rw [henx0]
      exact fun heq => hem1 heq
    · rw [updState_prev, hch.2.1]
      exact he0
  have hInsEnext : ((insert_before_ (remove_ (updState c.h n St.ADDED) e)
      r n) e).next = m1 := by
    rw [insert_before_eq _ r n ((m1 :: M1).getLastD 0) hprevr]
    rw [ins4_next _ _ _ _ _ hqe hne2.symm]
    exact hremenx
  have hst2 : ∀ y, y ≠ n →
      ((insert_before_ (remove_ (updState c.h n St.ADDED) e) r n)
        y).state = (c.h y).state := by
    intro y hy
    rw [insert_before_state, remove_state, updState_state_ne _ _ _ _ hy]
  have hstn2 : ((insert_before_ (remove_ (updState c.h n St.ADDED) e)
      r n) n).state = St.ADDED := by
    rw [insert_before_state, remove_state, updState_state_self]
  unfold add_
  rw [if_neg (by simp [hstn])]
  dsimp only
  rw [if_pos hge]
  dsimp only
  rw [hntr, hinl]
  unfold boundaryCascadeAdd
  dsimp only
  refine ⟨?_, ?_, ?_, ?_, ?_, ?_, ?_, ?_, ?_, ?_, ?_, ?_⟩
  · show chainOk (updState (insert_before_ (remove_ (updState c.h n
      St.ADDED) e) r n) c.nomination St.NOMINATED)
      (m1 :: (M1 ++ n :: r :: S2))
    exact pathFrom_updState _ _ _ _ _ _ hch2
  · show (updState (insert_before_ (remove_ (updState c.h n St.ADDED) e)
      r n) c.nomination St.NOMINATED c.nomination).next = m1
    rw [updState_next, hnom, hInsEnext]
  · rfl
  · show (updState (insert_before_ (remove_ (updState c.h n St.ADDED) e)
      r n) c.nomination St.NOMINATED n).state = St.ADDED
    rw [hnom, updState_state_ne _ _ _ _ hne2, hstn2]
  · intro y hye hyn
    show (updState (insert_before_ (remove_ (updState c.h n St.ADDED) e)
      r n) c.nomination St.NOMINATED y).state = (c.h y).state
    rw [hnom, updState_state_ne _ _ _ _ hye, hst2 y hyn]
  · rfl
  · rfl
  · rfl
  · rfl
  · rfl
  · rfl
  · rfl

/-- Effect of `add_` in the late warm-up phase when the nomination marker
does not sit on the reclaimed inlet predecessor `b`: same insertion, but
the nomination marker is unchanged. -/
theorem add_warm3_keep (c : Cache) (n b : Nat) (X LR : List Nat)
    (hch : chainOk c.h (X ++ b :: LR))
    (hnd : (0 :: (X ++ b :: LR)).Nodup)
    (hstn : (c.h n).state = St.DETACHED)
    (hfresh : n ∉ 0 :: (X ++ b :: LR))
    (hlt : c.cache_size < c.cache_limit)
    (hgt : ¬ c.cache_size < c.nominated_limit)
    (hne : ¬ c.cache_size = c.nominated_limit)
    (hnomne : c.nomination ≠ b)
    (hinl : c.inlet = LR.headD 0) :
    chainOk (add_ c n).1.h (X ++ n :: b :: LR) ∧
      ((add_ c n).1.h n).state = St.ADDED ∧
      ((add_ c n).1.h b).state = St.REUSED ∧
      (∀ y, y ≠ n → y ≠ b → ((add_ c n).1.h y).state = (c.h y).state) ∧
      (add_ c n).1.nomination = c.nomination ∧
      (add_ c n).1.inlet = b ∧
      (add_ c n).1.map = c.map ∧
      (add_ c n).1.cache_size = c.cache_size + 1 ∧
      (add_ c n).1.cache_limit = c.cache_limit ∧
      (add_ c n).1.nominated_limit = c.nominated_limit ∧
      (add_ c n).1.nextId = c.nextId ∧
      (add_ c n).1.keys = c.keys ∧
      (add_ c n).2 = [] := by
  have hbM : b ∈ X ++ b :: LR := by simp
  rw [List.mem_cons] at hfresh
  push_neg at hfresh
  obtain ⟨hn0, hnL⟩ := hfresh
  have hnb : n ≠ b := fun he => hnL (he ▸ hbM)
  have hinl1 : (updState c.h n St.ADDED c.inlet).prev = b := by
    rw [updState_prev]
    rcases LR with _ | ⟨r, LR2⟩
    · rw [show c.inlet = 0 from hinl]
      have hl := chain_last c.h (X ++ [b]) hch
      rw [hl, getLastD_append_singleton]
    · rw [show c.inlet = r from hinl]
      have hb2 : chainOk c.h ((X ++ [b]) ++ r :: LR2) := by
        simpa using hch
      have hpr := chain_prev_at c.h (X ++ [b]) LR2 r hb2
      rw [hpr, getLastD_append_singleton]
  have hch1 : chainOk (updState (updState c.h n St.ADDED) b St.REUSED)
      (X ++ b :: LR) :=
    pathFrom_updState _ _ _ _ _ _ (pathFrom_updState _ _ _ _ _ _ hch)
  have hmid := chain_insert_mid _ X LR b n hch1 hnd
    (by
      rw [List.mem_cons]
      push_neg
      exact ⟨hn0, hnL⟩)
  unfold add_
  rw [if_neg (by simp [hstn])]
  dsimp only
  rw [if_neg (not_le.mpr hlt)]
  rw [if_neg hgt]
  rw [if_neg hne]
  dsimp only
  rw [hinl1]
  rw [if_neg hnomne]
  refine ⟨hmid, ?_, ?_, ?_, rfl, rfl, rfl, rfl, rfl, rfl, rfl, rfl, rfl⟩
  · show ((insert_before_ (updState (updState c.h n St.ADDED) b
      St.REUSED) b n) n).state = St.ADDED
    rw [insert_before_state, updState_state_ne _ _ _ _ hnb,
      updState_state_self]
  · show ((insert_before_ (updState (updState c.h n St.ADDED) b
      St.REUSED) b n) b).state = St.REUSED
    rw [insert_before_state, updState_state_self]
  · intro y hyn hyb
    show ((insert_before_ (updState (updState c.h n St.ADDED) b
      St.REUSED) b n) y).state = (c.h y).state
    rw [insert_before_state, updState_state_ne _ _ _ _ hyb,
      updState_state_ne _ _ _ _ hyn]

/-! ## The unconditional structural invariant (capacity bound) -/

/-- Structural invariant of every reachable state of a validly
constructed cache, with no proviso: the circular list splits into a
mixed Nominated/Reused prefix, a Reused run headed by the nomination
marker, an Added run ending at the insertion point, and a Reused
suffix headed by the inlet marker, with the map in bijection with the
list and the count bounded by capacity. -/
def GInv (c : Cache) : Prop :=
  ∃ P RJ AM S : List Nat,
    chainOk c.h (P ++ RJ ++ AM ++ S) ∧
    (0 :: (P ++ RJ ++ AM ++ S)).Nodup ∧
    (∀ x ∈ P ++ RJ ++ AM ++ S, x < c.nextId) ∧
    (∀ x ∈ P, (c.h x).state = St.NOMINATED ∨
      (c.h x).state = St.REUSED) ∧
    (∀ x ∈ RJ, (c.h x).state = St.REUSED) ∧
    (∀ x ∈ AM, (c.h x).state = St.ADDED) ∧
    (∀ x ∈ S, (c.h x).state = St.REUSED) ∧
    c.nomination = (RJ ++ AM).headD 0 ∧
    c.inlet = S.headD 0 ∧
    (c.h 0).state = St.DETACHED ∧
    MapOk c (P ++ RJ ++ AM ++ S) ∧
    c.cache_size = (P ++ RJ ++ AM ++ S).length ∧
    c.cache_size ≤ c.cache_limit ∧
    0 < c.nextId ∧
    0 < c.nominated_limit ∧
    c.nominated_limit + 1 < c.cache_limit ∧
    (c.cache_size ≤ c.nominated_limit ↔ RJ ++ AM = []) ∧
    (c.cache_size ≤ c.nominated_limit + 1 ↔ S = []) ∧
    (S ≠ [] → AM ≠ []) ∧
    (S = [] → (RJ = [] ∨ AM = []) ∧ AM.length ≤ 1) ∧
    (S ≠ [] → 2 ≤ P.length + RJ.length + AM.length)

/-- Transfer of the bookkeeping conjuncts along a permutation of the
chain, for an operation that does not touch the map or the counters. -/
theorem ginv_core_perm (c c2 : Cache) (L L2 : List Nat)
    (hperm : L2.Perm L)
    (hnd : (0 :: L).Nodup) (hfr : ∀ x ∈ L, x < c.nextId)
    (hmok : MapOk c L) (hsz : c.cache_size = L.length)
    (hmap : c2.map = c.map) (hkeys : ∀ j, c2.keys j = c.keys j)
    (hnx : c2.nextId = c.nextId) (hcs : c2.cache_size = c.cache_size) :
    (0 :: L2).Nodup ∧ (∀ x ∈ L2, x < c2.nextId) ∧ MapOk c2 L2 ∧
      c2.cache_size = L2.length := by
  refine ⟨(hperm.cons 0).nodup_iff.mpr hnd, ?_, ?_, ?_⟩
  · intro x hx
    rw [hnx]
    exact hfr x (hperm.subset hx)
  · exact mapOk_perm c2 L L2 hperm.symm
      (mapOk_of_eq c c2 L hmap (fun j _ => hkeys j) hmok)
  · rw [hcs, hsz, hperm.length_eq]

/-- A fetch hit preserves the structural invariant. -/
theorem ginv_hit (c : Cache) (k : Int) (i : Nat) (hG : GInv c)
    (hlk : lookupId c.map k = some i) : GInv (use_ c i) := by
  have hGc := hG
  obtain ⟨P, RJ, AM, S, hch, hnd, hfr, hsP, hsRJ, hsAM, hsS, hnom, hinl,
    hs0, hmok, hsz, hszle, hnx0, hnl0, hnll, hph1, hph2, hg6, hg7, hg8⟩
    := hG
  by_cases hni : (c.h i).state = St.NOMINATED
  case neg =>
    rw [use_noop c i hni]
    exact hGc
  case pos =>
    have hiM : i ∈ P ++ RJ ++ AM ++ S :=
      (hmok.2.1 (k, i) (lookupId_mem _ _ _ hlk)).1
    have hiP : i ∈ P := by
      rcases List.mem_append.mp hiM with h1 | h1
      · rcases List.mem_append.mp h1 with h2 | h2
        · rcases List.mem_append.mp h2 with h3 | h3
          · exact h3
          · exact absurd (hsRJ i h3) (by rw [hni]; decide)
        · exact absurd (hsAM i h2) (by rw [hni]; decide)
      · exact absurd (hsS i h1) (by rw [hni]; decide)
    obtain ⟨P1, P2, hP12⟩ := List.append_of_mem hiP
    subst hP12
    have h0L : (0 : Nat) ∉ ((P1 ++ i :: P2) ++ RJ ++ AM ++ S) :=
      (List.nodup_cons.mp hnd).1
    have hi0 : (0 : Nat) ≠ i := by
      intro he
      exact h0L (by rw [he]; simp)
    rcases RJ with _ | ⟨j0, RJ2⟩
    · rcases AM with _ | ⟨a, AM2⟩
      · -- the markers are at the sentinel: no cascade
        have hSnil : S = [] := by
          by_contra hSne
          exact (hg6 hSne) rfl
        subst hSnil
        have he : (((P1 ++ i :: P2) ++ ([] : List Nat)) ++
            ([] : List Nat)) ++ ([] : List Nat) = P1 ++ i :: P2 := by
          simp
        rw [he] at hch hnd hfr hsz hmok
        have hgn : (c.h c.nomination).state ≠ St.ADDED := by
          rw [show c.nomination = 0 from hnom, hs0]
          decide
        have hni2 : c.nomination ≠ i := by
          rw [show c.nomination = 0 from hnom]
          exact hi0
        obtain ⟨u1, u2, u3, u4, u5⟩ :=
          use_nocascade c i P1 P2 hch hnd hni hgn hni2
        have hLeq : ((((P1 ++ P2) ++ [i]) ++ ([] : List Nat)) ++
            ([] : List Nat)) ++ ([] : List Nat) = (P1 ++ P2) ++ [i] := by
          simp
        have hperm : ((P1 ++ P2) ++ [i]).Perm (P1 ++ i :: P2) :=
          (List.perm_append_singleton _ _).trans List.perm_middle.symm
        obtain ⟨k1, k2, k3, k4⟩ := ginv_core_perm c (use_ c i)
          (P1 ++ i :: P2) ((P1 ++ P2) ++ [i]) hperm hnd hfr hmok hsz
          (use_map c i) (fun j => congrFun (use_keys c i) j)
          (use_nextId c i) (use_cache_size c i)
        refine ⟨(P1 ++ P2) ++ [i], [], [], [], ?_, ?_, ?_, ?_, ?_, ?_,
          ?_, ?_, ?_, ?_, ?_, ?_, ?_, ?_, ?_, ?_, ?_, ?_, ?_, ?_, ?_⟩
        · rw [hLeq]
          exact u1
        · rw [hLeq]
          exact k1
        · rw [hLeq]
          exact k2
        · intro x hx
          rcases List.mem_append.mp hx with hx | hx
          · have hnd2 := (List.nodup_cons.mp hnd).2
            obtain ⟨_, hic, hd⟩ := List.nodup_append.mp hnd2
            have hxi : x ≠ i := by
              intro heq
              rcases List.mem_append.mp hx with hx2 | hx2
              · exact hd hx2 (by rw [heq]; exact List.mem_cons_self i P2)
              · exact (List.nodup_cons.mp hic).1
                  (by rw [← heq]; exact hx2)
            rw [u3 x hxi]
            rcases List.mem_append.mp hx with hx | hx
            · exact hsP x (List.mem_append_left _ hx)
            · exact hsP x (List.mem_append_right _
                (List.mem_cons_of_mem i hx))
          · rw [List.mem_singleton.mp hx, u2]
            right
            rfl
        · intro x hx
          exact absurd hx (List.not_mem_nil x)
        · intro x hx
          exact absurd hx (List.not_mem_nil x)
        · intro x hx
          exact absurd hx (List.not_mem_nil x)
        · rw [u4]
          exact hnom
        · rw [u5]
          exact hinl
        · rw [u3 0 hi0]
          exact hs0
        · rw [hLeq]
          exact k3
        · rw [hLeq]
          exact k4
        · rw [use_cache_size, use_cache_limit]
          exact hszle
        · rw [use_nextId]
          exact hnx0
        · rw [use_nominated_limit]
          exact hnl0
        · rw [use_nominated_limit, use_cache_limit]
          exact hnll
        · rw [use_cache_size, use_nominated_limit]
          exact hph1
        · rw [use_cache_size, use_nominated_limit]
          exact hph2
        · intro h
          exact absurd rfl h
        · intro _
          exact ⟨Or.inl rfl, by simp⟩
        · intro h
          exact absurd rfl h
      · -- nomination on the Added run: the cascade fires
        rcases S with _ | ⟨r, S2⟩
        · -- no Reused suffix: the reclaim sub-step does not fire
          have hAM2 : AM2 = [] := by
            have hlen := (hg7 rfl).2
            rw [List.length_cons] at hlen
            have hz : AM2.length = 0 := by omega
            exact List.length_eq_zero.mp hz
          subst hAM2
          have he : (((P1 ++ i :: P2) ++ ([] : List Nat)) ++
              (a :: [])) ++ ([] : List Nat) =
              P1 ++ i :: (P2 ++ [a]) := by simp
          rw [he] at hch hnd hfr hsz hmok
          have hsta : (c.h a).state = St.ADDED :=
            hsAM a (List.mem_cons_self a [])
          obtain ⟨u1, u2, u3, u4, u5, u6⟩ :=
            use_promote_nosub c i a P1 P2 hch hnd hni hsta hs0 hnom hinl
          have hLeq : ((((P1 ++ P2) ++ [a]) ++ [i]) ++
              ([] : List Nat)) ++ ([] : List Nat) =
              P1 ++ (P2 ++ a :: [i]) := by simp
          have hperm : (P1 ++ (P2 ++ a :: [i])).Perm
              (P1 ++ i :: (P2 ++ [a])) := by
            have e1 : P1 ++ (P2 ++ a :: [i]) =
                (P1 ++ (P2 ++ [a])) ++ [i] := by simp
            rw [e1]
            exact (List.perm_append_singleton _ _).trans
              List.perm_middle.symm
          obtain ⟨k1, k2, k3, k4⟩ := ginv_core_perm c (use_ c i)
            (P1 ++ i :: (P2 ++ [a])) (P1 ++ (P2 ++ a :: [i])) hperm hnd
            hfr hmok hsz (use_map c i) (fun j => congrFun (use_keys c i) j)
            (use_nextId c i) (use_cache_size c i)
          -- distinctness
          have hnd2 := (List.nodup_cons.mp hnd).2
          obtain ⟨hndP1, hndrest, hd1⟩ := List.nodup_append.mp hnd2
          obtain ⟨hirest, hndrest2⟩ := List.nodup_cons.mp hndrest
          obtain ⟨hndP2, hndA, hd2⟩ := List.nodup_append.mp hndrest2
          have hai : a ≠ i := by
            intro heq
            exact hirest (List.mem_append_right _
              (by rw [heq]; simp))
          have h0a : (0 : Nat) ≠ a := by
            intro heq
            apply h0L
            rw [heq]
            simp
          refine ⟨(P1 ++ P2) ++ [a], [i], [], [], ?_, ?_, ?_, ?_, ?_,
            ?_, ?_, ?_, ?_, ?_, ?_, ?_, ?_, ?_, ?_, ?_, ?_, ?_, ?_, ?_,
            ?_⟩
          · rw [hLeq]
            exact u1
          · rw [hLeq]
            exact k1
          · rw [hLeq]
            exact k2
          · intro x hx
            rcases List.mem_append.mp hx with hx | hx
            · have hxi : x ≠ i := by
                intro heq
                rcases List.mem_append.mp hx with hx2 | hx2
                · exact hd1 hx2
                    (by rw [heq]; exact List.mem_cons_self i _)
                · exact hirest
                    (by rw [← heq]; exact List.mem_append_left _ hx2)
              have hxa : x ≠ a := by
                intro heq
                rcases List.mem_append.mp hx with hx2 | hx2
                · exact hd1 hx2 (by
                    rw [heq]
                    exact List.mem_cons_of_mem i
                      (List.mem_append_right _ (by simp)))
                · exact hd2 hx2 (by rw [heq]; simp)
              rw [u6 x hxi hxa]
              rcases List.mem_append.mp hx with hx | hx
              · exact hsP x (List.mem_append_left _ hx)
              · exact hsP x (List.mem_append_right _
                  (List.mem_cons_of_mem i hx))
            · rw [List.mem_singleton.mp hx, u5]
              left
              rfl
          · intro x hx
            rw [List.mem_singleton.mp hx]
            exact u4
          · intro x hx
            exact absurd hx (List.not_mem_nil x)
          · intro x hx
            exact absurd hx (List.not_mem_nil x)
          · exact u2
          · exact u3
          · rw [u6 0 hi0 h0a]
            exact hs0
          · rw [hLeq]
            exact k3
          · rw [hLeq]
            exact k4
          · rw [use_cache_size, use_cache_limit]
            exact hszle
          · rw [use_nextId]
            exact hnx0
          · rw [use_nominated_limit]
            exact hnl0
          · rw [use_nominated_limit, use_cache_limit]
            exact hnll
          · rw [use_cache_size, use_nominated_limit]
            exact iff_of_false
              (fun hc => absurd (hph1.mp hc) (by simp)) (by simp)
          · rw [use_cache_size, use_nominated_limit]
            exact iff_of_true (hph2.mpr rfl) rfl
          · intro h
            exact absurd rfl h
          · intro _
            exact ⟨Or.inr rfl, by simp⟩
          · intro h
            exact absurd rfl h
        · -- Reused suffix present: the full cascade fires
          have he : (((P1 ++ i :: P2) ++ ([] : List Nat)) ++
              (a :: AM2)) ++ (r :: S2) =
              P1 ++ i :: (P2 ++ a :: (AM2 ++ r :: S2)) := by simp
          rw [he] at hch hnd hfr hsz hmok
          have hsta : (c.h a).state = St.ADDED :=
            hsAM a (List.mem_cons_self a AM2)
          have hstr : (c.h r).state = St.REUSED :=
            hsS r (List.mem_cons_self r S2)
          obtain ⟨u1, u2, u3, u4, u5, u6, u7⟩ :=
            use_promote_g c i a r P1 P2 AM2 S2 hch hnd hni hsta hstr
              hnom hinl
          have hLeq : ((((P1 ++ P2) ++ [a]) ++ ([] : List Nat)) ++
              (AM2 ++ [r])) ++ (S2 ++ [i]) =
              P1 ++ (P2 ++ a :: (AM2 ++ r :: (S2 ++ [i]))) := by simp
          have hperm : (P1 ++ (P2 ++ a :: (AM2 ++ r :: (S2 ++ [i])))).Perm
              (P1 ++ i :: (P2 ++ a :: (AM2 ++ r :: S2))) := by
            have e1 : P1 ++ (P2 ++ a :: (AM2 ++ r :: (S2 ++ [i]))) =
                (P1 ++ (P2 ++ a :: (AM2 ++ r :: S2))) ++ [i] := by simp
            rw [e1]
            exact (List.perm_append_singleton _ _).trans
              List.perm_middle.symm
          obtain ⟨k1, k2, k3, k4⟩ := ginv_core_perm c (use_ c i)
            (P1 ++ i :: (P2 ++ a :: (AM2 ++ r :: S2)))
            (P1 ++ (P2 ++ a :: (AM2 ++ r :: (S2 ++ [i])))) hperm hnd
            hfr hmok hsz (use_map c i) (fun j => congrFun (use_keys c i) j)
            (use_nextId c i) (use_cache_size c i)
          -- distinctness
          have hnd2 := (List.nodup_cons.mp hnd).2
          obtain ⟨hndP1, hndrest, hd1⟩ := List.nodup_append.mp hnd2
          obtain ⟨hirest, hndrest2⟩ := List.nodup_cons.mp hndrest
          obtain ⟨hndP2, hndA, hd2⟩ := List.nodup_append.mp hndrest2
          obtain ⟨harest, hndrest3⟩ := List.nodup_cons.mp hndA
          obtain ⟨hndAM2, hndS, hd3⟩ := List.nodup_append.mp hndrest3
          obtain ⟨hrS2, hndS2⟩ := List.nodup_cons.mp hndS
          have h0a : (0 : Nat) ≠ a := by
            intro heq
            apply h0L
            rw [heq]
            simp
          have h0r : (0 : Nat) ≠ r := by
            intro heq
            apply h0L
            rw [heq]
            simp
          refine ⟨(P1 ++ P2) ++ [a], [], AM2 ++ [r], S2 ++ [i], ?_, ?_,
            ?_, ?_, ?_, ?_, ?_, ?_, ?_, ?_, ?_, ?_, ?_, ?_, ?_, ?_, ?_,
            ?_, ?_, ?_, ?_⟩
          · rw [hLeq]
            exact u1
          · rw [hLeq]
            exact k1
          · rw [hLeq]
            exact k2
          · intro x hx
            rcases List.mem_append.mp hx with hx | hx
            · have hxi : x ≠ i := by
                intro heq
                rcases List.mem_append.mp hx with hx2 | hx2
                · exact hd1 hx2
                    (by rw [heq]; exact List.mem_cons_self i _)
                · exact hirest
                    (by rw [← heq]; exact List.mem_append_left _ hx2)
              have hxa : x ≠ a := by
                intro heq
                rcases List.mem_append.mp hx with hx2 | hx2
                · exact hd1 hx2 (by
                    rw [heq]
                    exact List.mem_cons_of_mem i
                      (List.mem_append_right _ (by simp)))
                · exact hd2 hx2 (by rw [heq]; simp)
              have hxr : x ≠ r := by
                intro heq
                rcases List.mem_append.mp hx with hx2 | hx2
                · exact hd1 hx2 (by
                    rw [heq]
                    exact List.mem_cons_of_mem i
                      (List.mem_append_right _ (by simp)))
                · exact hd2 hx2 (by rw [heq]; simp)
              rw [u7 x hxi hxa hxr]
              rcases List.mem_append.mp hx with hx | hx
              · exact hsP x (List.mem_append_left _ hx)
              · exact hsP x (List.mem_append_right _
                  (List.mem_cons_of_mem i hx))
            · rw [List.mem_singleton.mp hx, u5]
              left
              rfl
          · intro x hx
            exact absurd hx (List.not_mem_nil x)
          · intro x hx
            rcases List.mem_append.mp hx with hx | hx
            · have hxi : x ≠ i := fun heq =>
                hirest (by
                  rw [← heq]
                  exact List.mem_append_right _ (List.mem_cons_of_mem a
                    (List.mem_append_left _ hx)))
              have hxa : x ≠ a := fun heq =>
                harest (by rw [← heq]; exact List.mem_append_left _ hx)
              have hxr : x ≠ r := fun heq =>
                hd3 hx (by rw [heq]; exact List.mem_cons_self r S2)
              rw [u7 x hxi hxa hxr]
              exact hsAM x (List.mem_cons_of_mem a hx)
            · rw [List.mem_singleton.mp hx]
              exact u6
          · intro x hx
            rcases List.mem_append.mp hx with hx | hx
            · have hxi : x ≠ i := fun heq =>
                hirest (by
                  rw [← heq]
                  exact List.mem_append_right _ (List.mem_cons_of_mem a
                    (List.mem_append_right _ (List.mem_cons_of_mem r
                      hx))))
              have hxa : x ≠ a := fun heq =>
                harest (by
                  rw [← heq]
                  exact List.mem_append_right _
                    (List.mem_cons_of_mem r hx))
              have hxr : x ≠ r := fun heq => hrS2 (heq ▸ hx)
              rw [u7 x hxi hxa hxr]
              exact hsS x (List.mem_cons_of_mem r hx)
            · rw [List.mem_singleton.mp hx]
              exact u4
          · exact u2
          · exact u3
          · rw [u7 0 hi0 h0a h0r]
            exact hs0
          · rw [hLeq]
            exact k3
          · rw [hLeq]
            exact k4
          · rw [use_cache_size, use_cache_limit]
            exact hszle
          · rw [use_nextId]
            exact hnx0
          · rw [use_nominated_limit]
            exact hnl0
          · rw [use_nominated_limit, use_cache_limit]
            exact hnll
          · rw [use_cache_size, use_nominated_limit]
            exact iff_of_false
              (fun hc => absurd (hph1.mp hc) (by simp)) (by simp)
          · rw [use_cache_size, use_nominated_limit]
            exact iff_of_false
              (fun hc => absurd (hph2.mp hc) (by simp)) (by simp)
          · intro _
            simp
          · intro h
            exact absurd h (by simp)
          · intro _
            simp only [List.length_append, List.length_singleton,
              List.length_nil]
            omega
    · -- nomination on the Reused run: the cascade does not fire
      have hnomj : c.nomination = j0 := hnom
      have hstj : (c.h j0).state = St.REUSED :=
        hsRJ j0 (List.mem_cons_self j0 RJ2)
      have hgn : (c.h c.nomination).state ≠ St.ADDED := by
        rw [hnomj, hstj]
        decide
      have hni2 : c.nomination ≠ i := by
        rw [hnomj]
        intro heq
        rw [heq] at hstj
        rw [hni] at hstj
        exact absurd hstj (by decide)
      rcases S with _ | ⟨r, S2⟩
      · -- no suffix: the promoted node extends the Reused run
        have hAMnil : AM = [] := by
          rcases (hg7 rfl).1 with h | h
          · exact absurd h (List.cons_ne_nil j0 RJ2)
          · exact h
        subst hAMnil
        have he : (((P1 ++ i :: P2) ++ (j0 :: RJ2)) ++
            ([] : List Nat)) ++ ([] : List Nat) =
            P1 ++ i :: (P2 ++ j0 :: RJ2) := by simp
        rw [he] at hch hnd hfr hsz hmok
        obtain ⟨u1, u2, u3, u4, u5⟩ :=
          use_nocascade c i P1 (P2 ++ j0 :: RJ2) hch hnd hni hgn hni2
        have hLeq : (((P1 ++ P2) ++ ((j0 :: RJ2) ++ [i])) ++
            ([] : List Nat)) ++ ([] : List Nat) =
            (P1 ++ (P2 ++ j0 :: RJ2)) ++ [i] := by simp
        have hperm : ((P1 ++ (P2 ++ j0 :: RJ2)) ++ [i]).Perm
            (P1 ++ i :: (P2 ++ j0 :: RJ2)) :=
          (List.perm_append_singleton _ _).trans List.perm_middle.symm
        obtain ⟨k1, k2, k3, k4⟩ := ginv_core_perm c (use_ c i)
          (P1 ++ i :: (P2 ++ j0 :: RJ2))
          ((P1 ++ (P2 ++ j0 :: RJ2)) ++ [i]) hperm hnd hfr hmok hsz
          (use_map c i) (fun j => congrFun (use_keys c i) j)
          (use_nextId c i) (use_cache_size c i)
        have hnd2 := (List.nodup_cons.mp hnd).2
        obtain ⟨hndP1, hndrest, hd1⟩ := List.nodup_append.mp hnd2
        obtain ⟨hirest, hndrest2⟩ := List.nodup_cons.mp hndrest
        refine ⟨P1 ++ P2, (j0 :: RJ2) ++ [i], [], [], ?_, ?_, ?_, ?_,
          ?_, ?_, ?_, ?_, ?_, ?_, ?_, ?_, ?_, ?_, ?_, ?_, ?_, ?_, ?_,
          ?_, ?_⟩
        · rw [hLeq]
          exact u1
        · rw [hLeq]
          exact k1
        · rw [hLeq]
          exact k2
        · intro x hx
          have hxi : x ≠ i := by
            intro heq
            rcases List.mem_append.mp hx with hx2 | hx2
            · exact hd1 hx2
                (by rw [heq]; exact List.mem_cons_self i _)
            · exact hirest
                (by rw [← heq]; exact List.mem_append_left _ hx2)
          rw [u3 x hxi]
          rcases List.mem_append.mp hx with hx | hx
          · exact hsP x (List.mem_append_left _ hx)
          · exact hsP x (List.mem_append_right _
              (List.mem_cons_of_mem i hx))
        · intro x hx
          rcases List.mem_append.mp hx with hx | hx
          · have hxi : x ≠ i := fun heq =>
              hirest (by rw [← heq]; exact List.mem_append_right _ hx)
            rw [u3 x hxi]
            exact hsRJ x hx
          · rw [List.mem_singleton.mp hx]
            exact u2
        · intro x hx
          exact absurd hx (List.not_mem_nil x)
        · intro x hx
          exact absurd hx (List.not_mem_nil x)
        · rw [u4]
          exact hnom
        · rw [u5]
          exact hinl
        · rw [u3 0 hi0]
          exact hs0
        · rw [hLeq]
          exact k3
        · rw [hLeq]
          exact k4
        · rw [use_cache_size, use_cache_limit]
          exact hszle
        · rw [use_nextId]
          exact hnx0
        · rw [use_nominated_limit]
          exact hnl0
        · rw [use_nominated_limit, use_cache_limit]
          exact hnll
        · rw [use_cache_size, use_nominated_limit]
          exact iff_of_false
            (fun hc => absurd (hph1.mp hc) (by simp)) (by simp)
        · rw [use_cache_size, use_nominated_limit]
          exact iff_of_true (hph2.mpr rfl) rfl
        · intro h
          exact absurd rfl h
        · intro _
          exact ⟨Or.inr rfl, by simp⟩
        · intro h
          exact absurd rfl h
      · -- suffix present: the promoted node extends the suffix
        have he : (((P1 ++ i :: P2) ++ (j0 :: RJ2)) ++ AM) ++
            (r :: S2) =
            P1 ++ i :: (P2 ++ j0 :: (RJ2 ++ (AM ++ r :: S2))) := by
          simp
        rw [he] at hch hnd hfr hsz hmok
        obtain ⟨u1, u2, u3, u4, u5⟩ :=
          use_nocascade c i P1 (P2 ++ j0 :: (RJ2 ++ (AM ++ r :: S2)))
            hch hnd hni hgn hni2
        have hLeq : (((P1 ++ P2) ++ (j0 :: RJ2)) ++ AM) ++
            ((r :: S2) ++ [i]) =
            (P1 ++ (P2 ++ j0 :: (RJ2 ++ (AM ++ r :: S2)))) ++ [i] := by
          simp
        have hperm : ((P1 ++ (P2 ++ j0 :: (RJ2 ++ (AM ++ r :: S2)))) ++
            [i]).Perm
            (P1 ++ i :: (P2 ++ j0 :: (RJ2 ++ (AM ++ r :: S2)))) :=
          (List.perm_append_singleton _ _).trans List.perm_middle.symm
        obtain ⟨k1, k2, k3, k4⟩ := ginv_core_perm c (use_ c i)
          (P1 ++ i :: (P2 ++ j0 :: (RJ2 ++ (AM ++ r :: S2))))
          ((P1 ++ (P2 ++ j0 :: (RJ2 ++ (AM ++ r :: S2)))) ++ [i]) hperm
          hnd hfr hmok hsz (use_map c i)
          (fun j => congrFun (use_keys c i) j) (use_nextId c i)
          (use_cache_size c i)
        have hnd2 := (List.nodup_cons.mp hnd).2
        obtain ⟨hndP1, hndrest, hd1⟩ := List.nodup_append.mp hnd2
        obtain ⟨hirest, hndrest2⟩ := List.nodup_cons.mp hndrest
        have hAMne : AM ≠ [] := hg6 (List.cons_ne_nil r S2)
        refine ⟨P1 ++ P2, j0 :: RJ2, AM, (r :: S2) ++ [i], ?_, ?_, ?_,
          ?_, ?_, ?_, ?_, ?_, ?_, ?_, ?_, ?_, ?_, ?_, ?_, ?_, ?_, ?_,
          ?_, ?_, ?_⟩
        · rw [hLeq]
          exact u1
        · rw [hLeq]
          exact k1
        · rw [hLeq]
          exact k2
        · intro x hx
          have hxi : x ≠ i := by
            intro heq
            rcases List.mem_append.mp hx with hx2 | hx2
            · exact hd1 hx2
                (by rw [heq]; exact List.mem_cons_self i _)
            · exact hirest
                (by rw [← heq]; exact List.mem_append_left _ hx2)
          rw [u3 x hxi]
          rcases List.mem_append.mp hx with hx | hx
          · exact hsP x (List.mem_append_left _ hx)
          · exact hsP x (List.mem_append_right _
              (List.mem_cons_of_mem i hx))
        · intro x hx
          have hxi : x ≠ i := by
            intro heq
            apply hirest
            rw [← heq]
            refine List.mem_append_right _ ?_
            rcases List.mem_cons.mp hx with hx2 | hx2
            · rw [hx2]
              exact List.mem_cons_self _ _
            · exact List.mem_cons_of_mem _ (List.mem_append_left _ hx2)
          rw [u3 x hxi]
          exact hsRJ x hx
        · intro x hx
          have hxi : x ≠ i := fun heq =>
            hirest (by
              rw [← heq]
              exact List.mem_append_right _ (List.mem_cons_of_mem _
                (List.mem_append_right _ (List.mem_append_left _ hx))))
          rw [u3 x hxi]
          exact hsAM x hx
        · intro x hx
          rcases List.mem_append.mp hx with hx | hx
          · have hxi : x ≠ i := fun heq =>
              hirest (by
                rw [← heq]
                exact List.mem_append_right _ (List.mem_cons_of_mem _
                  (List.mem_append_right _
                    (List.mem_append_right _ hx)))) 
            rw [u3 x hxi]
            exact hsS x hx
          · rw [List.mem_singleton.mp hx]
            exact u2
        · rw [u4]
          exact hnom
        · rw [u5]
          exact hinl
        · rw [u3 0 hi0]
          exact hs0
        · rw [hLeq]
          exact k3
        · rw [hLeq]
          exact k4
        · rw [use_cache_size, use_cache_limit]
          exact hszle
        · rw [use_nextId]
          exact hnx0
        · rw [use_nominated_limit]
          exact hnl0
        · rw [use_nominated_limit, use_cache_limit]
          exact hnll
        · rw [use_cache_size, use_nominated_limit]
          exact iff_of_false
            (fun hc => absurd (hph1.mp hc) (by simp)) (by simp)
        · rw [use_cache_size, use_nominated_limit]
          exact iff_of_false
            (fun hc => absurd (hph2.mp hc) (by simp)) (by simp)
        · intro _
          exact hAMne
        · intro h
          exact absurd h (by simp)
        · intro _
          have hp : 0 < AM.length := List.length_pos.mpr hAMne
          simp only [List.length_append, List.length_cons]
          omega

/-- Bookkeeping transfer for a warm-up miss: the fresh node joins the
chain and the new key is prepended to the map. -/
theorem ginv_core_miss (c c3 : Cache) (L L2 : List Nat) (k : Int)
    (hperm : L2.Perm (L ++ [c.nextId]))
    (hnd : (0 :: L).Nodup) (hfr : ∀ x ∈ L, x < c.nextId)
    (hmok : MapOk c L) (hmiss : lookupId c.map k = none)
    (hmap3 : c3.map = (k, c.nextId) :: c.map)
    (hkn : c3.keys c.nextId = k)
    (hko : ∀ j, j ≠ c.nextId → c3.keys j = c.keys j)
    (hnx : c3.nextId = c.nextId + 1)
    (hnx0 : 0 < c.nextId)
    (hsz : c.cache_size = L.length)
    (hcs : c3.cache_size = c.cache_size + 1) :
    (0 :: L2).Nodup ∧ (∀ x ∈ L2, x < c3.nextId) ∧ MapOk c3 L2 ∧
      c3.cache_size = L2.length := by
  have hfreshL : c.nextId ∉ L := fun hm => absurd (hfr _ hm) (lt_irrefl _)
  have hfresh0 : c.nextId ∉ 0 :: L := by
    rw [List.mem_cons]
    push_neg
    exact ⟨Nat.pos_iff_ne_zero.mp hnx0, hfreshL⟩
  refine ⟨?_, ?_, ?_, ?_⟩
  · have hnd2 := nodup_mid L [] 0 c.nextId (by simpa using hnd)
      (by simpa using hfresh0)
    exact (hperm.cons 0).nodup_iff.mpr (by simpa using hnd2)
  · intro x hx
    rw [hnx]
    rcases List.mem_append.mp (hperm.subset hx) with h | h
    · exact Nat.lt_succ_of_lt (hfr x h)
    · rw [List.mem_singleton.mp h]
      exact Nat.lt_succ_self _
  · exact mapOk_perm c3 (L ++ [c.nextId]) L2 hperm.symm
      (mapOk_step_warm c c3 k c.nextId L hmok hmiss hfreshL hmap3 hkn
        hko)
  · rw [hcs, hsz, hperm.length_eq]
    simp

/-- Bookkeeping transfer for a miss at capacity: the tail `e` leaves the
chain and the map, the fresh node joins both. -/
theorem ginv_core_steady (c c3 : Cache) (M L2 : List Nat) (k : Int)
    (e : Nat)
    (hperm : L2.Perm (M ++ [c.nextId]))
    (hnd : (0 :: (e :: M)).Nodup) (hfr : ∀ x ∈ e :: M, x < c.nextId)
    (hmok : MapOk c (e :: M)) (hmiss : lookupId c.map k = none)
    (hmap3 : c3.map = (k, c.nextId) :: eraseKey c.map (c.keys e))
    (hkn : c3.keys c.nextId = k)
    (hko : ∀ j, j ≠ c.nextId → c3.keys j = c.keys j)
    (hnx : c3.nextId = c.nextId + 1)
    (hnx0 : 0 < c.nextId)
    (hsz : c.cache_size = (e :: M).length)
    (hcs : c3.cache_size = c.cache_size) :
    (0 :: L2).Nodup ∧ (∀ x ∈ L2, x < c3.nextId) ∧ MapOk c3 L2 ∧
      c3.cache_size = L2.length := by
  have hfreshM : c.nextId ∉ M :=
    fun hm => absurd (hfr _ (List.mem_cons_of_mem e hm)) (lt_irrefl _)
  have hndM : (0 :: M).Nodup := by
    refine List.Nodup.sublist ?_ hnd
    exact List.Sublist.cons₂ 0 (List.sublist_cons_self e _)
  have hfresh0 : c.nextId ∉ 0 :: M := by
    rw [List.mem_cons]
    push_neg
    exact ⟨Nat.pos_iff_ne_zero.mp hnx0, hfreshM⟩
  refine ⟨?_, ?_, ?_, ?_⟩
  · have hnd2 := nodup_mid M [] 0 c.nextId (by simpa using hndM)
      (by simpa using hfresh0)
    exact (hperm.cons 0).nodup_iff.mpr (by simpa using hnd2)
  · intro x hx
    rw [hnx]
    rcases List.mem_append.mp (hperm.subset hx) with h | h
    · exact Nat.lt_succ_of_lt (hfr x (List.mem_cons_of_mem e h))
    · rw [List.mem_singleton.mp h]
      exact Nat.lt_succ_self _
  · exact mapOk_perm c3 (M ++ [c.nextId]) L2 hperm.symm
      (mapOk_step_steady c c3 k c.nextId e M hmok
        (List.nodup_cons.mp hnd).2 hmiss hfreshM hmap3 hkn hko)
  · rw [hcs, hsz, hperm.length_eq]
    simp

/-- A fetch miss preserves the structural invariant. -/
theorem ginv_miss (c : Cache) (k : Int) (hG : GInv c)
    (hlk : lookupId c.map k = none) :
    GInv (add_ (insertNewNode c k) c.nextId).1 := by
  obtain ⟨P, RJ, AM, S, hch, hnd, hfr, hsP, hsRJ, hsAM, hsS, hnom, hinl,
    hs0, hmok, hsz, hszle, hnx0, hnl0, hnll, hph1, hph2, hg6, hg7, hg8⟩
    := hG
  have hstn : ((insertNewNode c k).h c.nextId).state = St.DETACHED := by
    rw [insertNewNode_h_self]
  have hfreshM : c.nextId ∉ P ++ RJ ++ AM ++ S :=
    fun hm => absurd (hfr _ hm) (lt_irrefl _)
  have hfresh0 : c.nextId ∉ 0 :: (P ++ RJ ++ AM ++ S) := by
    rw [List.mem_cons]
    push_neg
    exact ⟨Nat.pos_iff_ne_zero.mp hnx0, hfreshM⟩
  have hch2 : chainOk (insertNewNode c k).h (P ++ RJ ++ AM ++ S) :=
    insertNewNode_chain c k _ hnx0 hfr hch
  have hst2 : ∀ j, j ≠ c.nextId →
      ((insertNewNode c k).h j).state = (c.h j).state := by
    intro j hj
    rw [insertNewNode_h_ne c k j hj]
  have hs02 : ((insertNewNode c k).h 0).state = St.DETACHED := by
    rw [hst2 0 (Ne.symm (Nat.pos_iff_ne_zero.mp hnx0))]
    exact hs0
  by_cases hge : c.cache_limit ≤ c.cache_size
  · -- steady state: evict the head, insert before the inlet, renominate
    have hSne : S ≠ [] := by
      intro hS
      have hle := hph2.mpr hS
      omega
    obtain ⟨r, S2, hS⟩ : ∃ r S2, S = r :: S2 := by
      rcases S with _ | ⟨r, S2⟩
      · exact absurd rfl hSne
      · exact ⟨r, S2, rfl⟩
    subst hS
    have hAMne : AM ≠ [] := hg6 (List.cons_ne_nil r S2)
    have hg8s := hg8 (List.cons_ne_nil r S2)
    rcases P with _ | ⟨p1, P2⟩
    · rcases RJ with _ | ⟨j0, RJ2⟩
      · -- ghost eviction of the Added head
        rcases AM with _ | ⟨a0, AM2⟩
        · exact absurd rfl hAMne
        rcases AM2 with _ | ⟨a1, AM3⟩
        · exfalso
          simp only [List.length_nil, List.length_cons] at hg8s
          omega
        have he : ((([] : List Nat) ++ ([] : List Nat)) ++
            (a0 :: a1 :: AM3)) ++ (r :: S2) =
            a0 :: (a1 :: (AM3 ++ r :: S2)) := by simp
        rw [he] at hch2 hnd hfr hsz hmok hfresh0
        obtain ⟨s1, s2, s3, s4, s5, s6, s7, s8, s9, s10, s11, s12⟩ :=
          add_steady_ghost (insertNewNode c k) c.nextId a0 a1 r AM3 S2
            hch2 hnd hstn hfresh0 hge hnom hinl
        obtain ⟨h0all, hndE⟩ := List.nodup_cons.mp hnd
        obtain ⟨ha0M, hndM⟩ := List.nodup_cons.mp hndE
        rw [List.mem_cons, List.mem_cons] at hfresh0
        push_neg at hfresh0
        obtain ⟨hn0, hna0, hnM⟩ := hfresh0
        have h0a0 : (0 : Nat) ≠ a0 := by
          intro heq
          exact h0all (by rw [heq]; exact List.mem_cons_self a0 _)
        have hmemMid : ∀ x ∈ a1 :: AM3, x ∈ a1 :: (AM3 ++ r :: S2) := by
          intro x hx
          rcases List.mem_cons.mp hx with hx | hx
          · rw [hx]
            exact List.mem_cons_self _ _
          · exact List.mem_cons_of_mem a1 (List.mem_append_left _ hx)
        have hmemS : ∀ x ∈ r :: S2, x ∈ a1 :: (AM3 ++ r :: S2) := by
          intro x hx
          exact List.mem_cons_of_mem a1 (List.mem_append_right _ hx)
        have hLeq : ((([] : List Nat) ++ ([] : List Nat)) ++
            ((a1 :: AM3) ++ [c.nextId])) ++ (r :: S2) =
            a1 :: (AM3 ++ c.nextId :: r :: S2) := by simp
        have hperm : (((([] : List Nat) ++ ([] : List Nat)) ++
            ((a1 :: AM3) ++ [c.nextId])) ++ (r :: S2)).Perm
            ((a1 :: (AM3 ++ r :: S2)) ++ [c.nextId]) := by
          have e1 : ((([] : List Nat) ++ ([] : List Nat)) ++
              ((a1 :: AM3) ++ [c.nextId])) ++ (r :: S2) =
              (a1 :: AM3) ++ c.nextId :: (r :: S2) := by simp
          have e2 : (a1 :: (AM3 ++ r :: S2)) ++ [c.nextId] =
              ((a1 :: AM3) ++ (r :: S2)) ++ [c.nextId] := by simp
          rw [e1, e2]
          exact List.perm_middle.trans
            (List.perm_append_singleton _ _).symm
        have hkeyE : (c.keys a0, a0) ∈ c.map :=
          hmok.2.2.2 a0 (List.mem_cons_self a0 _)
        have hkne : c.keys a0 ≠ k := lookupId_none c.map k hlk _ hkeyE
        have hmap3 : (add_ (insertNewNode c k) c.nextId).1.map =
            (k, c.nextId) :: eraseKey c.map (c.keys a0) := by
          rw [s6]
          have hke2 : (insertNewNode c k).keys a0 = c.keys a0 :=
            insertNewNode_keys_ne c k a0 hna0.symm
          rw [hke2]
          show eraseKey ((k, c.nextId) :: c.map) (c.keys a0) = _
          rw [eraseKey_cons_ne k (c.keys a0) c.nextId c.map hkne]
        obtain ⟨k1, k2, k3, k4⟩ := ginv_core_steady c
          (add_ (insertNewNode c k) c.nextId).1
          (a1 :: (AM3 ++ r :: S2)) _ k a0 hperm hnd hfr hmok hlk hmap3
          (by rw [s11]; exact insertNewNode_keys_self c k)
          (by
            intro j hj
            rw [s11]
            exact insertNewNode_keys_ne c k j hj)
          (by rw [s10]; exact rfl)
          hnx0 hsz (by rw [s7]; exact rfl)
        refine ⟨[], [], (a1 :: AM3) ++ [c.nextId], r :: S2, ?_, k1, k2,
          ?_, ?_, ?_, ?_, ?_, ?_, ?_, k3, k4, ?_, ?_, ?_, ?_, ?_, ?_,
          ?_, ?_, ?_⟩
        · rw [hLeq]
          exact s1
        · intro x hx
          exact absurd hx (List.not_mem_nil x)
        · intro x hx
          exact absurd hx (List.not_mem_nil x)
        · intro x hx
          rcases List.mem_append.mp hx with hx | hx
          · have hxa : x ≠ a0 := fun heq => ha0M (heq ▸ hmemMid x hx)
            have hxn : x ≠ c.nextId :=
              fun heq => hnM (heq ▸ hmemMid x hx)
            rw [s5 x hxa hxn, hst2 x hxn]
            exact hsAM x (List.mem_cons_of_mem a0 hx)
          · rw [List.mem_singleton.mp hx]
            exact s4
        · intro x hx
          have hxa : x ≠ a0 := fun heq => ha0M (heq ▸ hmemS x hx)
          have hxn : x ≠ c.nextId := fun heq => hnM (heq ▸ hmemS x hx)
          rw [s5 x hxa hxn, hst2 x hxn]
          exact hsS x hx
        · exact s2
        · rw [s3]
          exact hinl
        · rw [s5 0 h0a0 hn0.symm, hst2 0 hn0.symm]
          exact hs0
        · rw [s7, s8]
          exact hszle
        · rw [s10]
          show 0 < c.nextId + 1
          omega
        · rw [s9]
          exact hnl0
        · rw [s9, s8]
          exact hnll
        · refine iff_of_false ?_ (by simp)
          rw [s7, s9]
          show ¬ (c.cache_size ≤ c.nominated_limit)
          omega
        · refine iff_of_false ?_ (by simp)
          rw [s7, s9]
          show ¬ (c.cache_size ≤ c.nominated_limit + 1)
          omega
        · intro _
          simp
        · intro hS2
          exact absurd hS2 (by simp)
        · intro _
          simp only [List.length_nil, List.length_append,
            List.length_cons]
          omega
      · rcases RJ2 with _ | ⟨j1, RJ3⟩
        · -- ghost eviction of the only Reused mid node
          rcases AM with _ | ⟨a0, AM2⟩
          · exact absurd rfl hAMne
          have he : ((([] : List Nat) ++ (j0 :: ([] : List Nat))) ++
              (a0 :: AM2)) ++ (r :: S2) =
              j0 :: (a0 :: (AM2 ++ r :: S2)) := by simp
          rw [he] at hch2 hnd hfr hsz hmok hfresh0
          obtain ⟨s1, s2, s3, s4, s5, s6, s7, s8, s9, s10, s11, s12⟩ :=
            add_steady_ghost (insertNewNode c k) c.nextId j0 a0 r AM2 S2
              hch2 hnd hstn hfresh0 hge hnom hinl
          obtain ⟨h0all, hndE⟩ := List.nodup_cons.mp hnd
          obtain ⟨hj0M, hndM⟩ := List.nodup_cons.mp hndE
          rw [List.mem_cons, List.mem_cons] at hfresh0
          push_neg at hfresh0
          obtain ⟨hn0, hnj0, hnM⟩ := hfresh0
          have h0j0 : (0 : Nat) ≠ j0 := by
            intro heq
            exact h0all (by rw [heq]; exact List.mem_cons_self j0 _)
          have hmemMid : ∀ x ∈ a0 :: AM2,
              x ∈ a0 :: (AM2 ++ r :: S2) := by
            intro x hx
            rcases List.mem_cons.mp hx with hx | hx
            · rw [hx]
              exact List.mem_cons_self _ _
            · exact List.mem_cons_of_mem a0 (List.mem_append_left _ hx)
          have hmemS : ∀ x ∈ r :: S2, x ∈ a0 :: (AM2 ++ r :: S2) := by
            intro x hx
            exact List.mem_cons_of_mem a0 (List.mem_append_right _ hx)
          have hLeq : ((([] : List Nat) ++ ([] : List Nat)) ++
              ((a0 :: AM2) ++ [c.nextId])) ++ (r :: S2) =
              a0 :: (AM2 ++ c.nextId :: r :: S2) := by simp
          have hperm : (((([] : List Nat) ++ ([] : List Nat)) ++
              ((a0 :: AM2) ++ [c.nextId])) ++ (r :: S2)).Perm
              ((a0 :: (AM2 ++ r :: S2)) ++ [c.nextId]) := by
            have e1 : ((([] : List Nat) ++ ([] : List Nat)) ++
                ((a0 :: AM2) ++ [c.nextId])) ++ (r :: S2) =
                (a0 :: AM2) ++ c.nextId :: (r :: S2) := by simp
            have e2 : (a0 :: (AM2 ++ r :: S2)) ++ [c.nextId] =
                ((a0 :: AM2) ++ (r :: S2)) ++ [c.nextId] := by simp
            rw [e1, e2]
            exact List.perm_middle.trans
              (List.perm_append_singleton _ _).symm
          have hkeyE : (c.keys j0, j0) ∈ c.map :=
            hmok.2.2.2 j0 (List.mem_cons_self j0 _)
          have hkne : c.keys j0 ≠ k := lookupId_none c.map k hlk _ hkeyE
          have hmap3 : (add_ (insertNewNode c k) c.nextId).1.map =
              (k, c.nextId) :: eraseKey c.map (c.keys j0) := by
            rw [s6]
            have hke2 : (insertNewNode c k).keys j0 = c.keys j0 :=
              insertNewNode_keys_ne c k j0 hnj0.symm
            rw [hke2]
            show eraseKey ((k, c.nextId) :: c.map) (c.keys j0) = _
            rw [eraseKey_cons_ne k (c.keys j0) c.nextId c.map hkne]
          obtain ⟨k1, k2, k3, k4⟩ := ginv_core_steady c
            (add_ (insertNewNode c k) c.nextId).1
            (a0 :: (AM2 ++ r :: S2)) _ k j0 hperm hnd hfr hmok hlk
            hmap3
            (by rw [s11]; exact insertNewNode_keys_self c k)
            (by
              intro j hj
              rw [s11]
              exact insertNewNode_keys_ne c k j hj)
            (by rw [s10]; exact rfl)
            hnx0 hsz (by rw [s7]; exact rfl)
          refine ⟨[], [], (a0 :: AM2) ++ [c.nextId], r :: S2, ?_, k1,
            k2, ?_, ?_, ?_, ?_, ?_, ?_, ?_, k3, k4, ?_, ?_, ?_, ?_, ?_,
            ?_, ?_, ?_, ?_⟩
          · rw [hLeq]
            exact s1
          · intro x hx
            exact absurd hx (List.not_mem_nil x)
          · intro x hx
            exact absurd hx (List.not_mem_nil x)
          · intro x hx
            rcases List.mem_append.mp hx with hx | hx
            · have hxa : x ≠ j0 := fun heq => hj0M (heq ▸ hmemMid x hx)
              have hxn : x ≠ c.nextId :=
                fun heq => hnM (heq ▸ hmemMid x hx)
              rw [s5 x hxa hxn, hst2 x hxn]
              exact hsAM x hx
            · rw [List.mem_singleton.mp hx]
              exact s4
          · intro x hx
            have hxa : x ≠ j0 := fun heq => hj0M (heq ▸ hmemS x hx)
            have hxn : x ≠ c.nextId := fun heq => hnM (heq ▸ hmemS x hx)
            rw [s5 x hxa hxn, hst2 x hxn]
            exact hsS x hx
          · exact s2
          · rw [s3]
            exact hinl
          · rw [s5 0 h0j0 hn0.symm, hst2 0 hn0.symm]
            exact hs0
          · rw [s7, s8]
            exact hszle
          · rw [s10]
            show 0 < c.nextId + 1
            omega
          · rw [s9]
            exact hnl0
          · rw [s9, s8]
            exact hnll
          · refine iff_of_false ?_ (by simp)
            rw [s7, s9]
            show ¬ (c.cache_size ≤ c.nominated_limit)
            omega
          · refine iff_of_false ?_ (by simp)
            rw [s7, s9]
            show ¬ (c.cache_size ≤ c.nominated_limit + 1)
            omega
          · intro _
            simp
          · intro hS2
            exact absurd hS2 (by simp)
          · intro _
            simp only [List.length_nil, List.length_append,
              List.length_cons]
            omega
        · -- ghost eviction of the head of a longer Reused run
          have he : ((([] : List Nat) ++ (j0 :: j1 :: RJ3)) ++ AM) ++
              (r :: S2) = j0 :: (j1 :: ((RJ3 ++ AM) ++ r :: S2)) := by
            simp
          rw [he] at hch2 hnd hfr hsz hmok hfresh0
          obtain ⟨s1, s2, s3, s4, s5, s6, s7, s8, s9, s10, s11, s12⟩ :=
            add_steady_ghost (insertNewNode c k) c.nextId j0 j1 r
              (RJ3 ++ AM) S2 hch2 hnd hstn hfresh0 hge hnom hinl
          obtain ⟨h0all, hndE⟩ := List.nodup_cons.mp hnd
          obtain ⟨hj0M, hndM⟩ := List.nodup_cons.mp hndE
          rw [List.mem_cons, List.mem_cons] at hfresh0
          push_neg at hfresh0
          obtain ⟨hn0, hnj0, hnM⟩ := hfresh0
          have h0j0 : (0 : Nat) ≠ j0 := by
            intro heq
            exact h0all (by rw [heq]; exact List.mem_cons_self j0 _)
          have hmemRJ : ∀ x ∈ j1 :: RJ3,
              x ∈ j1 :: ((RJ3 ++ AM) ++ r :: S2) := by
            intro x hx
            rcases List.mem_cons.mp hx with hx | hx
            · rw [hx]
              exact List.mem_cons_self _ _
            · exact List.mem_cons_of_mem j1
                (List.mem_append_left _ (List.mem_append_left _ hx))
          have hmemAM : ∀ x ∈ AM,
              x ∈ j1 :: ((RJ3 ++ AM) ++ r :: S2) := by
            intro x hx
            exact List.mem_cons_of_mem j1
              (List.mem_append_left _ (List.mem_append_right _ hx))
          have hmemS : ∀ x ∈ r :: S2,
              x ∈ j1 :: ((RJ3 ++ AM) ++ r :: S2) := by
            intro x hx
            exact List.mem_cons_of_mem j1 (List.mem_append_right _ hx)
          have hLeq : ((([] : List Nat) ++ (j1 :: RJ3)) ++
              (AM ++ [c.nextId])) ++ (r :: S2) =
              j1 :: ((RJ3 ++ AM) ++ c.nextId :: r :: S2) := by simp
          have hperm : (((([] : List Nat) ++ (j1 :: RJ3)) ++
              (AM ++ [c.nextId])) ++ (r :: S2)).Perm
              ((j1 :: ((RJ3 ++ AM) ++ r :: S2)) ++ [c.nextId]) := by
            have e1 : ((([] : List Nat) ++ (j1 :: RJ3)) ++
                (AM ++ [c.nextId])) ++ (r :: S2) =
                ((j1 :: RJ3) ++ AM) ++ c.nextId :: (r :: S2) := by simp
            have e2 : (j1 :: ((RJ3 ++ AM) ++ r :: S2)) ++ [c.nextId] =
                (((j1 :: RJ3) ++ AM) ++ (r :: S2)) ++ [c.nextId] := by
              simp
            rw [e1, e2]
            exact List.perm_middle.trans
              (List.perm_append_singleton _ _).symm
          have hkeyE : (c.keys j0, j0) ∈ c.map :=
            hmok.2.2.2 j0 (List.mem_cons_self j0 _)
          have hkne : c.keys j0 ≠ k := lookupId_none c.map k hlk _ hkeyE
          have hmap3 : (add_ (insertNewNode c k) c.nextId).1.map =
              (k, c.nextId) :: eraseKey c.map (c.keys j0) := by
            rw [s6]
            have hke2 : (insertNewNode c k).keys j0 = c.keys j0 :=
              insertNewNode_keys_ne c k j0 hnj0.symm
            rw [hke2]
            show eraseKey ((k, c.nextId) :: c.map) (c.keys j0) = _
            rw [eraseKey_cons_ne k (c.keys j0) c.nextId c.map hkne]
          obtain ⟨k1, k2, k3, k4⟩ := ginv_core_steady c
            (add_ (insertNewNode c k) c.nextId).1
            (j1 :: ((RJ3 ++ AM) ++ r :: S2)) _ k j0 hperm hnd hfr hmok
            hlk hmap3
            (by rw [s11]; exact insertNewNode_keys_self c k)
            (by
              intro j hj
              rw [s11]
              exact insertNewNode_keys_ne c k j hj)
            (by rw [s10]; exact rfl)
            hnx0 hsz (by rw [s7]; exact rfl)
          refine ⟨[], j1 :: RJ3, AM ++ [c.nextId], r :: S2, ?_, k1, k2,
            ?_, ?_, ?_, ?_, ?_, ?_, ?_, k3, k4, ?_, ?_, ?_, ?_, ?_, ?_,
            ?_, ?_, ?_⟩
          · rw [hLeq]
            exact s1
          · intro x hx
            exact absurd hx (List.not_mem_nil x)
          · intro x hx
            have hxa : x ≠ j0 := fun heq => hj0M (heq ▸ hmemRJ x hx)
            have hxn : x ≠ c.nextId :=
              fun heq => hnM (heq ▸ hmemRJ x hx)
            rw [s5 x hxa hxn, hst2 x hxn]
            exact hsRJ x (List.mem_cons_of_mem j0 hx)
          · intro x hx
            rcases List.mem_append.mp hx with hx | hx
            · have hxa : x ≠ j0 := fun heq => hj0M (heq ▸ hmemAM x hx)
              have hxn : x ≠ c.nextId :=
                fun heq => hnM (heq ▸ hmemAM x hx)
              rw [s5 x hxa hxn, hst2 x hxn]
              exact hsAM x hx
            · rw [List.mem_singleton.mp hx]
              exact s4
          · intro x hx
            have hxa : x ≠ j0 := fun heq => hj0M (heq ▸ hmemS x hx)
            have hxn : x ≠ c.nextId := fun heq => hnM (heq ▸ hmemS x hx)
            rw [s5 x hxa hxn, hst2 x hxn]
            exact hsS x hx
          · exact s2
          · rw [s3]
            exact hinl
          · rw [s5 0 h0j0 hn0.symm, hst2 0 hn0.symm]
            exact hs0
          · rw [s7, s8]
            exact hszle
          · rw [s10]
            show 0 < c.nextId + 1
            omega
          · rw [s9]
            exact hnl0
          · rw [s9, s8]
            exact hnll
          · refine iff_of_false ?_ (by simp)
            rw [s7, s9]
            show ¬ (c.cache_size ≤ c.nominated_limit)
            omega
          · refine iff_of_false ?_ (by simp)
            rw [s7, s9]
            show ¬ (c.cache_size ≤ c.nominated_limit + 1)
            omega
          · intro _
            simp
          · intro hS2
            exact absurd hS2 (by simp)
          · intro _
            simp only [List.length_nil, List.length_append,
              List.length_cons]
            omega
    · rcases RJ with _ | ⟨j0, RJ2⟩
      · -- eviction from the prefix, nomination at the Added head
        rcases AM with _ | ⟨a0, AM2⟩
        · exact absurd rfl hAMne
        have he : (((p1 :: P2) ++ ([] : List Nat)) ++ (a0 :: AM2)) ++
            (r :: S2) = p1 :: (P2 ++ a0 :: (AM2 ++ r :: S2)) := by simp
        rw [he] at hch2 hnd hfr hsz hmok hfresh0
        obtain ⟨s1, s2, s3, s4, s5, s6, s7, s8, s9, s10, s11, s12,
          s13⟩ :=
          add_steady_keep (insertNewNode c k) c.nextId p1 a0 r P2 AM2
            S2 hch2 hnd hstn hfresh0 hge hnom hinl
        obtain ⟨h0all, hndE⟩ := List.nodup_cons.mp hnd
        obtain ⟨hp1M, hndM⟩ := List.nodup_cons.mp hndE
        obtain ⟨hndP2, hndRest, hdisjP⟩ := List.nodup_append.mp hndM
        obtain ⟨ha0R, hndR2⟩ := List.nodup_cons.mp hndRest
        rw [List.mem_cons, List.mem_cons] at hfresh0
        push_neg at hfresh0
        obtain ⟨hn0, hnp1, hnM⟩ := hfresh0
        have h0a0 : (0 : Nat) ≠ a0 := by
          intro heq
          refine h0all ?_
          rw [heq]
          exact List.mem_cons_of_mem p1 (List.mem_append_right _
            (List.mem_cons_self a0 _))
        have hmemP2 : ∀ x ∈ P2, x ∈ P2 ++ a0 :: (AM2 ++ r :: S2) :=
          fun x hx => List.mem_append_left _ hx
        have hmemAM : ∀ x ∈ AM2, x ∈ AM2 ++ r :: S2 :=
          fun x hx => List.mem_append_left _ hx
        have hmemS : ∀ x ∈ r :: S2, x ∈ AM2 ++ r :: S2 :=
          fun x hx => List.mem_append_right _ hx
        have hmemM : ∀ x ∈ AM2 ++ r :: S2,
            x ∈ P2 ++ a0 :: (AM2 ++ r :: S2) :=
          fun x hx => List.mem_append_right _
            (List.mem_cons_of_mem a0 hx)
        have hLeq : (((P2 ++ [a0]) ++ ([] : List Nat)) ++
            (AM2 ++ [c.nextId])) ++ (r :: S2) =
            P2 ++ a0 :: (AM2 ++ c.nextId :: r :: S2) := by simp
        have hperm : ((((P2 ++ [a0]) ++ ([] : List Nat)) ++
            (AM2 ++ [c.nextId])) ++ (r :: S2)).Perm
            ((P2 ++ a0 :: (AM2 ++ r :: S2)) ++ [c.nextId]) := by
          have e1 : (((P2 ++ [a0]) ++ ([] : List Nat)) ++
              (AM2 ++ [c.nextId])) ++ (r :: S2) =
              (P2 ++ a0 :: AM2) ++ c.nextId :: (r :: S2) := by simp
          have e2 : (P2 ++ a0 :: (AM2 ++ r :: S2)) ++ [c.nextId] =
              ((P2 ++ a0 :: AM2) ++ (r :: S2)) ++ [c.nextId] := by simp
          rw [e1, e2]
          exact List.perm_middle.trans
            (List.perm_append_singleton _ _).symm
        have hkeyE : (c.keys p1, p1) ∈ c.map :=
          hmok.2.2.2 p1 (List.mem_cons_self p1 _)
        have hkne : c.keys p1 ≠ k := lookupId_none c.map k hlk _ hkeyE
        have hmap3 : (add_ (insertNewNode c k) c.nextId).1.map =
            (k, c.nextId) :: eraseKey c.map (c.keys p1) := by
          rw [s7]
          have hke2 : (insertNewNode c k).keys p1 = c.keys p1 :=
            insertNewNode_keys_ne c k p1 hnp1.symm
          rw [hke2]
          show eraseKey ((k, c.nextId) :: c.map) (c.keys p1) = _
          rw [eraseKey_cons_ne k (c.keys p1) c.nextId c.map hkne]
        obtain ⟨k1, k2, k3, k4⟩ := ginv_core_steady c
          (add_ (insertNewNode c k) c.nextId).1
          (P2 ++ a0 :: (AM2 ++ r :: S2)) _ k p1 hperm hnd hfr hmok hlk
          hmap3
          (by rw [s12]; exact insertNewNode_keys_self c k)
          (by
            intro j hj
            rw [s12]
            exact insertNewNode_keys_ne c k j hj)
          (by rw [s11]; exact rfl)
          hnx0 hsz (by rw [s8]; exact rfl)
        refine ⟨P2 ++ [a0], [], AM2 ++ [c.nextId], r :: S2, ?_, k1, k2,
          ?_, ?_, ?_, ?_, ?_, ?_, ?_, k3, k4, ?_, ?_, ?_, ?_, ?_, ?_,
          ?_, ?_, ?_⟩
        · rw [hLeq]
          exact s1
        · intro x hx
          rcases List.mem_append.mp hx with hx | hx
          · have hxa : x ≠ a0 := by
              intro heq
              refine hdisjP hx ?_
              rw [heq]
              exact List.mem_cons_self a0 _
            have hxn : x ≠ c.nextId :=
              fun heq => hnM (heq ▸ hmemP2 x hx)
            rw [s6 x hxa hxn, hst2 x hxn]
            exact hsP x (List.mem_cons_of_mem p1 hx)
          · rw [List.mem_singleton.mp hx]
            exact Or.inl s4
        · intro x hx
          exact absurd hx (List.not_mem_nil x)
        · intro x hx
          rcases List.mem_append.mp hx with hx | hx
          · have hxa : x ≠ a0 := fun heq => ha0R (heq ▸ hmemAM x hx)
            have hxn : x ≠ c.nextId :=
              fun heq => hnM (heq ▸ hmemM x (hmemAM x hx))
            rw [s6 x hxa hxn, hst2 x hxn]
            exact hsAM x (List.mem_cons_of_mem a0 hx)
          · rw [List.mem_singleton.mp hx]
            exact s5
        · intro x hx
          have hxa : x ≠ a0 := fun heq => ha0R (heq ▸ hmemS x hx)
          have hxn : x ≠ c.nextId :=
            fun heq => hnM (heq ▸ hmemM x (hmemS x hx))
          rw [s6 x hxa hxn, hst2 x hxn]
          exact hsS x hx
        · exact s2
        · rw [s3]
          exact hinl
        · rw [s6 0 h0a0 hn0.symm, hst2 0 hn0.symm]
          exact hs0
        · rw [s8, s9]
          exact hszle
        · rw [s11]
          show 0 < c.nextId + 1
          omega
        · rw [s10]
          exact hnl0
        · rw [s10, s9]
          exact hnll
        · refine iff_of_false ?_ (by simp)
          rw [s8, s10]
          show ¬ (c.cache_size ≤ c.nominated_limit)
          omega
        · refine iff_of_false ?_ (by simp)
          rw [s8, s10]
          show ¬ (c.cache_size ≤ c.nominated_limit + 1)
          omega
        · intro _
          simp
        · intro hS2
          exact absurd hS2 (by simp)
        · intro _
          simp only [List.length_nil, List.length_append,
            List.length_cons]
          omega
      · -- eviction from the prefix, nomination at the Reused-run head
        have he : (((p1 :: P2) ++ (j0 :: RJ2)) ++ AM) ++ (r :: S2) =
            p1 :: (P2 ++ j0 :: ((RJ2 ++ AM) ++ r :: S2)) := by simp
        rw [he] at hch2 hnd hfr hsz hmok hfresh0
        obtain ⟨s1, s2, s3, s4, s5, s6, s7, s8, s9, s10, s11, s12,
          s13⟩ :=
          add_steady_keep (insertNewNode c k) c.nextId p1 j0 r P2
            (RJ2 ++ AM) S2 hch2 hnd hstn hfresh0 hge hnom hinl
        obtain ⟨h0all, hndE⟩ := List.nodup_cons.mp hnd
        obtain ⟨hp1M, hndM⟩ := List.nodup_cons.mp hndE
        obtain ⟨hndP2, hndRest, hdisjP⟩ := List.nodup_append.mp hndM
        obtain ⟨hj0R, hndR2⟩ := List.nodup_cons.mp hndRest
        rw [List.mem_cons, List.mem_cons] at hfresh0
        push_neg at hfresh0
        obtain ⟨hn0, hnp1, hnM⟩ := hfresh0
        have h0j0 : (0 : Nat) ≠ j0 := by
          intro heq
          refine h0all ?_
          rw [heq]
          exact List.mem_cons_of_mem p1 (List.mem_append_right _
            (List.mem_cons_self j0 _))
        have hmemP2 : ∀ x ∈ P2,
            x ∈ P2 ++ j0 :: ((RJ2 ++ AM) ++ r :: S2) :=
          fun x hx => List.mem_append_left _ hx
        have hmemRJ : ∀ x ∈ RJ2, x ∈ (RJ2 ++ AM) ++ r :: S2 :=
          fun x hx => List.mem_append_left _ (List.mem_append_left _ hx)
        have hmemAM : ∀ x ∈ AM, x ∈ (RJ2 ++ AM) ++ r :: S2 :=
          fun x hx =>
            List.mem_append_left _ (List.mem_append_right _ hx)
        have hmemS : ∀ x ∈ r :: S2, x ∈ (RJ2 ++ AM) ++ r :: S2 :=
          fun x hx => List.mem_append_right _ hx
        have hmemM : ∀ x ∈ (RJ2 ++ AM) ++ r :: S2,
            x ∈ P2 ++ j0 :: ((RJ2 ++ AM) ++ r :: S2) :=
          fun x hx => List.mem_append_right _
            (List.mem_cons_of_mem j0 hx)
        have hLeq : (((P2 ++ [j0]) ++ RJ2) ++ (AM ++ [c.nextId])) ++
            (r :: S2) =
            P2 ++ j0 :: ((RJ2 ++ AM) ++ c.nextId :: r :: S2) := by simp
        have hperm : ((((P2 ++ [j0]) ++ RJ2) ++ (AM ++ [c.nextId])) ++
            (r :: S2)).Perm
            ((P2 ++ j0 :: ((RJ2 ++ AM) ++ r :: S2)) ++ [c.nextId]) := by
          have e1 : (((P2 ++ [j0]) ++ RJ2) ++ (AM ++ [c.nextId])) ++
              (r :: S2) =
              (P2 ++ j0 :: (RJ2 ++ AM)) ++ c.nextId :: (r :: S2) := by
            simp
          have e2 : (P2 ++ j0 :: ((RJ2 ++ AM) ++ r :: S2)) ++
              [c.nextId] =
              ((P2 ++ j0 :: (RJ2 ++ AM)) ++ (r :: S2)) ++
                [c.nextId] := by
            simp
          rw [e1, e2]
          exact List.perm_middle.trans
            (List.perm_append_singleton _ _).symm
        have hkeyE : (c.keys p1, p1) ∈ c.map :=
          hmok.2.2.2 p1 (List.mem_cons_self p1 _)
        have hkne : c.keys p1 ≠ k := lookupId_none c.map k hlk _ hkeyE
        have hmap3 : (add_ (insertNewNode c k) c.nextId).1.map =
            (k, c.nextId) :: eraseKey c.map (c.keys p1) := by
          rw [s7]
          have hke2 : (insertNewNode c k).keys p1 = c.keys p1 :=
            insertNewNode_keys_ne c k p1 hnp1.symm
          rw [hke2]
          show eraseKey ((k, c.nextId) :: c.map) (c.keys p1) = _
          rw [eraseKey_cons_ne k (c.keys p1) c.nextId c.map hkne]
        obtain ⟨k1, k2, k3, k4⟩ := ginv_core_steady c
          (add_ (insertNewNode c k) c.nextId).1
          (P2 ++ j0 :: ((RJ2 ++ AM) ++ r :: S2)) _ k p1 hperm hnd hfr
          hmok hlk hmap3
          (by rw [s12]; exact insertNewNode_keys_self c k)
          (by
            intro j hj
            rw [s12]
            exact insertNewNode_keys_ne c k j hj)
          (by rw [s11]; exact rfl)
          hnx0 hsz (by rw [s8]; exact rfl)
        refine ⟨P2 ++ [j0], RJ2, AM ++ [c.nextId], r :: S2, ?_, k1, k2,
          ?_, ?_, ?_, ?_, ?_, ?_, ?_, k3, k4, ?_, ?_, ?_, ?_, ?_, ?_,
          ?_, ?_, ?_⟩
        · rw [hLeq]
          exact s1
        · intro x hx
          rcases List.mem_append.mp hx with hx | hx
          · have hxa : x ≠ j0 := by
              intro heq
              refine hdisjP hx ?_
              rw [heq]
              exact List.mem_cons_self j0 _
            have hxn : x ≠ c.nextId :=
              fun heq => hnM (heq ▸ hmemP2 x hx)
            rw [s6 x hxa hxn, hst2 x hxn]
            exact hsP x (List.mem_cons_of_mem p1 hx)
          · rw [List.mem_singleton.mp hx]
            exact Or.inl s4
        · intro x hx
          have hxa : x ≠ j0 := fun heq => hj0R (heq ▸ hmemRJ x hx)
          have hxn : x ≠ c.nextId :=
            fun heq => hnM (heq ▸ hmemM x (hmemRJ x hx))
          rw [s6 x hxa hxn, hst2 x hxn]
          exact hsRJ x (List.mem_cons_of_mem j0 hx)
        · intro x hx
          rcases List.mem_append.mp hx with hx | hx
          · have hxa : x ≠ j0 := fun heq => hj0R (heq ▸ hmemAM x hx)
            have hxn : x ≠ c.nextId :=
              fun heq => hnM (heq ▸ hmemM x (hmemAM x hx))
            rw [s6 x hxa hxn, hst2 x hxn]
            exact hsAM x hx
          · rw [List.mem_singleton.mp hx]
            exact s5
        · intro x hx
          have hxa : x ≠ j0 := fun heq => hj0R (heq ▸ hmemS x hx)
          have hxn : x ≠ c.nextId :=
            fun heq => hnM (heq ▸ hmemM x (hmemS x hx))
          rw [s6 x hxa hxn, hst2 x hxn]
          exact hsS x hx
        · rw [s2, List.append_assoc]
        · rw [s3]
          exact hinl
        · rw [s6 0 h0j0 hn0.symm, hst2 0 hn0.symm]
          exact hs0
        · rw [s8, s9]
          exact hszle
        · rw [s11]
          show 0 < c.nextId + 1
          omega
        · rw [s10]
          exact hnl0
        · rw [s10, s9]
          exact hnll
        · refine iff_of_false ?_ (by simp)
          rw [s8, s10]
          show ¬ (c.cache_size ≤ c.nominated_limit)
          omega
        · refine iff_of_false ?_ (by simp)
          rw [s8, s10]
          show ¬ (c.cache_size ≤ c.nominated_limit + 1)
          omega
        · intro _
          simp
        · intro hS2
          exact absurd hS2 (by simp)
        · intro _
          simp only [List.length_nil, List.length_append,
            List.length_cons]
          omega
  · -- below capacity: warm-up branches
    have hlt : c.cache_size < c.cache_limit := not_le.mp hge
    rcases Nat.lt_trichotomy c.cache_size c.nominated_limit with
      hlt2 | heq2 | hgt2
    · -- early warm-up: append a Nominated node at the end
      have hmid : RJ ++ AM = [] := hph1.mp (Nat.le_of_lt hlt2)
      obtain ⟨hRJ, hAM⟩ := List.append_eq_nil.mp hmid
      subst hRJ
      subst hAM
      have hS : S = [] := hph2.mp (by omega)
      subst hS
      have hMeq : ((P ++ ([] : List Nat)) ++ ([] : List Nat)) ++
          ([] : List Nat) = P := by simp
      rw [hMeq] at hch2 hnd hfr hsz hmok hfresh0
      obtain ⟨w1, w2, w3, w4, w5, w6, w7, w8, w9, w10, w11, w12⟩ :=
        add_warm1_w (insertNewNode c k) c.nextId P hch2 hnd hstn
          hfresh0 hlt hlt2 hinl
      have hLeq : (((P ++ [c.nextId]) ++ ([] : List Nat)) ++
          ([] : List Nat)) ++ ([] : List Nat) = P ++ [c.nextId] := by
        simp
      have hperm : ((((P ++ [c.nextId]) ++ ([] : List Nat)) ++
          ([] : List Nat)) ++ ([] : List Nat)).Perm
          (P ++ [c.nextId]) := by
        rw [hLeq]
      have hmap3 : (add_ (insertNewNode c k) c.nextId).1.map =
          (k, c.nextId) :: c.map := by
        rw [w6]
        exact rfl
      obtain ⟨k1, k2, k3, k4⟩ := ginv_core_miss c
        (add_ (insertNewNode c k) c.nextId).1 P _ k hperm hnd hfr hmok
        hlk hmap3
        (by rw [w11]; exact insertNewNode_keys_self c k)
        (by
          intro j hj
          rw [w11]
          exact insertNewNode_keys_ne c k j hj)
        (by rw [w10]; exact rfl)
        hnx0 hsz (by rw [w7]; exact rfl)
      rw [List.mem_cons] at hfresh0
      push_neg at hfresh0
      obtain ⟨hn0, hnP⟩ := hfresh0
      refine ⟨P ++ [c.nextId], [], [], [], ?_, k1, k2, ?_, ?_, ?_, ?_,
        ?_, ?_, ?_, k3, k4, ?_, ?_, ?_, ?_, ?_, ?_, ?_, ?_, ?_⟩
      · rw [hLeq]
        exact w1
      · intro x hx
        rcases List.mem_append.mp hx with hx | hx
        · have hxn : x ≠ c.nextId := fun heq => hnP (heq ▸ hx)
          rw [w3 x hxn, hst2 x hxn]
          exact hsP x hx
        · rw [List.mem_singleton.mp hx]
          exact Or.inl w2
      · intro x hx
        exact absurd hx (List.not_mem_nil x)
      · intro x hx
        exact absurd hx (List.not_mem_nil x)
      · intro x hx
        exact absurd hx (List.not_mem_nil x)
      · rw [w4]
        exact hnom
      · rw [w5]
        exact hinl
      · rw [w3 0 hn0.symm, hst2 0 hn0.symm]
        exact hs0
      · rw [w7, w8]
        show c.cache_size + 1 ≤ c.cache_limit
        omega
      · rw [w10]
        show 0 < c.nextId + 1
        omega
      · rw [w9]
        exact hnl0
      · rw [w9, w8]
        exact hnll
      · refine iff_of_true ?_ rfl
        rw [w7, w9]
        show c.cache_size + 1 ≤ c.nominated_limit
        omega
      · refine iff_of_true ?_ rfl
        rw [w7, w9]
        show c.cache_size + 1 ≤ c.nominated_limit + 1
        omega
      · intro h
        exact absurd rfl h
      · intro _
        exact ⟨Or.inl rfl, by simp⟩
      · intro h
        exact absurd rfl h
    · -- count reaches the nominated limit: the new node is nominated
      have hmid : RJ ++ AM = [] := hph1.mp (Nat.le_of_eq heq2)
      obtain ⟨hRJ, hAM⟩ := List.append_eq_nil.mp hmid
      subst hRJ
      subst hAM
      have hS : S = [] := hph2.mp (by omega)
      subst hS
      have hMeq : ((P ++ ([] : List Nat)) ++ ([] : List Nat)) ++
          ([] : List Nat) = P := by simp
      rw [hMeq] at hch2 hnd hfr hsz hmok hfresh0
      obtain ⟨w1, w2, w3, w4, w5, w6, w7, w8, w9, w10, w11, w12⟩ :=
        add_warm2_w (insertNewNode c k) c.nextId P hch2 hnd hstn
          hfresh0 hlt heq2 hinl
      have hLeq : (((P ++ ([] : List Nat)) ++ [c.nextId]) ++
          ([] : List Nat)) = P ++ [c.nextId] := by simp
      have hperm : ((((P ++ ([] : List Nat)) ++ [c.nextId]) ++
          ([] : List Nat))).Perm (P ++ [c.nextId]) := by
        rw [hLeq]
      have hmap3 : (add_ (insertNewNode c k) c.nextId).1.map =
          (k, c.nextId) :: c.map := by
        rw [w6]
        exact rfl
      obtain ⟨k1, k2, k3, k4⟩ := ginv_core_miss c
        (add_ (insertNewNode c k) c.nextId).1 P _ k hperm hnd hfr hmok
        hlk hmap3
        (by rw [w11]; exact insertNewNode_keys_self c k)
        (by
          intro j hj
          rw [w11]
          exact insertNewNode_keys_ne c k j hj)
        (by rw [w10]; exact rfl)
        hnx0 hsz (by rw [w7]; exact rfl)
      rw [List.mem_cons] at hfresh0
      push_neg at hfresh0
      obtain ⟨hn0, hnP⟩ := hfresh0
      refine ⟨P, [], [c.nextId], [], ?_, k1, k2, ?_, ?_, ?_, ?_,
        ?_, ?_, ?_, k3, k4, ?_, ?_, ?_, ?_, ?_, ?_, ?_, ?_, ?_⟩
      · rw [hLeq]
        exact w1
      · intro x hx
        have hxn : x ≠ c.nextId := fun heq => hnP (heq ▸ hx)
        rw [w3 x hxn, hst2 x hxn]
        exact hsP x hx
      · intro x hx
        exact absurd hx (List.not_mem_nil x)
      · intro x hx
        rw [List.mem_singleton.mp hx]
        exact w2
      · intro x hx
        exact absurd hx (List.not_mem_nil x)
      · exact w4
      · rw [w5]
        exact hinl
      · rw [w3 0 hn0.symm, hst2 0 hn0.symm]
        exact hs0
      · rw [w7, w8]
        show c.cache_size + 1 ≤ c.cache_limit
        omega
      · rw [w10]
        show 0 < c.nextId + 1
        omega
      · rw [w9]
        exact hnl0
      · rw [w9, w8]
        exact hnll
      · refine iff_of_false ?_ (by simp)
        rw [w7, w9]
        show ¬ (c.cache_size + 1 ≤ c.nominated_limit)
        omega
      · refine iff_of_true ?_ rfl
        rw [w7, w9]
        show c.cache_size + 1 ≤ c.nominated_limit + 1
        omega
      · intro h
        exact absurd rfl h
      · intro _
        exact ⟨Or.inl rfl, by simp⟩
      · intro h
        exact absurd rfl h
    · -- late warm-up: the chain tail is reclaimed
      rcases S with _ | ⟨r, S2⟩
      · -- the inlet is not yet set: the count is exactly nl + 1
        have hsize : c.cache_size ≤ c.nominated_limit + 1 :=
          hph2.mpr rfl
        obtain ⟨hor, hlen1⟩ := hg7 rfl
        rcases AM with _ | ⟨a0, AM2⟩
        · -- the mid zone is a Reused run
          have hRJne : RJ ≠ [] := by
            intro hRJ
            have hle := hph1.mpr (by rw [hRJ]; rfl)
            omega
          rcases RJ with _ | ⟨j0, RJ2⟩
          · exact absurd rfl hRJne
          rcases RJ2 with _ | ⟨j1, RJ3⟩
          · -- a single Reused nominee: it is reclaimed
            have he : ((P ++ (j0 :: ([] : List Nat))) ++
                ([] : List Nat)) ++ ([] : List Nat) =
                P ++ j0 :: ([] : List Nat) := by simp
            rw [he] at hch2 hnd hfr hsz hmok hfresh0
            obtain ⟨m1, m2, m3, m4, m5, m6, m7, m8, m9, m10, m11, m12,
              m13⟩ :=
              add_warm3_w (insertNewNode c k) c.nextId j0 P []
                hch2 hnd hstn hfresh0 hlt
                (by show ¬ c.cache_size < c.nominated_limit; omega)
                (by show ¬ c.cache_size = c.nominated_limit; omega)
                hnom hinl
            obtain ⟨h0all, hnd2⟩ := List.nodup_cons.mp hnd
            obtain ⟨hndP, hndB, hdisjB⟩ := List.nodup_append.mp hnd2
            rw [List.mem_cons] at hfresh0
            push_neg at hfresh0
            obtain ⟨hn0, hnM⟩ := hfresh0
            have h0j0 : (0 : Nat) ≠ j0 := by
              intro heq
              refine h0all ?_
              rw [heq]
              exact List.mem_append_right _ (List.mem_cons_self j0 _)
            have hLeq : ((P ++ ([] : List Nat)) ++ [c.nextId]) ++
                (j0 :: ([] : List Nat)) =
                P ++ c.nextId :: j0 :: ([] : List Nat) := by simp
            have hperm : (((P ++ ([] : List Nat)) ++ [c.nextId]) ++
                (j0 :: ([] : List Nat))).Perm
                ((P ++ j0 :: ([] : List Nat)) ++ [c.nextId]) := by
              rw [hLeq]
              exact List.perm_middle.trans
                (List.perm_append_singleton _ _).symm
            have hmap3 : (add_ (insertNewNode c k) c.nextId).1.map =
                (k, c.nextId) :: c.map := by
              rw [m7]
              exact rfl
            obtain ⟨k1, k2, k3, k4⟩ := ginv_core_miss c
              (add_ (insertNewNode c k) c.nextId).1
              (P ++ j0 :: ([] : List Nat)) _ k hperm hnd hfr hmok hlk
              hmap3
              (by rw [m12]; exact insertNewNode_keys_self c k)
              (by
                intro j hj
                rw [m12]
                exact insertNewNode_keys_ne c k j hj)
              (by rw [m11]; exact rfl)
              hnx0 hsz (by rw [m8]; exact rfl)
            refine ⟨P, [], [c.nextId], j0 :: [], ?_, k1, k2, ?_, ?_,
              ?_, ?_, ?_, ?_, ?_, k3, k4, ?_, ?_, ?_, ?_, ?_, ?_, ?_,
              ?_, ?_⟩
            · rw [hLeq]
              exact m1
            · intro x hx
              have hxn : x ≠ c.nextId :=
                fun heq => hnM (heq ▸ List.mem_append_left _ hx)
              have hxb : x ≠ j0 := by
                intro heq
                refine hdisjB hx ?_
                rw [heq]
                exact List.mem_cons_self j0 _
              rw [m4 x hxn hxb, hst2 x hxn]
              exact hsP x hx
            · intro x hx
              exact absurd hx (List.not_mem_nil x)
            · intro x hx
              rw [List.mem_singleton.mp hx]
              exact m2
            · intro x hx
              rw [List.mem_singleton.mp hx]
              exact m3
            · exact m5
            · exact m6
            · rw [m4 0 hn0.symm h0j0, hst2 0 hn0.symm]
              exact hs0
            · rw [m8, m9]
              show c.cache_size + 1 ≤ c.cache_limit
              omega
            · rw [m11]
              show 0 < c.nextId + 1
              omega
            · rw [m10]
              exact hnl0
            · rw [m10, m9]
              exact hnll
            · refine iff_of_false ?_ (by simp)
              rw [m8, m10]
              show ¬ (c.cache_size + 1 ≤ c.nominated_limit)
              omega
            · refine iff_of_false ?_ (by simp)
              rw [m8, m10]
              show ¬ (c.cache_size + 1 ≤ c.nominated_limit + 1)
              omega
            · intro _
              simp
            · intro hS2
              exact absurd hS2 (by simp)
            · intro _
              simp only [List.length_append, List.length_cons,
                List.length_nil] at hsz ⊢
              omega
          · -- a longer Reused run: its last element is reclaimed
            obtain ⟨RJm, b, hconc⟩ : ∃ L b, j1 :: RJ3 = L ++ [b] := by
              rcases List.eq_nil_or_concat (j1 :: RJ3) with h | h
              · exact absurd h (by simp)
              · obtain ⟨L, y, h⟩ := h
                exact ⟨L, y, by rw [h, List.concat_eq_append]⟩
            rw [hconc] at hch2 hnd hfr hsz hmok hfresh0 hnom hsRJ
            have he : ((P ++ (j0 :: (RJm ++ [b]))) ++
                ([] : List Nat)) ++ ([] : List Nat) =
                (P ++ j0 :: RJm) ++ b :: ([] : List Nat) := by simp
            rw [he] at hch2 hnd hfr hsz hmok hfresh0
            have hnomj : c.nomination = j0 := hnom
            obtain ⟨h0all, hnd2⟩ := List.nodup_cons.mp hnd
            obtain ⟨hndL, hndB, hdisjB⟩ := List.nodup_append.mp hnd2
            have hfrc := hfresh0
            rw [List.mem_cons] at hfrc
            push_neg at hfrc
            obtain ⟨hn0, hnM⟩ := hfrc
            have hj0b : j0 ≠ b := by
              intro heq
              refine hdisjB
                (List.mem_append_right _ (List.mem_cons_self j0 RJm))
                ?_
              rw [heq]
              exact List.mem_cons_self b _
            have hnomne : (insertNewNode c k).nomination ≠ b := by
              intro hh
              refine hj0b ?_
              rw [← hnomj]
              exact hh
            obtain ⟨m1, m2, m3, m4, m5, m6, m7, m8, m9, m10, m11, m12,
              m13⟩ :=
              add_warm3_keep (insertNewNode c k) c.nextId b
                (P ++ j0 :: RJm) [] hch2 hnd hstn hfresh0 hlt
                (by show ¬ c.cache_size < c.nominated_limit; omega)
                (by show ¬ c.cache_size = c.nominated_limit; omega)
                hnomne hinl
            have hmemL : ∀ x ∈ j0 :: RJm, x ∈ P ++ j0 :: RJm :=
              fun x hx => List.mem_append_right _ hx
            have hmemRJ : ∀ x ∈ j0 :: RJm, x ∈ j0 :: (RJm ++ [b]) := by
              intro x hx
              rcases List.mem_cons.mp hx with hx | hx
              · rw [hx]
                exact List.mem_cons_self _ _
              · exact List.mem_cons_of_mem j0
                  (List.mem_append_left _ hx)
            have h0b : (0 : Nat) ≠ b := by
              intro heq
              refine h0all ?_
              rw [heq]
              exact List.mem_append_right _ (List.mem_cons_self b _)
            have hLeq : ((P ++ (j0 :: RJm)) ++ [c.nextId]) ++
                (b :: ([] : List Nat)) =
                (P ++ j0 :: RJm) ++ c.nextId :: b :: ([] : List Nat) :=
              by simp
            have hperm : (((P ++ (j0 :: RJm)) ++ [c.nextId]) ++
                (b :: ([] : List Nat))).Perm
                (((P ++ j0 :: RJm) ++ b :: ([] : List Nat)) ++
                  [c.nextId]) := by
              rw [hLeq]
              exact List.perm_middle.trans
                (List.perm_append_singleton _ _).symm
            have hmap3 : (add_ (insertNewNode c k) c.nextId).1.map =
                (k, c.nextId) :: c.map := by
              rw [m7]
              exact rfl
            obtain ⟨k1, k2, k3, k4⟩ := ginv_core_miss c
              (add_ (insertNewNode c k) c.nextId).1
              ((P ++ j0 :: RJm) ++ b :: ([] : List Nat)) _ k hperm hnd
              hfr hmok hlk hmap3
              (by rw [m12]; exact insertNewNode_keys_self c k)
              (by
                intro j hj
                rw [m12]
                exact insertNewNode_keys_ne c k j hj)
              (by rw [m11]; exact rfl)
              hnx0 hsz (by rw [m8]; exact rfl)
            refine ⟨P, j0 :: RJm, [c.nextId], b :: [], ?_, k1, k2, ?_,
              ?_, ?_, ?_, ?_, ?_, ?_, k3, k4, ?_, ?_, ?_, ?_, ?_, ?_,
              ?_, ?_, ?_⟩
            · rw [hLeq]
              exact m1
            · intro x hx
              have hxn : x ≠ c.nextId := by
                intro heq
                refine hnM ?_
                rw [← heq]
                exact List.mem_append_left _ (List.mem_append_left _ hx)
              have hxb : x ≠ b := by
                intro heq
                refine hdisjB (List.mem_append_left _ hx) ?_
                rw [heq]
                exact List.mem_cons_self b _
              rw [m4 x hxn hxb, hst2 x hxn]
              exact hsP x hx
            · intro x hx
              have hxn : x ≠ c.nextId := by
                intro heq
                refine hnM ?_
                rw [← heq]
                exact List.mem_append_left _ (hmemL x hx)
              have hxb : x ≠ b := by
                intro heq
                refine hdisjB (hmemL x hx) ?_
                rw [heq]
                exact List.mem_cons_self b _
              rw [m4 x hxn hxb, hst2 x hxn]
              exact hsRJ x (hmemRJ x hx)
            · intro x hx
              rw [List.mem_singleton.mp hx]
              exact m2
            · intro x hx
              rw [List.mem_singleton.mp hx]
              exact m3
            · rw [m5]
              exact hnomj
            · exact m6
            · rw [m4 0 hn0.symm h0b, hst2 0 hn0.symm]
              exact hs0
            · rw [m8, m9]
              show c.cache_size + 1 ≤ c.cache_limit
              omega
            · rw [m11]
              show 0 < c.nextId + 1
              omega
            · rw [m10]
              exact hnl0
            · rw [m10, m9]
              exact hnll
            · refine iff_of_false ?_ (by simp)
              rw [m8, m10]
              show ¬ (c.cache_size + 1 ≤ c.nominated_limit)
              omega
            · refine iff_of_false ?_ (by simp)
              rw [m8, m10]
              show ¬ (c.cache_size + 1 ≤ c.nominated_limit + 1)
              omega
            · intro _
              simp
            · intro hS2
              exact absurd hS2 (by simp)
            · intro _
              simp only [List.length_append, List.length_cons,
                List.length_nil]
              omega
        · -- the mid zone is a single Added node
          have hRJ : RJ = [] := by
            rcases hor with h | h
            · exact h
            · exact absurd h (by simp)
          subst hRJ
          have hAM2 : AM2 = [] := by
            simp only [List.length_cons] at hlen1
            have hz : AM2.length = 0 := by omega
            exact List.length_eq_zero.mp hz
          subst hAM2
          have he : ((P ++ ([] : List Nat)) ++
              (a0 :: ([] : List Nat))) ++ ([] : List Nat) =
              P ++ a0 :: ([] : List Nat) := by simp
          rw [he] at hch2 hnd hfr hsz hmok hfresh0
          obtain ⟨m1, m2, m3, m4, m5, m6, m7, m8, m9, m10, m11, m12,
            m13⟩ :=
            add_warm3_w (insertNewNode c k) c.nextId a0 P []
              hch2 hnd hstn hfresh0 hlt
              (by show ¬ c.cache_size < c.nominated_limit; omega)
              (by show ¬ c.cache_size = c.nominated_limit; omega)
              hnom hinl
          obtain ⟨h0all, hnd2⟩ := List.nodup_cons.mp hnd
          obtain ⟨hndP, hndB, hdisjB⟩ := List.nodup_append.mp hnd2
          rw [List.mem_cons] at hfresh0
          push_neg at hfresh0
          obtain ⟨hn0, hnM⟩ := hfresh0
          have h0a0 : (0 : Nat) ≠ a0 := by
            intro heq
            refine h0all ?_
            rw [heq]
            exact List.mem_append_right _ (List.mem_cons_self a0 _)
          have hLeq : ((P ++ ([] : List Nat)) ++ [c.nextId]) ++
              (a0 :: ([] : List Nat)) =
              P ++ c.nextId :: a0 :: ([] : List Nat) := by simp
          have hperm : (((P ++ ([] : List Nat)) ++ [c.nextId]) ++
              (a0 :: ([] : List Nat))).Perm
              ((P ++ a0 :: ([] : List Nat)) ++ [c.nextId]) := by
            rw [hLeq]
            exact List.perm_middle.trans
              (List.perm_append_singleton _ _).symm
          have hmap3 : (add_ (insertNewNode c k) c.nextId).1.map =
              (k, c.nextId) :: c.map := by
            rw [m7]
            exact rfl
          obtain ⟨k1, k2, k3, k4⟩ := ginv_core_miss c
            (add_ (insertNewNode c k) c.nextId).1
            (P ++ a0 :: ([] : List Nat)) _ k hperm hnd hfr hmok hlk
            hmap3
            (by rw [m12]; exact insertNewNode_keys_self c k)
            (by
              intro j hj
              rw [m12]
              exact insertNewNode_keys_ne c k j hj)
            (by rw [m11]; exact rfl)
            hnx0 hsz (by rw [m8]; exact rfl)
          refine ⟨P, [], [c.nextId], a0 :: [], ?_, k1, k2, ?_, ?_, ?_,
            ?_, ?_, ?_, ?_, k3, k4, ?_, ?_, ?_, ?_, ?_, ?_, ?_, ?_,
            ?_⟩
          · rw [hLeq]
            exact m1
          · intro x hx
            have hxn : x ≠ c.nextId :=
              fun heq => hnM (heq ▸ List.mem_append_left _ hx)
            have hxb : x ≠ a0 := by
              intro heq
              refine hdisjB hx ?_
              rw [heq]
              exact List.mem_cons_self a0 _
            rw [m4 x hxn hxb, hst2 x hxn]
            exact hsP x hx
          · intro x hx
            exact absurd hx (List.not_mem_nil x)
          · intro x hx
            rw [List.mem_singleton.mp hx]
            exact m2
          · intro x hx
            rw [List.mem_singleton.mp hx]
            exact m3
          · exact m5
          · exact m6
          · rw [m4 0 hn0.symm h0a0, hst2 0 hn0.symm]
            exact hs0
          · rw [m8, m9]
            show c.cache_size + 1 ≤ c.cache_limit
            omega
          · rw [m11]
            show 0 < c.nextId + 1
            omega
          · rw [m10]
            exact hnl0
          · rw [m10, m9]
            exact hnll
          · refine iff_of_false ?_ (by simp)
            rw [m8, m10]
            show ¬ (c.cache_size + 1 ≤ c.nominated_limit)
            omega
          · refine iff_of_false ?_ (by simp)
            rw [m8, m10]
            show ¬ (c.cache_size + 1 ≤ c.nominated_limit + 1)
            omega
          · intro _
            simp
          · intro hS2
            exact absurd hS2 (by simp)
          · intro _
            simp only [List.length_append, List.length_cons,
              List.length_nil] at hsz ⊢
            omega
      · -- inlet already set: a new Reused node joins the suffix
        have hgt3 : c.nominated_limit + 1 < c.cache_size := by
          rcases Nat.lt_or_ge (c.nominated_limit + 1) c.cache_size
            with h | h
          · exact h
          · exact absurd (hph2.mp h) (List.cons_ne_nil r S2)
        have hAMne : AM ≠ [] := hg6 (List.cons_ne_nil r S2)
        have hg8s := hg8 (List.cons_ne_nil r S2)
        obtain ⟨AM1, b, hconc⟩ : ∃ L b, AM = L ++ [b] := by
          rcases List.eq_nil_or_concat AM with h | h
          · exact absurd h hAMne
          · obtain ⟨L, y, h⟩ := h
            exact ⟨L, y, by rw [h, List.concat_eq_append]⟩
        subst hconc
        rcases RJ with _ | ⟨j0, RJ2⟩
        · rcases AM1 with _ | ⟨a0, AM1'⟩
          · -- the Added zone is a single node: it is the nominee
            have he : ((P ++ ([] : List Nat)) ++
                (([] : List Nat) ++ [b])) ++ (r :: S2) =
                P ++ b :: (r :: S2) := by simp
            rw [he] at hch2 hnd hfr hsz hmok hfresh0
            obtain ⟨m1, m2, m3, m4, m5, m6, m7, m8, m9, m10, m11, m12,
              m13⟩ :=
              add_warm3_w (insertNewNode c k) c.nextId b P (r :: S2)
                hch2 hnd hstn hfresh0 hlt
                (by show ¬ c.cache_size < c.nominated_limit; omega)
                (by show ¬ c.cache_size = c.nominated_limit; omega)
                hnom hinl
            obtain ⟨h0all, hnd2⟩ := List.nodup_cons.mp hnd
            obtain ⟨hndP, hndBR, hdisjP⟩ := List.nodup_append.mp hnd2
            obtain ⟨hbR, hndR⟩ := List.nodup_cons.mp hndBR
            rw [List.mem_cons] at hfresh0
            push_neg at hfresh0
            obtain ⟨hn0, hnM⟩ := hfresh0
            have h0b : (0 : Nat) ≠ b := by
              intro heq
              refine h0all ?_
              rw [heq]
              exact List.mem_append_right _ (List.mem_cons_self b _)
            have hLeq : ((P ++ ([] : List Nat)) ++ [c.nextId]) ++
                (b :: r :: S2) =
                P ++ c.nextId :: b :: r :: S2 := by simp
            have hperm : (((P ++ ([] : List Nat)) ++ [c.nextId]) ++
                (b :: r :: S2)).Perm
                ((P ++ b :: (r :: S2)) ++ [c.nextId]) := by
              rw [hLeq]
              exact List.perm_middle.trans
                (List.perm_append_singleton _ _).symm
            have hmap3 : (add_ (insertNewNode c k) c.nextId).1.map =
                (k, c.nextId) :: c.map := by
              rw [m7]
              exact rfl
            obtain ⟨k1, k2, k3, k4⟩ := ginv_core_miss c
              (add_ (insertNewNode c k) c.nextId).1
              (P ++ b :: (r :: S2)) _ k hperm hnd hfr hmok hlk hmap3
              (by rw [m12]; exact insertNewNode_keys_self c k)
              (by
                intro j hj
                rw [m12]
                exact insertNewNode_keys_ne c k j hj)
              (by rw [m11]; exact rfl)
              hnx0 hsz (by rw [m8]; exact rfl)
            refine ⟨P, [], [c.nextId], b :: r :: S2, ?_, k1, k2, ?_,
              ?_, ?_, ?_, ?_, ?_, ?_, k3, k4, ?_, ?_, ?_, ?_, ?_, ?_,
              ?_, ?_, ?_⟩
            · rw [hLeq]
              exact m1
            · intro x hx
              have hxn : x ≠ c.nextId :=
                fun heq => hnM (heq ▸ List.mem_append_left _ hx)
              have hxb : x ≠ b := by
                intro heq
                refine hdisjP hx ?_
                rw [heq]
                exact List.mem_cons_self b _
              rw [m4 x hxn hxb, hst2 x hxn]
              exact hsP x hx
            · intro x hx
              exact absurd hx (List.not_mem_nil x)
            · intro x hx
              rw [List.mem_singleton.mp hx]
              exact m2
            · intro x hx
              rcases List.mem_cons.mp hx with hx | hx
              · rw [hx]
                exact m3
              · have hxb : x ≠ b := fun heq => hbR (heq ▸ hx)
                have hxn : x ≠ c.nextId := by
                  intro heq
                  refine hnM ?_
                  rw [← heq]
                  exact List.mem_append_right _
                    (List.mem_cons_of_mem b hx)
                rw [m4 x hxn hxb, hst2 x hxn]
                exact hsS x hx
            · exact m5
            · exact m6
            · rw [m4 0 hn0.symm h0b, hst2 0 hn0.symm]
              exact hs0
            · rw [m8, m9]
              show c.cache_size + 1 ≤ c.cache_limit
              omega
            · rw [m11]
              show 0 < c.nextId + 1
              omega
            · rw [m10]
              exact hnl0
            · rw [m10, m9]
              exact hnll
            · refine iff_of_false ?_ (by simp)
              rw [m8, m10]
              show ¬ (c.cache_size + 1 ≤ c.nominated_limit)
              omega
            · refine iff_of_false ?_ (by simp)
              rw [m8, m10]
              show ¬ (c.cache_size + 1 ≤ c.nominated_limit + 1)
              omega
            · intro _
              simp
            · intro hS2
              exact absurd hS2 (by simp)
            · intro _
              simp only [List.length_append, List.length_cons,
                List.length_nil] at hg8s ⊢
              omega
          · -- a longer Added zone: its last element is reclaimed
            have he : ((P ++ ([] : List Nat)) ++
                ((a0 :: AM1') ++ [b])) ++ (r :: S2) =
                (P ++ a0 :: AM1') ++ b :: (r :: S2) := by simp
            rw [he] at hch2 hnd hfr hsz hmok hfresh0
            have hnomj : c.nomination = a0 := hnom
            obtain ⟨h0all, hnd2⟩ := List.nodup_cons.mp hnd
            obtain ⟨hndL, hndBR, hdisjB⟩ := List.nodup_append.mp hnd2
            obtain ⟨hbR, hndR⟩ := List.nodup_cons.mp hndBR
            have hfrc := hfresh0
            rw [List.mem_cons] at hfrc
            push_neg at hfrc
            obtain ⟨hn0, hnM⟩ := hfrc
            have ha0b : a0 ≠ b := by
              intro heq
              refine hdisjB
                (List.mem_append_right _ (List.mem_cons_self a0 AM1'))
                ?_
              rw [heq]
              exact List.mem_cons_self b _
            have hnomne : (insertNewNode c k).nomination ≠ b := by
              intro hh
              refine ha0b ?_
              rw [← hnomj]
              exact hh
            obtain ⟨m1, m2, m3, m4, m5, m6, m7, m8, m9, m10, m11, m12,
              m13⟩ :=
              add_warm3_keep (insertNewNode c k) c.nextId b
                (P ++ a0 :: AM1') (r :: S2) hch2 hnd hstn hfresh0 hlt
                (by show ¬ c.cache_size < c.nominated_limit; omega)
                (by show ¬ c.cache_size = c.nominated_limit; omega)
                hnomne hinl
            have h0b : (0 : Nat) ≠ b := by
              intro heq
              refine h0all ?_
              rw [heq]
              exact List.mem_append_right _ (List.mem_cons_self b _)
            have hLeq : ((P ++ ([] : List Nat)) ++
                ((a0 :: AM1') ++ [c.nextId])) ++ (b :: r :: S2) =
                (P ++ a0 :: AM1') ++ c.nextId :: b :: r :: S2 := by
              simp
            have hperm : (((P ++ ([] : List Nat)) ++
                ((a0 :: AM1') ++ [c.nextId])) ++ (b :: r :: S2)).Perm
                (((P ++ a0 :: AM1') ++ b :: (r :: S2)) ++
                  [c.nextId]) := by
              rw [hLeq]
              exact List.perm_middle.trans
                (List.perm_append_singleton _ _).symm
            have hmap3 : (add_ (insertNewNode c k) c.nextId).1.map =
                (k, c.nextId) :: c.map := by
              rw [m7]
              exact rfl
            obtain ⟨k1, k2, k3, k4⟩ := ginv_core_miss c
              (add_ (insertNewNode c k) c.nextId).1
              ((P ++ a0 :: AM1') ++ b :: (r :: S2)) _ k hperm hnd hfr
              hmok hlk hmap3
              (by rw [m12]; exact insertNewNode_keys_self c k)
              (by
                intro j hj
                rw [m12]
                exact insertNewNode_keys_ne c k j hj)
              (by rw [m11]; exact rfl)
              hnx0 hsz (by rw [m8]; exact rfl)
            refine ⟨P, [], (a0 :: AM1') ++ [c.nextId], b :: r :: S2,
              ?_, k1, k2, ?_, ?_, ?_, ?_, ?_, ?_, ?_, k3, k4, ?_, ?_,
              ?_, ?_, ?_, ?_, ?_, ?_, ?_⟩
            · rw [hLeq]
              exact m1
            · intro x hx
              have hxn : x ≠ c.nextId := by
                intro heq
                refine hnM ?_
                rw [← heq]
                exact List.mem_append_left _ (List.mem_append_left _ hx)
              have hxb : x ≠ b := by
                intro heq
                refine hdisjB (List.mem_append_left _ hx) ?_
                rw [heq]
                exact List.mem_cons_self b _
              rw [m4 x hxn hxb, hst2 x hxn]
              exact hsP x hx
            · intro x hx
              exact absurd hx (List.not_mem_nil x)
            · intro x hx
              rcases List.mem_append.mp hx with hx | hx
              · have hxn : x ≠ c.nextId := by
                  intro heq
                  refine hnM ?_
                  rw [← heq]
                  exact List.mem_append_left _
                    (List.mem_append_right _ hx)
                have hxb : x ≠ b := by
                  intro heq
                  refine hdisjB (List.mem_append_right _ hx) ?_
                  rw [heq]
                  exact List.mem_cons_self b _
                rw [m4 x hxn hxb, hst2 x hxn]
                exact hsAM x (List.mem_append_left _ hx)
              · rw [List.mem_singleton.mp hx]
                exact m2
            · intro x hx
              rcases List.mem_cons.mp hx with hx | hx
              · rw [hx]
                exact m3
              · have hxb : x ≠ b := fun heq => hbR (heq ▸ hx)
                have hxn : x ≠ c.nextId := by
                  intro heq
                  refine hnM ?_
                  rw [← heq]
                  exact List.mem_append_right _
                    (List.mem_cons_of_mem b hx)
                rw [m4 x hxn hxb, hst2 x hxn]
                exact hsS x hx
            · rw [m5]
              exact hnomj
            · exact m6
            · rw [m4 0 hn0.symm h0b, hst2 0 hn0.symm]
              exact hs0
            · rw [m8, m9]
              show c.cache_size + 1 ≤ c.cache_limit
              omega
            · rw [m11]
              show 0 < c.nextId + 1
              omega
            · rw [m10]
              exact hnl0
            · rw [m10, m9]
              exact hnll
            · refine iff_of_false ?_ (by simp)
              rw [m8, m10]
              show ¬ (c.cache_size + 1 ≤ c.nominated_limit)
              omega
            · refine iff_of_false ?_ (by simp)
              rw [m8, m10]
              show ¬ (c.cache_size + 1 ≤ c.nominated_limit + 1)
              omega
            · intro _
              simp
            · intro hS2
              exact absurd hS2 (by simp)
            · intro _
              simp only [List.length_append, List.length_cons,
                List.length_nil]
              omega
        · -- a Reused run precedes the Added zone
          have he : ((P ++ (j0 :: RJ2)) ++ (AM1 ++ [b])) ++
              (r :: S2) =
              ((P ++ j0 :: RJ2) ++ AM1) ++ b :: (r :: S2) := by simp
          rw [he] at hch2 hnd hfr hsz hmok hfresh0
          have hnomj : c.nomination = j0 := hnom
          obtain ⟨h0all, hnd2⟩ := List.nodup_cons.mp hnd
          obtain ⟨hndL, hndBR, hdisjB⟩ := List.nodup_append.mp hnd2
          obtain ⟨hbR, hndR⟩ := List.nodup_cons.mp hndBR
          have hfrc := hfresh0
          rw [List.mem_cons] at hfrc
          push_neg at hfrc
          obtain ⟨hn0, hnM⟩ := hfrc
          have hj0b : j0 ≠ b := by
            intro heq
            refine hdisjB
              (List.mem_append_left _ (List.mem_append_right _
                (List.mem_cons_self j0 RJ2)))
              ?_
            rw [heq]
            exact List.mem_cons_self b _
          have hnomne : (insertNewNode c k).nomination ≠ b := by
            intro hh
            refine hj0b ?_
            rw [← hnomj]
            exact hh
          obtain ⟨m1, m2, m3, m4, m5, m6, m7, m8, m9, m10, m11, m12,
            m13⟩ :=
            add_warm3_keep (insertNewNode c k) c.nextId b
              ((P ++ j0 :: RJ2) ++ AM1) (r :: S2) hch2 hnd hstn
              hfresh0 hlt
              (by show ¬ c.cache_size < c.nominated_limit; omega)
              (by show ¬ c.cache_size = c.nominated_limit; omega)
              hnomne hinl
          have h0b : (0 : Nat) ≠ b := by
            intro heq
            refine h0all ?_
            rw [heq]
            exact List.mem_append_right _ (List.mem_cons_self b _)
          have hLeq : ((P ++ (j0 :: RJ2)) ++ (AM1 ++ [c.nextId])) ++
              (b :: r :: S2) =
              ((P ++ j0 :: RJ2) ++ AM1) ++ c.nextId :: b :: r :: S2 :=
            by simp
          have hperm : (((P ++ (j0 :: RJ2)) ++ (AM1 ++ [c.nextId])) ++
              (b :: r :: S2)).Perm
              ((((P ++ j0 :: RJ2) ++ AM1) ++ b :: (r :: S2)) ++
                [c.nextId]) := by
            rw [hLeq]
            exact List.perm_middle.trans
              (List.perm_append_singleton _ _).symm
          have hmap3 : (add_ (insertNewNode c k) c.nextId).1.map =
              (k, c.nextId) :: c.map := by
            rw [m7]
            exact rfl
          obtain ⟨k1, k2, k3, k4⟩ := ginv_core_miss c
            (add_ (insertNewNode c k) c.nextId).1
            (((P ++ j0 :: RJ2) ++ AM1) ++ b :: (r :: S2)) _ k hperm
            hnd hfr hmok hlk hmap3
            (by rw [m12]; exact insertNewNode_keys_self c k)
            (by
              intro j hj
              rw [m12]
              exact insertNewNode_keys_ne c k j hj)
            (by rw [m11]; exact rfl)
            hnx0 hsz (by rw [m8]; exact rfl)
          refine ⟨P, j0 :: RJ2, AM1 ++ [c.nextId], b :: r :: S2, ?_,
            k1, k2, ?_, ?_, ?_, ?_, ?_, ?_, ?_, k3, k4, ?_, ?_, ?_,
            ?_, ?_, ?_, ?_, ?_, ?_⟩
          · rw [hLeq]
            exact m1
          · intro x hx
            have hxn : x ≠ c.nextId := by
              intro heq
              refine hnM ?_
              rw [← heq]
              exact List.mem_append_left _ (List.mem_append_left _
                (List.mem_append_left _ hx))
            have hxb : x ≠ b := by
              intro heq
              refine hdisjB (List.mem_append_left _
                (List.mem_append_left _ hx)) ?_
              rw [heq]
              exact List.mem_cons_self b _
            rw [m4 x hxn hxb, hst2 x hxn]
            exact hsP x hx
          · intro x hx
            have hxn : x ≠ c.nextId := by
              intro heq
              refine hnM ?_
              rw [← heq]
              exact List.mem_append_left _ (List.mem_append_left _
                (List.mem_append_right _ hx))
            have hxb : x ≠ b := by
              intro heq
              refine hdisjB (List.mem_append_left _
                (List.mem_append_right _ hx)) ?_
              rw [heq]
              exact List.mem_cons_self b _
            rw [m4 x hxn hxb, hst2 x hxn]
            exact hsRJ x hx
          · intro x hx
            rcases List.mem_append.mp hx with hx | hx
            · have hxn : x ≠ c.nextId := by
                intro heq
                refine hnM ?_
                rw [← heq]
                exact List.mem_append_left _
                  (List.mem_append_right _ hx)
              have hxb : x ≠ b := by
                intro heq
                refine hdisjB (List.mem_append_right _ hx) ?_
                rw [heq]
                exact List.mem_cons_self b _
              rw [m4 x hxn hxb, hst2 x hxn]
              exact hsAM x (List.mem_append_left _ hx)
            · rw [List.mem_singleton.mp hx]
              exact m2
          · intro x hx
            rcases List.mem_cons.mp hx with hx | hx
            · rw [hx]
              exact m3
            · have hxb : x ≠ b := fun heq => hbR (heq ▸ hx)
              have hxn : x ≠ c.nextId := by
                intro heq
                refine hnM ?_
                rw [← heq]
                exact List.mem_append_right _
                  (List.mem_cons_of_mem b hx)
              rw [m4 x hxn hxb, hst2 x hxn]
              exact hsS x hx
          · rw [m5]
            exact hnomj
          · exact m6
          · rw [m4 0 hn0.symm h0b, hst2 0 hn0.symm]
            exact hs0
          · rw [m8, m9]
            show c.cache_size + 1 ≤ c.cache_limit
            omega
          · rw [m11]
            show 0 < c.nextId + 1
            omega
          · rw [m10]
            exact hnl0
          · rw [m10, m9]
            exact hnll
          · refine iff_of_false ?_ (by simp)
            rw [m8, m10]
            show ¬ (c.cache_size + 1 ≤ c.nominated_limit)
            omega
          · refine iff_of_false ?_ (by simp)
            rw [m8, m10]
            show ¬ (c.cache_size + 1 ≤ c.nominated_limit + 1)
            omega
          · intro _
            simp
          · intro hS2
            exact absurd hS2 (by simp)
          · intro _
            simp only [List.length_append, List.length_cons,
              List.length_nil]
            omega

/-- A fetch-or-create preserves the structural invariant, with no
proviso. -/
theorem fetch_preserves_GInv (c : Cache) (k : Int) (hG : GInv c) :
    GInv (fetchState c k) := by
  cases hlk : lookupId c.map k with
  | some i =>
      have hfs : fetchState c k = use_ c i := by
        unfold fetchState
        rw [fetch_hit c k i hlk]
      rw [hfs]
      exact ginv_hit c k i hG hlk
  | none =>
      have hfs : fetchState c k = (add_ (insertNewNode c k) c.nextId).1
          := by
        unfold fetchState
        rw [fetch_miss c k hlk]
      rw [hfs]
      exact ginv_miss c k hG hlk

/-- A freshly constructed cache whose nominated limit is positive and at
least two below capacity satisfies the structural invariant. -/
theorem initCache_GInv (size : Nat) (oc : Option (Int → Int))
    (hev : Bool) (ns as : Nat)
    (h1 : 0 < (initCache size oc hev ns as).nominated_limit)
    (h2 : (initCache size oc hev ns as).nominated_limit + 1 <
      (initCache size oc hev ns as).cache_limit) :
    GInv (initCache size oc hev ns as) := by
  refine ⟨[], [], [], [], ⟨rfl, rfl⟩, ?_, ?_, ?_, ?_, ?_, ?_, rfl, rfl,
    rfl, ⟨rfl, ?_, ?_, ?_⟩, rfl, Nat.zero_le _, ?_, h1, h2, ?_, ?_, ?_,
    ?_, ?_⟩
  · simp
  · intro x hx
    exact absurd hx (List.not_mem_nil x)
  · intro x hx
    exact absurd hx (List.not_mem_nil x)
  · intro x hx
    exact absurd hx (List.not_mem_nil x)
  · intro x hx
    exact absurd hx (List.not_mem_nil x)
  · intro x hx
    exact absurd hx (List.not_mem_nil x)
  · intro p hp
    exact absurd hp (List.not_mem_nil p)
  · exact List.nodup_nil
  · intro i hi
    exact absurd hi (List.not_mem_nil i)
  · exact Nat.one_pos
  · exact iff_of_true (Nat.zero_le _) rfl
  · exact iff_of_true (Nat.zero_le _) rfl
  · intro h
    exact absurd rfl h
  · intro _
    exact ⟨Or.inl rfl, by simp⟩
  · intro h
    exact absurd rfl h

/-- The structural invariant holds after any sequence of fetches. -/
theorem run_GInv (ks : List Int) (c : Cache) (hG : GInv c) :
    GInv (run c ks) := by
  induction ks generalizing c with
  | nil => exact hG
  | cons k ks ih =>
      show GInv (run (fetchState c k) ks)
      exact ih (fetchState c k) (fetch_preserves_GInv c k hG)

/-- `add_` never changes the configured capacity. -/
theorem add_cache_limit_any (c : Cache) (n : Nat) :
    (add_ c n).1.cache_limit = c.cache_limit := by
  unfold add_ boundaryCascadeAdd
  dsimp only
  split
  · rfl
  · split
    · rfl
    · split
      · rfl
      · split <;> rfl

/-- At capacity, `add_` leaves the entry count unchanged (the evicted
entry pays for the inserted one). -/
theorem add_cache_size_ge (c : Cache) (n : Nat)
    (hge : c.cache_size ≥ c.cache_limit) :
    (add_ c n).1.cache_size = c.cache_size := by
  unfold add_
  by_cases hst : (c.h n).state ≠ St.DETACHED
  · rw [if_pos hst]
  · rw [if_neg hst]
    dsimp only
    rw [if_pos hge]
    exact rfl

/-- The events of `add_` at capacity: one eviction report when the
observer is configured, nothing otherwise. -/
theorem add_events_ge (c : Cache) (n : Nat)
    (hst : (c.h n).state = St.DETACHED)
    (hge : c.cache_size ≥ c.cache_limit) :
    (add_ c n).2 = (if c.has_evict then
      [Event.evict (c.keys ((updState c.h n St.ADDED 0).next))
        (c.values ((updState c.h n St.ADDED 0).next))] else []) := by
  unfold add_
  rw [if_neg (by simp [hst])]
  dsimp only
  rw [if_pos hge]

/-- A fetch never changes the configured capacity. -/
theorem fetchState_cache_limit (c : Cache) (k : Int) :
    (fetchState c k).cache_limit = c.cache_limit := by
  cases hlk : lookupId c.map k with
  | some i =>
      have hfs : fetchState c k = use_ c i := by
        unfold fetchState
        rw [fetch_hit c k i hlk]
      rw [hfs]
      exact use_cache_limit c i
  | none =>
      have hfs : fetchState c k = (add_ (insertNewNode c k) c.nextId).1
          := by
        unfold fetchState
        rw [fetch_miss c k hlk]
      rw [hfs]
      rw [add_cache_limit_any]
      exact rfl

/-- A run of fetches never changes the configured capacity. -/
theorem run_cache_limit (ks : List Int) (c : Cache) :
    (run c ks).cache_limit = c.cache_limit := by
  induction ks generalizing c with
  | nil => rfl
  | cons k ks ih =>
      show (run (fetchState c k) ks).cache_limit = c.cache_limit
      rw [ih (fetchState c k), fetchState_cache_limit]

/-- The capacity bound as provable in the model: after any trace on a
validly constructed cache the tracked-entry count (map size = counter)
never exceeds capacity, and a miss at capacity keeps both at capacity
with one eviction event when the observer is configured.  This is a
fact about the model only: the model's steady branch keeps the evicted
node's cell readable after the map erase, whereas the source destroys
the node and, when the nomination marker sits on it, dereferences it
afterwards (see the reachable aliasing state below). -/
theorem ginv_capacity (size : Nat) (oc : Option (Int → Int)) (hev : Bool)
    (ns as : Nat) (ks : List Int) (k : Int) (s : Cache)
    (hA : 0 < (initCache size oc hev ns as).nominated_limit)
    (hB : (initCache size oc hev ns as).nominated_limit <
      (initCache size oc hev ns as).added_limit)
    (hC : (initCache size oc hev ns as).added_limit <
      (initCache size oc hev ns as).cache_limit)
    (hs : s = run (initCache size oc hev ns as) ks) :
    s.map.length = s.cache_size ∧ s.cache_size ≤ size ∧
      (s.cache_size = size → lookupId s.map k = none →
        (fetchState s k).cache_size = size ∧
        (fetchState s k).map.length = size ∧
        (s.has_evict = true → ∃ ek ev,
          fetchEvents s k = createEvents s k ++ [Event.evict ek ev]))
    := by
  have h2 : (initCache size oc hev ns as).nominated_limit + 1 <
      (initCache size oc hev ns as).cache_limit := by omega
  have hG : GInv s := by
    rw [hs]
    exact run_GInv ks _ (initCache_GInv size oc hev ns as hA h2)
  have hlim : s.cache_limit = size := by
    rw [hs, run_cache_limit]
    exact rfl
  have hGc := hG
  obtain ⟨P, RJ, AM, S, hch, hnd, hfr, hsP, hsRJ, hsAM, hsS, hnom, hinl,
    hs0, hmok, hsz, hszle, hnx0, hnl0, hnll, hph1, hph2, hg6, hg7,
    hg8⟩ := hG
  refine ⟨?_, ?_, ?_⟩
  · rw [hmok.1, hsz]
  · rw [← hlim]
    exact hszle
  · intro hcap hmiss
    have hge : s.cache_size ≥ s.cache_limit := by omega
    have hfs : fetchState s k = (add_ (insertNewNode s k) s.nextId).1
        := by
      unfold fetchState
      rw [fetch_miss s k hmiss]
    have hsize2 : (fetchState s k).cache_size = size := by
      rw [hfs, add_cache_size_ge (insertNewNode s k) s.nextId hge]
      exact hcap
    refine ⟨hsize2, ?_, ?_⟩
    · obtain ⟨P2, RJ2, AM2, S2, _, _, _, _, _, _, _, _, _, _, hmok2,
        hsz2, _, _, _, _, _, _, _, _, _⟩ :=
        fetch_preserves_GInv s k hGc
      rw [hmok2.1, ← hsz2]
      exact hsize2
    · intro hhev
      have hstn : ((insertNewNode s k).h s.nextId).state =
          St.DETACHED := by
        rw [insertNewNode_h_self]
      have hfe : fetchEvents s k = createEvents s k ++
          (add_ (insertNewNode s k) s.nextId).2 := by
        unfold fetchEvents
        rw [fetch_miss s k hmiss]
      have hhev2 : (insertNewNode s k).has_evict = true := hhev
      refine ⟨(insertNewNode s k).keys ((updState (insertNewNode s k).h
          s.nextId St.ADDED 0).next),
        (insertNewNode s k).values ((updState (insertNewNode s k).h
          s.nextId St.ADDED 0).next), ?_⟩
      rw [hfe, add_events_ge (insertNewNode s k) s.nextId hstn hge,
        if_pos hhev2]

/-- Concrete instantiation of the capacity theorem: the example cache of
capacity 4 filled by the trace [0, 1, 2, 3]. -/
theorem ginv_capacity_witness :
    0 < eg0.nominated_limit ∧
    eg0.nominated_limit < eg0.added_limit ∧
    eg0.added_limit < eg0.cache_limit ∧
    (egFull.map.length = egFull.cache_size ∧ egFull.cache_size ≤ 4 ∧
      (egFull.cache_size = 4 → lookupId egFull.map 7 = none →
        (fetchState egFull 7).cache_size = 4 ∧
        (fetchState egFull 7).map.length = 4 ∧
        (egFull.has_evict = true → ∃ ek ev,
          fetchEvents egFull 7 = createEvents egFull 7 ++
            [Event.evict ek ev]))) :=
  ⟨by decide, by decide, by decide,
    ginv_capacity 4 none true 0 0 [0, 1, 2, 3] 7 egFull
      (by decide) (by decide) (by decide) rfl⟩

/-- C4: the unconditional capacity claim fails for the program, by a
use-after-free on its eviction path.  On a default-limit cache of
capacity 4 (nominated limit 2, added limit 3, the constructor's asserts
satisfied), the fetch sequence 0, 1, 2, 0, 1, 2, 3 reaches a state at
capacity, with key 4 untracked, where the nomination marker sits on the
sentinel's successor - exactly the node the next insertion evicts.  On
that next miss the source erases the node from the map, destroying it,
and then writes nomination->state and reads nomination->next through
the dangling pointer (lru_test.cpp:117-121); the model proves the count
bound only because its heap keeps the destroyed cell alive. -/
theorem C4_bug_reachable :
    (run (initCache 4 none true 0 0) [0, 1, 2, 0, 1, 2, 3]).nomination
      = ((run (initCache 4 none true 0 0)
          [0, 1, 2, 0, 1, 2, 3]).h 0).next ∧
    (run (initCache 4 none true 0 0) [0, 1, 2, 0, 1, 2, 3]).nomination
      ≠ 0 ∧
    (run (initCache 4 none true 0 0)
        [0, 1, 2, 0, 1, 2, 3]).cache_limit ≤
      (run (initCache 4 none true 0 0)
        [0, 1, 2, 0, 1, 2, 3]).cache_size ∧
    lookupId (run (initCache 4 none true 0 0)
      [0, 1, 2, 0, 1, 2, 3]).map 4 = none := by
  refine ⟨rfl, by decide, by decide, rfl⟩

end LruModel
